import Mathlib

/-!
Chess rules engine (`chess_logic.js`): a shallow embedding

The mutable JavaScript objects are modelled by explicit state passing:

* a `Piece` carries an `id` standing for the identity of the JavaScript object
  (the code compares pieces with `===`), next to its `type` and `color`;
* a `Board` is the grid of `Square`s; writing to a square yields a new board;
* coordinates are `Int` (the code computes `fromRow - 1`, `fromCol - 3`, ...);
* a call that would dereference `null` yields `Err.nullDeref`;
* the mutual recursion between `isCheckState` and `getPossibleMoves` is tied
  through a fuel counter: `Err.outOfFuel` stands for a call chain deeper than
  the fuel given;
* the turn counter is a JavaScript number, a double: the model carries its
  value as a `Nat` and `Game.incrementTurn` rounds `turn + 1` as the double
  addition does.
-/

namespace Chess

/-! ## Constants -/

inductive PieceType where
  | PAWN | ROOK | KNIGHT | BISHOP | QUEEN | KING
deriving DecidableEq, Repr

inductive PieceColor where
  | WHITE | BLACK
deriving DecidableEq, Repr

/-- The four move kinds of the source; `OTHER` stands for any value of the
`type` field that is none of the four. -/
inductive MoveType where
  | NORMAL | CAPTURE | EN_PASSANT | CASTLING | OTHER
deriving DecidableEq, Repr

/-- The ways a call can fail to return a value. -/
inductive Err where
  | nullDeref
  | outOfFuel
  | referenceError
deriving DecidableEq, Repr

deriving instance DecidableEq for Except

/-! ## Core classes -/

structure Piece where
  id : Nat
  type : PieceType
  color : PieceColor
deriving DecidableEq, Repr

structure Square where
  occupyingPiece : Option Piece
deriving DecidableEq, Repr

def Square.occupiedState (sq : Square) : Bool :=
  sq.occupyingPiece.isSome

structure Board where
  squares : Int → Int → Square

def Board.MIN_ROW (_ : Board) : Int := 1
def Board.MAX_ROW (_ : Board) : Int := 8
def Board.MIN_COL (_ : Board) : Int := 1
def Board.MAX_COL (_ : Board) : Int := 8

def Board.getSquare (b : Board) (row col : Int) : Option Square :=
  if row < 1 ∨ row > 8 ∨ col < 1 ∨ col > 8 then none else some (b.squares row col)

/-- The board after the assignment `squares[row][col].occupyingPiece = p`. -/
def Board.setOccupant (b : Board) (row col : Int) (p : Option Piece) : Board :=
  { squares := fun r c => if r = row ∧ c = col then { occupyingPiece := p } else b.squares r c }

/-- The expression `board.getSquare(row, col).occupySquare(piece)`. -/
def Board.occupySquare (b : Board) (row col : Int) (piece : Option Piece) :
    Except Err (Bool × Board) :=
  match b.getSquare row col with
  | none => .error .nullDeref
  | some _ => .ok (true, b.setOccupant row col piece)

/-- The expression `board.getSquare(row, col).removeOccupyingPiece()`. -/
def Board.removeOccupyingPiece (b : Board) (row col : Int) :
    Except Err (Option Piece × Board) :=
  match b.getSquare row col with
  | none => .error .nullDeref
  | some sq => .ok (sq.occupyingPiece, b.setOccupant row col none)

/-- The expression `board.getSquare(row, col).occupiedState()`. -/
def Board.occupiedAt (b : Board) (row col : Int) : Except Err Bool :=
  match b.getSquare row col with
  | none => .error .nullDeref
  | some sq => .ok sq.occupiedState

/-- The occupant read in the loops `for r = 1..8, for c = 1..8`, where the
square always exists. -/
def Board.occupant (b : Board) (row col : Int) : Option Piece :=
  match b.getSquare row col with
  | none => none
  | some sq => sq.occupyingPiece

structure Pos where
  row : Int
  col : Int
deriving DecidableEq, Repr

structure Move where
  type : MoveType
  from_ : Pos
  to_ : Pos
  movedPiece : Piece
  capturedPiece : Option Piece
deriving DecidableEq, Repr

/-- The constructor `new Move(type, fromRow, fromCol, toRow, toCol, movedPiece,
capturedPiece)`. Its body reads the identifier `col`, which is neither a
parameter nor declared anywhere in the module: `globalCol` is the value bound
to the name `col` on the global object, `none` when there is no such binding,
as in the repository. -/
def Move.new (globalCol : Option Int) (type : MoveType) (fromRow fromCol toRow _toCol : Int)
    (movedPiece : Piece) (capturedPiece : Option Piece) : Except Err Move :=
  match globalCol with
  | none => .error .referenceError
  | some col =>
    .ok (Move.mk type (Pos.mk fromRow fromCol) (Pos.mk toRow col) movedPiece capturedPiece)

structure GameStatus where
  whiteKingMoved : Bool
  blackKingMoved : Bool
  whiteFirstColRookMoved : Bool
  whiteLastColRookMoved : Bool
  blackFirstColRookMoved : Bool
  blackLastColRookMoved : Bool
  enPassantablePiece : PieceColor → Option Piece

def GameStatus.new : GameStatus :=
  { whiteKingMoved := false, blackKingMoved := false,
    whiteFirstColRookMoved := false, whiteLastColRookMoved := false,
    blackFirstColRookMoved := false, blackLastColRookMoved := false,
    enPassantablePiece := fun _ => none }

def GameStatus.setKingMove (s : GameStatus) (color : PieceColor) : GameStatus :=
  if color = .WHITE then { s with whiteKingMoved := true } else { s with blackKingMoved := true }

def GameStatus.isKingMoved (s : GameStatus) (color : PieceColor) : Bool :=
  if color = .WHITE then s.whiteKingMoved else s.blackKingMoved

def GameStatus.setFirstColRookMove (s : GameStatus) (color : PieceColor) : GameStatus :=
  if color = .WHITE then { s with whiteFirstColRookMoved := true }
  else { s with blackFirstColRookMoved := true }

def GameStatus.isFirstColRookMoved (s : GameStatus) (color : PieceColor) : Bool :=
  if color = .WHITE then s.whiteFirstColRookMoved else s.blackFirstColRookMoved

def GameStatus.setLastColRookMove (s : GameStatus) (color : PieceColor) : GameStatus :=
  if color = .WHITE then { s with whiteLastColRookMoved := true }
  else { s with blackLastColRookMoved := true }

def GameStatus.isLastColRookMoved (s : GameStatus) (color : PieceColor) : Bool :=
  if color = .WHITE then s.whiteLastColRookMoved else s.blackLastColRookMoved

def GameStatus.setPieceEnPassantable (s : GameStatus) (color : PieceColor)
    (piece : Option Piece) : GameStatus :=
  { s with enPassantablePiece := fun c => if c = color then piece else s.enPassantablePiece c }

def GameStatus.getPieceEnPassantable (s : GameStatus) (color : PieceColor) : Option Piece :=
  s.enPassantablePiece color

/-! ## Gameplay: move application -/

namespace Gameplay

/-- The expression
`board.getSquare(to).occupySquare(board.getSquare(from).removeOccupyingPiece())`:
the receiver is looked up first, then the argument is evaluated. -/
def relocate (b : Board) (fromRow fromCol toRow toCol : Int) : Except Err (Bool × Board) :=
  match b.getSquare toRow toCol with
  | none => .error .nullDeref
  | some _ =>
    match b.removeOccupyingPiece fromRow fromCol with
    | .error e => .error e
    | .ok (piece, b1) => b1.occupySquare toRow toCol piece

/-- The king/rook flag bookkeeping shared by the NORMAL and CAPTURE cases. -/
def kingRookFlags (status : GameStatus) (board : Board) (m : Move) : GameStatus :=
  if m.movedPiece.type = .KING then status.setKingMove m.movedPiece.color
  else if m.movedPiece.type = .ROOK then
    if m.from_.col = board.MIN_COL then status.setFirstColRookMove m.movedPiece.color
    else if m.from_.col = board.MAX_COL then status.setLastColRookMove m.movedPiece.color
    else status
  else status

/-- `Gameplay.move(status, board, move)`: the returned flag with the status
and the board after the call. -/
def move (status : GameStatus) (board : Board) (m : Move) :
    Except Err (Bool × GameStatus × Board) :=
  match m.type with
  | .NORMAL =>
    let status1 :=
      if m.movedPiece.type = .PAWN ∧ (m.to_.row - m.from_.row).natAbs = 2 then
        status.setPieceEnPassantable m.movedPiece.color (some m.movedPiece)
      else kingRookFlags status board m
    match relocate board m.from_.row m.from_.col m.to_.row m.to_.col with
    | .error e => .error e
    | .ok (r, b1) => .ok (r, status1, b1)
  | .CAPTURE =>
    let status1 := kingRookFlags status board m
    match board.removeOccupyingPiece m.to_.row m.to_.col with
    | .error e => .error e
    | .ok (_, b0) =>
      match relocate b0 m.from_.row m.from_.col m.to_.row m.to_.col with
      | .error e => .error e
      | .ok (r, b1) => .ok (r, status1, b1)
  | .EN_PASSANT =>
    match board.removeOccupyingPiece m.from_.row m.to_.col with
    | .error e => .error e
    | .ok (_, b0) =>
      match relocate b0 m.from_.row m.from_.col m.to_.row m.to_.col with
      | .error e => .error e
      | .ok (r, b1) => .ok (r, status, b1)
  | .CASTLING =>
    let rookOriginCol : Int := if m.to_.col < m.from_.col then board.MIN_COL else board.MAX_COL
    let rookDestCol : Int := if m.to_.col < m.from_.col then m.from_.col - 1 else m.from_.col + 1
    match relocate board m.from_.row m.from_.col m.to_.row m.to_.col with
    | .error e => .error e
    | .ok (_, b1) =>
      match relocate b1 m.from_.row rookOriginCol m.to_.row rookDestCol with
      | .error e => .error e
      | .ok (_, b2) =>
        let status1 := status.setKingMove m.movedPiece.color
        let status2 :=
          if rookOriginCol = board.MIN_COL then status1.setFirstColRookMove m.movedPiece.color
          else status1.setLastColRookMove m.movedPiece.color
        .ok (true, status2, b2)
  | .OTHER => .ok (false, status, board)

/-! ## Gameplay: pseudo-legal move generation -/

/-- The check test consulted by the king's castling rule: `isCheckState` at
the recursion depth below the current one. -/
abbrev Oracle := GameStatus → Board → PieceColor → Except Err Bool

/-- The closure `addMove` of `getPossibleMoves`: the moves it pushes. -/
def addMove (piece : Piece) (fromRow fromCol : Int) (type : MoveType) (r c : Int)
    (cap : Option Piece) : List Move :=
  if r ≥ 1 ∧ r ≤ 8 ∧ c ≥ 1 ∧ c ≤ 8 then
    [{ type := type, from_ := { row := fromRow, col := fromCol }, to_ := { row := r, col := c },
       movedPiece := piece, capturedPiece := cap }]
  else []

def opColor (color : PieceColor) : PieceColor :=
  if color = .WHITE then .BLACK else .WHITE

/-- The pawn's single and double step. -/
def pawnAdvance (board : Board) (piece : Piece) (fromRow fromCol : Int) : List Move :=
  let dir : Int := if piece.color = .WHITE then 1 else -1
  let startRow : Int := if piece.color = .WHITE then 2 else 7
  match board.getSquare (fromRow + dir) fromCol with
  | none => []
  | some sq =>
    if !sq.occupiedState then
      addMove piece fromRow fromCol .NORMAL (fromRow + dir) fromCol none ++
        (if fromRow = startRow then
          match board.getSquare (fromRow + 2 * dir) fromCol with
          | none => []
          | some sq2 =>
            if !sq2.occupiedState then
              addMove piece fromRow fromCol .NORMAL (fromRow + 2 * dir) fromCol none
            else []
        else [])
    else []

/-- One iteration of the pawn's capture loop, for column `c`. -/
def pawnCapture (board : Board) (piece : Piece) (fromRow fromCol c : Int) : List Move :=
  let dir : Int := if piece.color = .WHITE then 1 else -1
  match board.getSquare (fromRow + dir) c with
  | none => []
  | some sq =>
    match sq.occupyingPiece with
    | none => []
    | some q =>
      if q.color ≠ piece.color then
        addMove piece fromRow fromCol .CAPTURE (fromRow + dir) c (some q)
      else []

/-- One iteration of the pawn's en-passant loop, for column `c`. -/
def pawnEnPassant (status : GameStatus) (board : Board) (piece : Piece)
    (fromRow fromCol c : Int) : List Move :=
  let dir : Int := if piece.color = .WHITE then 1 else -1
  match board.getSquare fromRow c with
  | none => []
  | some sq =>
    match sq.occupyingPiece with
    | none => []
    | some q =>
      if q.type = .PAWN ∧ q.color ≠ piece.color ∧
          status.getPieceEnPassantable (opColor piece.color) = some q then
        addMove piece fromRow fromCol .EN_PASSANT (fromRow + dir) c (some q)
      else []

/-- The PAWN case of `getPossibleMoves`. -/
def pawnMoves (status : GameStatus) (board : Board) (piece : Piece)
    (fromRow fromCol : Int) : List Move :=
  let epRow : Int := if piece.color = .WHITE then 5 else 4
  pawnAdvance board piece fromRow fromCol ++
    [fromCol - 1, fromCol + 1].flatMap (pawnCapture board piece fromRow fromCol) ++
    (if fromRow = epRow then
      [fromCol - 1, fromCol + 1].flatMap (pawnEnPassant status board piece fromRow fromCol)
    else [])

/-- The `while` loop of `addSlidingMoves` for one direction, from square
`(r, c)` on. The loop leaves the board after at most eight rounds for a
non-zero step, which is the count it is started with. -/
def slideRay (board : Board) (piece : Piece) (fromRow fromCol dr dc : Int) :
    Nat → Int → Int → List Move
  | 0, _, _ => []
  | n + 1, r, c =>
    if r ≥ 1 ∧ r ≤ 8 ∧ c ≥ 1 ∧ c ≤ 8 then
      match board.getSquare r c with
      | none => []
      | some sq =>
        match sq.occupyingPiece with
        | none =>
          { type := .NORMAL, from_ := { row := fromRow, col := fromCol },
            to_ := { row := r, col := c }, movedPiece := piece, capturedPiece := none } ::
            slideRay board piece fromRow fromCol dr dc n (r + dr) (c + dc)
        | some q =>
          if q.color ≠ piece.color then
            [{ type := .CAPTURE, from_ := { row := fromRow, col := fromCol },
               to_ := { row := r, col := c }, movedPiece := piece, capturedPiece := some q }]
          else []
    else []

def addSlidingMoves (board : Board) (piece : Piece) (fromRow fromCol : Int)
    (dirs : List (Int × Int)) : List Move :=
  dirs.flatMap fun d =>
    slideRay board piece fromRow fromCol d.1 d.2 8 (fromRow + d.1) (fromCol + d.2)

/-- The offset loop shared by the KNIGHT and KING cases. -/
def stepMoves (board : Board) (piece : Piece) (fromRow fromCol : Int)
    (offsets : List (Int × Int)) : List Move :=
  offsets.flatMap fun d =>
    let r := fromRow + d.1
    let c := fromCol + d.2
    match board.getSquare r c with
    | none => []
    | some sq =>
      match sq.occupyingPiece with
      | none => addMove piece fromRow fromCol .NORMAL r c none
      | some q =>
        if q.color ≠ piece.color then addMove piece fromRow fromCol .CAPTURE r c (some q)
        else []

def rookDirs : List (Int × Int) := [(1, 0), (-1, 0), (0, 1), (0, -1)]
def bishopDirs : List (Int × Int) := [(1, 1), (1, -1), (-1, 1), (-1, -1)]
def queenDirs : List (Int × Int) :=
  [(1, 0), (-1, 0), (0, 1), (0, -1), (1, 1), (1, -1), (-1, 1), (-1, -1)]
def knightOffsets : List (Int × Int) :=
  [(2, 1), (2, -1), (-2, 1), (-2, -1), (1, 2), (1, -2), (-1, 2), (-1, -2)]
def kingOffsets : List (Int × Int) :=
  [(1, 0), (-1, 0), (0, 1), (0, -1), (1, 1), (1, -1), (-1, 1), (-1, -1)]

/-- The conjunction `!sq(cols[0]).occupiedState() && !sq(cols[1]).occupiedState() && ...`
over the columns `cols` of row `row`, evaluated left to right and stopping at
the first occupied square. -/
def pathClear (board : Board) (row : Int) : List Int → Except Err Bool
  | [] => .ok true
  | c :: cs =>
    match board.occupiedAt row c with
    | .error e => .error e
    | .ok true => .ok false
    | .ok false => pathClear board row cs

/-- One side of the castling rule: the rook test on column `rookCol`, then the
path test, then `addMove(CASTLING, fromRow, toCol)`. -/
def castleSide (board : Board) (piece : Piece) (fromRow fromCol : Int)
    (rookCol : Int) (rookMoved : Bool) (path : List Int) (toCol : Int) :
    Except Err (List Move) :=
  match board.occupant fromRow rookCol with
  | none => .ok []
  | some rook =>
    if rook.type = .ROOK ∧ rookMoved = false then
      match pathClear board fromRow path with
      | .error e => .error e
      | .ok true => .ok (addMove piece fromRow fromCol .CASTLING fromRow toCol none)
      | .ok false => .ok []
    else .ok []

/-- The castling part of the KING case. -/
def castlingMoves (chk : Oracle) (status : GameStatus) (board : Board) (piece : Piece)
    (fromRow fromCol : Int) : Except Err (List Move) :=
  if status.isKingMoved piece.color then .ok []
  else
    match chk status board piece.color with
    | .error e => .error e
    | .ok true => .ok []
    | .ok false =>
      match castleSide board piece fromRow fromCol board.MAX_COL
          (status.isLastColRookMoved piece.color) [fromCol + 1, fromCol + 2] (fromCol + 2) with
      | .error e => .error e
      | .ok kingSide =>
        match castleSide board piece fromRow fromCol board.MIN_COL
            (status.isFirstColRookMoved piece.color)
            [fromCol - 1, fromCol - 2, fromCol - 3] (fromCol - 2) with
        | .error e => .error e
        | .ok queenSide => .ok (kingSide ++ queenSide)

/-- The body of `getPossibleMoves` for a piece that is not `null`, with the
check test of the castling rule given by `chk`. -/
def getPossibleMovesCore (chk : Oracle) (status : GameStatus) (board : Board) (piece : Piece)
    (fromRow fromCol : Int) : Except Err (List Move) :=
  match piece.type with
  | .PAWN => .ok (pawnMoves status board piece fromRow fromCol)
  | .ROOK => .ok (addSlidingMoves board piece fromRow fromCol rookDirs)
  | .BISHOP => .ok (addSlidingMoves board piece fromRow fromCol bishopDirs)
  | .QUEEN => .ok (addSlidingMoves board piece fromRow fromCol queenDirs)
  | .KNIGHT => .ok (stepMoves board piece fromRow fromCol knightOffsets)
  | .KING =>
    match castlingMoves chk status board piece fromRow fromCol with
    | .error e => .error e
    | .ok castles => .ok (stepMoves board piece fromRow fromCol kingOffsets ++ castles)

/-! ## Gameplay: check detection -/

def range18 : List Int := [1, 2, 3, 4, 5, 6, 7, 8]

/-- The squares in the order of the loops `for r = 1..8, for c = 1..8`. -/
def allSquares : List (Int × Int) :=
  range18.flatMap fun r => range18.map fun c => (r, c)

/-- The first loop of `isCheckState`: the first square, in scan order, that
holds a king of colour `color`. -/
def findKing (board : Board) (color : PieceColor) : Option Pos :=
  (allSquares.find? fun rc =>
    match board.occupant rc.1 rc.2 with
    | none => false
    | some p => decide (p.type = .KING ∧ p.color = color)).map
    fun rc => { row := rc.1, col := rc.2 }

/-- The second loop of `isCheckState`, over the squares still to be scanned. -/
def scanAttack (chk : Oracle) (status : GameStatus) (board : Board) (color : PieceColor)
    (kingPos : Pos) : List (Int × Int) → Except Err Bool
  | [] => .ok false
  | rc :: rest =>
    match board.occupant rc.1 rc.2 with
    | none => scanAttack chk status board color kingPos rest
    | some p =>
      if p.color ≠ color then
        match getPossibleMovesCore chk status board p rc.1 rc.2 with
        | .error e => .error e
        | .ok moves =>
          if moves.any fun m => decide (m.to_.row = kingPos.row ∧ m.to_.col = kingPos.col) then
            .ok true
          else scanAttack chk status board color kingPos rest
      else scanAttack chk status board color kingPos rest

/-- The body of `isCheckState`, its calls of `getPossibleMoves` using `chk`
for the nested check test. -/
def isCheckStateStep (chk : Oracle) (status : GameStatus) (board : Board)
    (color : PieceColor) : Except Err Bool :=
  match findKing board color with
  | none => .ok false
  | some kingPos => scanAttack chk status board color kingPos allSquares

/-- `isCheckState(status, board, color)` with a bound `fuel` on the depth of
nested `isCheckState` calls. -/
def isCheckState : Nat → Oracle
  | 0 => fun _ _ _ => .error .outOfFuel
  | fuel + 1 => isCheckStateStep (isCheckState fuel)

/-- `getPossibleMoves(status, board, piece, fromRow, fromCol)`. -/
def getPossibleMoves (fuel : Nat) (status : GameStatus) (board : Board) (piece : Option Piece)
    (fromRow fromCol : Int) : Except Err (List Move) :=
  match piece with
  | none => .ok []
  | some p => getPossibleMovesCore (isCheckState fuel) status board p fromRow fromCol

/-! ## Gameplay: legality filter and checkmate -/

/-- The `filter` callback of `getValidMoves` run over the moves `ms`: each
move is tried on the board and reverted; the board is threaded through. -/
def dryRunFilter (fuel : Nat) (status : GameStatus) (piece : Piece) :
    List Move → Board → Except Err (List Move × Board)
  | [], board => .ok ([], board)
  | m :: ms, board =>
    match board.getSquare m.to_.row m.to_.col with
    | none => .error .nullDeref
    | some targetSq =>
      let originalPiece := targetSq.occupyingPiece
      match board.getSquare m.from_.row m.from_.col with
      | none => .error .nullDeref
      | some _ =>
        let b1 := board.setOccupant m.to_.row m.to_.col (some piece)
        let b2 := b1.setOccupant m.from_.row m.from_.col none
        match isCheckState fuel status b2 piece.color with
        | .error e => .error e
        | .ok inCheck =>
          let b3 := b2.setOccupant m.from_.row m.from_.col (some piece)
          let b4 := b3.setOccupant m.to_.row m.to_.col originalPiece
          match dryRunFilter fuel status piece ms b4 with
          | .error e => .error e
          | .ok (kept, bEnd) => .ok (if inCheck then kept else m :: kept, bEnd)

/-- `getValidMoves(status, board, piece, row, col)`: the moves kept and the
board after the call. -/
def getValidMoves (fuel : Nat) (status : GameStatus) (board : Board) (piece : Option Piece)
    (row col : Int) : Except Err (List Move × Board) :=
  match getPossibleMoves fuel status board piece row col with
  | .error e => .error e
  | .ok possible =>
    match piece with
    | none => .ok ([], board)
    | some p => dryRunFilter fuel status p possible board

/-- The loop of `isCheckMateState` over the squares still to be scanned. -/
def mateScan (fuel : Nat) (status : GameStatus) (color : PieceColor) :
    List (Int × Int) → Board → Except Err (Bool × Board)
  | [], board => .ok (true, board)
  | rc :: rest, board =>
    match board.occupant rc.1 rc.2 with
    | none => mateScan fuel status color rest board
    | some p =>
      if p.color = color then
        match getValidMoves fuel status board (some p) rc.1 rc.2 with
        | .error e => .error e
        | .ok (valid, b1) =>
          if valid.length > 0 then .ok (false, b1)
          else mateScan fuel status color rest b1
      else mateScan fuel status color rest board

/-- `isCheckMateState(status, board, color)`: the result and the board after
the call. -/
def isCheckMateState (fuel : Nat) (status : GameStatus) (board : Board) (color : PieceColor) :
    Except Err (Bool × Board) :=
  match isCheckState fuel status board color with
  | .error e => .error e
  | .ok false => .ok (false, board)
  | .ok true => mateScan fuel status color allSquares board

end Gameplay

/-! ## Game -/

/-- The fields of a `Game`; `turn` is the value of the number `this.turn`, a
double holding a non-negative integer. -/
structure Game where
  board : Board
  status : GameStatus
  turn : Nat

namespace Game

def emptyBoard : Board := { squares := fun _ _ => { occupyingPiece := none } }

def layout : List PieceType :=
  [.ROOK, .KNIGHT, .BISHOP, .QUEEN, .KING, .BISHOP, .KNIGHT, .ROOK]

/-- The loop `for c = 1..8` placing new pawns on `secondRow`; `nextId` is the
identity given to the next `new Piece`. -/
def placePawns (color : PieceColor) (secondRow : Int) :
    List Int → Board → Nat → Board × Nat
  | [], board, nextId => (board, nextId)
  | c :: cs, board, nextId =>
    placePawns color secondRow cs
      (board.setOccupant secondRow c (some { id := nextId, type := .PAWN, color := color }))
      (nextId + 1)

/-- The loop `layout.forEach((type, i) => ...)` placing new pieces on
`firstRow`, column `i + 1`. -/
def placeLayout (color : PieceColor) (firstRow : Int) :
    List PieceType → Int → Board → Nat → Board × Nat
  | [], _, board, nextId => (board, nextId)
  | t :: ts, i, board, nextId =>
    placeLayout color firstRow ts (i + 1)
      (board.setOccupant firstRow (i + 1) (some { id := nextId, type := t, color := color }))
      (nextId + 1)

/-- The closure `setup(color)` of `setupInitialPieces`. -/
def setup (color : PieceColor) (board : Board) (nextId : Nat) : Board × Nat :=
  let firstRow : Int := if color = .WHITE then 1 else 8
  let secondRow : Int := if color = .WHITE then 2 else 7
  let r := placePawns color secondRow [1, 2, 3, 4, 5, 6, 7, 8] board nextId
  placeLayout color firstRow layout 0 r.1 r.2

def setupInitialPieces (board : Board) : Board :=
  let r := setup .WHITE board 0
  (setup .BLACK r.1 r.2).1

/-- The constructor `new Game()`. -/
def new : Game :=
  { board := setupInitialPieces emptyBoard, status := GameStatus.new, turn := 1 }

def getTurnColor (g : Game) : PieceColor :=
  if g.turn % 2 ≠ 0 then .WHITE else .BLACK

/-- The statement `this.turn++` on the double `this.turn`: the sum `turn + 1`
rounded to the nearest double, ties to the even significand. Below `2 ^ 53`
every integer is a double and the sum is exact. From `2 ^ 53` to `2 ^ 54` the
doubles are the even integers, `turn + 1` lies half-way between `turn` and
`turn + 2`, and the one with the even significand `turn / 2` or `turn / 2 + 1`
is taken. From `2 ^ 54` on the doubles are at least 4 apart and the sum rounds
back to `turn`. -/
def incrementTurn (turn : Nat) : Nat :=
  if turn < 2 ^ 53 then turn + 1
  else if turn < 2 ^ 54 then (if (turn / 2) % 2 = 0 then turn else turn + 2)
  else turn

/-- `Game.move(fromRow, fromCol, toRow, toCol)`: the returned flag and the
game after the call. -/
def move (fuel : Nat) (g : Game) (fromRow fromCol toRow toCol : Int) :
    Except Err (Bool × Game) :=
  match g.board.getSquare fromRow fromCol with
  | none => .error .nullDeref
  | some sq =>
    match sq.occupyingPiece with
    | none => .ok (false, g)
    | some piece =>
      if piece.color ≠ g.getTurnColor then .ok (false, g)
      else
        match Gameplay.getValidMoves fuel g.status g.board (some piece) fromRow fromCol with
        | .error e => .error e
        | .ok (validMoves, b1) =>
          match validMoves.find? fun m => decide (m.to_.row = toRow ∧ m.to_.col = toCol) with
          | none => .ok (false, { g with board := b1 })
          | some m =>
            match Gameplay.move g.status b1 m with
            | .error e => .error e
            | .ok (true, s2, b2) =>
              .ok (true, { board := b2, status := s2, turn := incrementTurn g.turn })
            | .ok (false, s2, b2) => .ok (false, { board := b2, status := s2, turn := g.turn })

end Game

/-! ## Auxiliary definitions for the statements -/

open Gameplay

/-- The check test that never returns: used where the outcome of the nested
test is irrelevant. -/
def noOracle : Oracle := fun _ _ _ => .error .outOfFuel

/-- A square the attack scan passes over without consulting the nested check
test: empty, or held by a piece of colour `color`, or held by an opposing
piece other than a king none of whose moves lands on `kingPos`. -/
def quietSquare (s : GameStatus) (b : Board) (color : PieceColor) (kingPos : Pos)
    (rc : Int × Int) : Bool :=
  match b.occupant rc.1 rc.2 with
  | none => true
  | some p =>
    if p.color ≠ color then
      decide (p.type ≠ .KING) &&
        (match getPossibleMovesCore noOracle s b p rc.1 rc.2 with
         | .error _ => false
         | .ok moves =>
           !(moves.any fun m => decide (m.to_.row = kingPos.row ∧ m.to_.col = kingPos.col)))
    else true

/-! ### An en-passant capture that unpins a rook

White: king a5, pawn b5. Black: king e8, rook h5, pawn c5, which has just
made its double step. Both kings have moved. -/

def pinWhiteKing : Piece := { id := 0, type := .KING, color := .WHITE }
def pinWhitePawn : Piece := { id := 1, type := .PAWN, color := .WHITE }
def pinBlackPawn : Piece := { id := 2, type := .PAWN, color := .BLACK }
def pinBlackRook : Piece := { id := 3, type := .ROOK, color := .BLACK }
def pinBlackKing : Piece := { id := 4, type := .KING, color := .BLACK }

def pinBoard : Board :=
  ((((Game.emptyBoard.setOccupant 5 1 (some pinWhiteKing)).setOccupant 5 2
    (some pinWhitePawn)).setOccupant 5 3 (some pinBlackPawn)).setOccupant 5 8
    (some pinBlackRook)).setOccupant 8 5 (some pinBlackKing)

def pinStatus : GameStatus :=
  { whiteKingMoved := true, blackKingMoved := true,
    whiteFirstColRookMoved := false, whiteLastColRookMoved := false,
    blackFirstColRookMoved := false, blackLastColRookMoved := false,
    enPassantablePiece := fun c => if c = .BLACK then some pinBlackPawn else none }

/-- The capture b5xc6 en passant. -/
def pinMove : Move :=
  { type := .EN_PASSANT, from_ := { row := 5, col := 2 }, to_ := { row := 6, col := 3 },
    movedPiece := pinWhitePawn, capturedPiece := some pinBlackPawn }

/-- The square `(row, col)` is on the board. -/
def inRange (row col : Int) : Prop :=
  1 ≤ row ∧ row ≤ 8 ∧ 1 ≤ col ∧ col ≤ 8

instance (row col : Int) : Decidable (inRange row col) := by
  unfold inRange; infer_instance

/-- What every move generated for piece `p` from `(r, c)` satisfies. -/
def generatedFrom (p : Piece) (r c : Int) (m : Move) : Prop :=
  m.from_ = { row := r, col := c } ∧ m.movedPiece = p ∧ inRange m.to_.row m.to_.col ∧
    m.type ≠ .OTHER ∧
    (m.type = .CASTLING → m.to_.row = r ∧ (m.to_.col = c + 2 ∨ m.to_.col = c - 2))

/-- The board on which `getValidMoves` tests move `m` of piece `p`: `p` on the
destination square, the origin square empty. -/
def dryRunBoard (b : Board) (p : Piece) (m : Move) : Board :=
  (b.setOccupant m.to_.row m.to_.col (some p)).setOccupant m.from_.row m.from_.col none

/-- The pin position as a game with WHITE to move. -/
def pinGame : Game := { board := pinBoard, status := pinStatus, turn := 1 }

/-- The pin position as a game whose turn counter has reached `2 ^ 53`, BLACK
to move. -/
def lateGame : Game := { board := pinBoard, status := pinStatus, turn := 2 ^ 53 }

/-- The moves `ms` applied one after the other with `Gameplay.move`. -/
def applyMoves : List Move → GameStatus → Board → Except Err (GameStatus × Board)
  | [], status, board => .ok (status, board)
  | m :: ms, status, board =>
    match move status board m with
    | .error e => .error e
    | .ok (_, s1, b1) => applyMoves ms s1 b1

/-- The steps `(from, to)` applied one after the other with `Gameplay.move`,
each as the NORMAL move of the piece standing on its origin square. -/
def playNormal : List (Pos × Pos) → GameStatus → Board → Except Err (GameStatus × Board)
  | [], status, board => .ok (status, board)
  | step :: steps, status, board =>
    match board.occupant step.1.row step.1.col with
    | none => .error .nullDeref
    | some p =>
      match move status board (Move.mk .NORMAL step.1 step.2 p none) with
      | .error e => .error e
      | .ok (_, s1, b1) => playNormal steps s1 b1

/-- The fool's mate 1. f2-f3 e7-e5 2. g2-g4 d8-h4. -/
def foolsMateSteps : List (Pos × Pos) :=
  [({ row := 2, col := 6 }, { row := 3, col := 6 }),
   ({ row := 7, col := 5 }, { row := 5, col := 5 }),
   ({ row := 2, col := 7 }, { row := 4, col := 7 }),
   ({ row := 8, col := 4 }, { row := 4, col := 8 })]

/-- The steps e2-e4, e4-e5, d7-d5. -/
def enPassantSteps : List (Pos × Pos) :=
  [({ row := 2, col := 5 }, { row := 4, col := 5 }),
   ({ row := 4, col := 5 }, { row := 5, col := 5 }),
   ({ row := 7, col := 4 }, { row := 5, col := 4 })]

/-- Every piece of colour `color` on the board has no valid move. -/
def noValidMoves (fuel : Nat) (status : GameStatus) (board : Board) (color : PieceColor) : Bool :=
  allSquares.all fun rc =>
    match board.occupant rc.1 rc.2 with
    | none => true
    | some p =>
      if p.color = color then
        match getValidMoves fuel status board (some p) rc.1 rc.2 with
        | .error _ => false
        | .ok (valid, _) => valid.isEmpty
      else true

/-- Move `m` is a NORMAL move of a pawn of colour `c` across two rows: the
case of `Gameplay.move` that records the en-passantable piece of colour `c`. -/
def isDoubleStepOf (c : PieceColor) (m : Move) : Prop :=
  m.type = .NORMAL ∧ m.movedPiece.type = .PAWN ∧ (m.to_.row - m.from_.row).natAbs = 2 ∧
    m.movedPiece.color = c

instance (c : PieceColor) (m : Move) : Decidable (isDoubleStepOf c m) := by
  unfold isDoubleStepOf; infer_instance

def whitePawnE : Piece := { id := 4, type := .PAWN, color := .WHITE }
def whitePawnA : Piece := { id := 0, type := .PAWN, color := .WHITE }
def whitePawnH : Piece := { id := 7, type := .PAWN, color := .WHITE }
def blackPawnD : Piece := { id := 19, type := .PAWN, color := .BLACK }

/-- The double step e2-e4. -/
def staleDoubleStep : Move :=
  Move.mk .NORMAL (Pos.mk 2 5) (Pos.mk 4 5) whitePawnE none

/-- The moves d7-d5, a2-a3, d5-d4, h2-h3 that follow the double step e2-e4:
BLACK is to move after them. -/
def staleFurtherMoves : List Move :=
  [Move.mk .NORMAL (Pos.mk 7 4) (Pos.mk 5 4) blackPawnD none,
   Move.mk .NORMAL (Pos.mk 2 1) (Pos.mk 3 1) whitePawnA none,
   Move.mk .NORMAL (Pos.mk 5 4) (Pos.mk 4 4) blackPawnD none,
   Move.mk .NORMAL (Pos.mk 2 8) (Pos.mk 3 8) whitePawnH none]

/-- The status after `staleDoubleStep` and `staleFurtherMoves`. -/
def staleStatus : GameStatus :=
  match applyMoves (staleDoubleStep :: staleFurtherMoves) Game.new.status Game.new.board with
  | .ok sb => sb.1
  | .error _ => GameStatus.new

/-- The board after `staleDoubleStep` and `staleFurtherMoves`. -/
def staleBoard : Board :=
  match applyMoves (staleDoubleStep :: staleFurtherMoves) Game.new.status Game.new.board with
  | .ok sb => sb.2
  | .error _ => Game.emptyBoard

/-! ### A position with both castlings available

White: king e1, rooks a1 and h1. Black: king e7, which has moved. -/

def castleKing : Piece := { id := 0, type := .KING, color := .WHITE }
def castleRookA : Piece := { id := 1, type := .ROOK, color := .WHITE }
def castleRookH : Piece := { id := 2, type := .ROOK, color := .WHITE }
def castleBlackKing : Piece := { id := 3, type := .KING, color := .BLACK }

def castleBoard : Board :=
  (((Game.emptyBoard.setOccupant 1 5 (some castleKing)).setOccupant 1 1
    (some castleRookA)).setOccupant 1 8 (some castleRookH)).setOccupant 7 5
    (some castleBlackKing)

def castleStatus : GameStatus :=
  { whiteKingMoved := false, blackKingMoved := true,
    whiteFirstColRookMoved := false, whiteLastColRookMoved := false,
    blackFirstColRookMoved := false, blackLastColRookMoved := false,
    enPassantablePiece := fun _ => none }

/-- The status `Gameplay.move` leaves behind when it returns. -/
def statusAfterMove (status : GameStatus) (board : Board) (m : Move) : GameStatus :=
  match m.type with
  | .NORMAL =>
    if m.movedPiece.type = .PAWN ∧ (m.to_.row - m.from_.row).natAbs = 2 then
      status.setPieceEnPassantable m.movedPiece.color (some m.movedPiece)
    else kingRookFlags status board m
  | .CAPTURE => kingRookFlags status board m
  | .EN_PASSANT => status
  | .CASTLING =>
    if m.to_.col < m.from_.col then
      (status.setKingMove m.movedPiece.color).setFirstColRookMove m.movedPiece.color
    else (status.setKingMove m.movedPiece.color).setLastColRookMove m.movedPiece.color
  | .OTHER => status

/-- The king of the castling position steps e1-e2. -/
def castleKingOut : Move := Move.mk .NORMAL (Pos.mk 1 5) (Pos.mk 2 5) castleKing none

/-- The king of the castling position steps back e2-e1. -/
def castleKingBack : Move := Move.mk .NORMAL (Pos.mk 2 5) (Pos.mk 1 5) castleKing none

/-- The status after the king has stepped out and back. -/
def castleBackStatus : GameStatus :=
  match applyMoves [castleKingOut, castleKingBack] castleStatus castleBoard with
  | .ok sb => sb.1
  | .error _ => GameStatus.new

/-- The board after the king has stepped out and back. -/
def castleBackBoard : Board :=
  match applyMoves [castleKingOut, castleKingBack] castleStatus castleBoard with
  | .ok sb => sb.2
  | .error _ => Game.emptyBoard

/-- A board with a king on f1 and a rook on h1. -/
def cornerBoard : Board :=
  (Game.emptyBoard.setOccupant 1 6 (some castleKing)).setOccupant 1 8 (some castleRookH)

/-- A CASTLING move of the king from f1 onto the rook's corner h1. -/
def cornerMove : Move := Move.mk .CASTLING (Pos.mk 1 6) (Pos.mk 1 8) castleKing none

/-- The king-side castling e1-g1 of the castling position. -/
def castleShort : Move := Move.mk .CASTLING (Pos.mk 1 5) (Pos.mk 1 7) castleKing none

/-- The queen-side castling e1-c1 of the castling position. -/
def castleLong : Move := Move.mk .CASTLING (Pos.mk 1 5) (Pos.mk 1 3) castleKing none

/-- The board after the occupant of `(fr, fc)` has been taken off and put on
`(tr, tc)`. -/
def relocated (b : Board) (fr fc tr tc : Int) : Board :=
  (b.setOccupant fr fc none).setOccupant tr tc (b.squares fr fc).occupyingPiece

/-- The direction set `getPossibleMoves` passes to `addSlidingMoves` for a
piece of type `t`. -/
def slidingDirs (t : PieceType) : List (Int × Int) :=
  match t with
  | .ROOK => rookDirs
  | .BISHOP => bishopDirs
  | .QUEEN => queenDirs
  | _ => []

/-- The moves `addSlidingMoves` pushes for direction `d`. -/
def rayOf (b : Board) (p : Piece) (r c : Int) (d : Int × Int) : List Move :=
  slideRay b p r c d.1 d.2 8 (r + d.1) (c + d.2)

/-- The capture that ends a ray on square `(r2, c2)`, if any. -/
def rayCapture (b : Board) (p : Piece) (r c r2 c2 : Int) : List Move :=
  match b.occupant r2 c2 with
  | none => []
  | some q =>
    if q.color ≠ p.color then [Move.mk .CAPTURE (Pos.mk r c) (Pos.mk r2 c2) p (some q)] else []

def slideRook : Piece := { id := 0, type := .ROOK, color := .WHITE }
def slideFriend : Piece := { id := 1, type := .PAWN, color := .WHITE }
def slideFoe : Piece := { id := 2, type := .PAWN, color := .BLACK }

/-- A rook on a1 with a friendly piece on a4. -/
def slideBoardFriend : Board :=
  (Game.emptyBoard.setOccupant 1 1 (some slideRook)).setOccupant 4 1 (some slideFriend)

/-- A rook on a1 with an opposing piece on a4. -/
def slideBoardFoe : Board :=
  (Game.emptyBoard.setOccupant 1 1 (some slideRook)).setOccupant 4 1 (some slideFoe)

/-- A board on which the same piece object stands on a4 and on c4, with a rook
on a1. -/
def aliasBoard : Board :=
  ((Game.emptyBoard.setOccupant 1 1 (some slideRook)).setOccupant 4 1
    (some slideFoe)).setOccupant 4 3 (some slideFoe)

/-- The capture a1xa4 on `aliasBoard`. -/
def aliasCapture : Move :=
  Move.mk .CAPTURE (Pos.mk 1 1) (Pos.mk 4 1) slideRook (some slideFoe)

/-- The capture a1xa4 on `slideBoardFoe`. -/
def slideCapture : Move :=
  Move.mk .CAPTURE (Pos.mk 1 1) (Pos.mk 4 1) slideRook (some slideFoe)

/-- A CASTLING move from h1 to h2: origin and destination are on the board,
the rook's destination column 9 is not. -/
def edgeCastle : Move := Move.mk .CASTLING (Pos.mk 1 8) (Pos.mk 2 8) castleKing none

/-- A move whose type is none of the four kinds. -/
def otherMove : Move := Move.mk .OTHER (Pos.mk 1 5) (Pos.mk 1 7) castleKing none

/-- The steps 1. e2-e4 a7-a6 2. e4-e5 d7-d5 3. Nb1-c3 a6-a5 4. Nc3-e4 a5-a4
5. Ne4-d6 a4-a3: the white knight stands on d6, behind the pawn that
double-stepped to d5 three moves earlier, and WHITE is to move. -/
def knightBehindSteps : List (Pos × Pos) :=
  [(Pos.mk 2 5, Pos.mk 4 5), (Pos.mk 7 1, Pos.mk 6 1),
   (Pos.mk 4 5, Pos.mk 5 5), (Pos.mk 7 4, Pos.mk 5 4),
   (Pos.mk 1 2, Pos.mk 3 3), (Pos.mk 6 1, Pos.mk 5 1),
   (Pos.mk 3 3, Pos.mk 4 5), (Pos.mk 5 1, Pos.mk 4 1),
   (Pos.mk 4 5, Pos.mk 6 4), (Pos.mk 4 1, Pos.mk 3 1)]

/-- The status after `knightBehindSteps`. -/
def knightBehindStatus : GameStatus :=
  match playNormal knightBehindSteps Game.new.status Game.new.board with
  | .ok sb => sb.1
  | .error _ => GameStatus.new

/-- The board after `knightBehindSteps`. -/
def knightBehindBoard : Board :=
  match playNormal knightBehindSteps Game.new.status Game.new.board with
  | .ok sb => sb.2
  | .error _ => Game.emptyBoard

def whiteKnightB : Piece := { id := 9, type := .KNIGHT, color := .WHITE }

/-- The en-passant capture e5xd6 generated on `knightBehindBoard`. -/
def knightBehindCapture : Move :=
  Move.mk .EN_PASSANT (Pos.mk 5 5) (Pos.mk 6 4) whitePawnE (some blackPawnD)

/-- Every moved flag set in `s` is set in `s2`; the en-passant records are
unrelated. -/
def flagsLe (s s2 : GameStatus) : Prop :=
  ∀ c : PieceColor,
    (s.isKingMoved c = true → s2.isKingMoved c = true) ∧
    (s.isFirstColRookMoved c = true → s2.isFirstColRookMoved c = true) ∧
    (s.isLastColRookMoved c = true → s2.isLastColRookMoved c = true)

/-- The king of the pin position steps a5-a6. -/
def pinKingStep : Move := Move.mk .NORMAL (Pos.mk 5 1) (Pos.mk 6 1) pinWhiteKing none

/-! ## Theorems -/

/-! ### The recursion between `isCheckState` and the castling test -/

theorem getPossibleMovesCore_of_not_king (chk chk2 : Oracle) (s : GameStatus) (b : Board)
    (p : Piece) (r c : Int) (hp : p.type ≠ .KING) :
    getPossibleMovesCore chk s b p r c = getPossibleMovesCore chk2 s b p r c := by
  unfold getPossibleMovesCore
  cases h : p.type <;> simp_all

theorem scanAttack_quiet (chk : Oracle) (s : GameStatus) (b : Board) (color : PieceColor)
    (kingPos : Pos) (pre rest : List (Int × Int))
    (hpre : pre.all (quietSquare s b color kingPos) = true) :
    scanAttack chk s b color kingPos (pre ++ rest) = scanAttack chk s b color kingPos rest := by
  induction pre with
  | nil => rfl
  | cons rc pre ih =>
    simp only [List.all_cons, Bool.and_eq_true] at hpre
    obtain ⟨hq, hall⟩ := hpre
    rw [List.cons_append, scanAttack, ih hall]
    unfold quietSquare at hq
    cases hocc : b.occupant rc.1 rc.2 with
    | none => rfl
    | some p =>
      rw [hocc] at hq
      dsimp only at hq ⊢
      by_cases hc : p.color ≠ color
      · rw [if_pos hc] at hq
        rw [if_pos hc]
        simp only [Bool.and_eq_true, decide_eq_true_eq] at hq
        obtain ⟨hk, hm⟩ := hq
        rw [getPossibleMovesCore_of_not_king chk noOracle s b p rc.1 rc.2 hk]
        cases hg : getPossibleMovesCore noOracle s b p rc.1 rc.2 with
        | error e => rw [hg] at hm; simp at hm
        | ok moves =>
          rw [hg] at hm
          simp only [Bool.not_eq_true'] at hm
          dsimp only
          rw [hm]
          rfl
      · rw [if_neg hc]

/-- The scan fails with the nested test's failure when the first square that
is not quiet holds an opposing king whose moved flag is unset. -/
theorem scanAttack_king_error (chk : Oracle) (s : GameStatus) (b : Board) (color : PieceColor)
    (kingPos : Pos) (pre post : List (Int × Int)) (rc : Int × Int) (k : Piece) (e : Err)
    (hpre : pre.all (quietSquare s b color kingPos) = true)
    (hocc : b.occupant rc.1 rc.2 = some k) (hcol : k.color ≠ color) (hty : k.type = .KING)
    (hflag : s.isKingMoved k.color = false) (hchk : chk s b k.color = .error e) :
    scanAttack chk s b color kingPos (pre ++ rc :: post) = .error e := by
  rw [scanAttack_quiet chk s b color kingPos pre _ hpre]
  simp [scanAttack, hocc, hcol, getPossibleMovesCore, hty, castlingMoves, hflag, hchk]


theorem initial_step_white (chk : Oracle) (e : Err)
    (h : chk Game.new.status Game.new.board .BLACK = .error e) :
    isCheckStateStep chk Game.new.status Game.new.board .WHITE = .error e := by
  have hk : findKing Game.new.board .WHITE = some { row := 1, col := 5 } := by decide!
  have hs : allSquares = allSquares.take 60 ++ (8, 5) :: allSquares.drop 61 := by decide!
  unfold isCheckStateStep
  rw [hk]
  dsimp only
  rw [hs]
  exact scanAttack_king_error chk _ _ _ _ _ _ (8, 5) { id := 28, type := .KING, color := .BLACK } e
    (by decide!) (by decide!) (by decide) rfl (by decide!) h

theorem initial_step_black (chk : Oracle) (e : Err)
    (h : chk Game.new.status Game.new.board .WHITE = .error e) :
    isCheckStateStep chk Game.new.status Game.new.board .BLACK = .error e := by
  have hk : findKing Game.new.board .BLACK = some { row := 8, col := 5 } := by decide!
  have hs : allSquares = allSquares.take 4 ++ (1, 5) :: allSquares.drop 5 := by decide!
  unfold isCheckStateStep
  rw [hk]
  dsimp only
  rw [hs]
  exact scanAttack_king_error chk _ _ _ _ _ _ (1, 5) { id := 12, type := .KING, color := .WHITE } e
    (by decide!) (by decide!) (by decide) rfl (by decide!) h

/-- C1 (evaluation at the failing input): on the standard initial position
`isCheckState` returns no value, for either colour, whatever the depth allowed
to the recursion between `isCheckState` and the king's castling test. -/
theorem initial_isCheckState_never_returns (fuel : Nat) :
    isCheckState fuel Game.new.status Game.new.board .WHITE = .error .outOfFuel ∧
    isCheckState fuel Game.new.status Game.new.board .BLACK = .error .outOfFuel := by
  induction fuel with
  | zero => exact ⟨rfl, rfl⟩
  | succ n ih =>
    exact ⟨initial_step_white (isCheckState n) _ ih.2, initial_step_black (isCheckState n) _ ih.1⟩

/-! ### More fuel never changes a returned value -/

theorem castlingMoves_mono (chk chk2 : Oracle)
    (hle : ∀ s b c v, chk s b c = .ok v → chk2 s b c = .ok v)
    (s : GameStatus) (b : Board) (p : Piece) (r c : Int) (ms : List Move)
    (h : castlingMoves chk s b p r c = .ok ms) : castlingMoves chk2 s b p r c = .ok ms := by
  unfold castlingMoves at h ⊢
  by_cases hk : s.isKingMoved p.color = true
  · rw [if_pos hk] at h ⊢; exact h
  · rw [if_neg hk] at h ⊢
    cases hc : chk s b p.color with
    | error e => rw [hc] at h; simp at h
    | ok v => rw [hle _ _ _ _ hc]; rw [hc] at h; exact h

theorem getPossibleMovesCore_mono (chk chk2 : Oracle)
    (hle : ∀ s b c v, chk s b c = .ok v → chk2 s b c = .ok v)
    (s : GameStatus) (b : Board) (p : Piece) (r c : Int) (ms : List Move)
    (h : getPossibleMovesCore chk s b p r c = .ok ms) :
    getPossibleMovesCore chk2 s b p r c = .ok ms := by
  by_cases hp : p.type = .KING
  · unfold getPossibleMovesCore at h ⊢
    rw [hp] at h ⊢
    dsimp only at h ⊢
    cases hc : castlingMoves chk s b p r c with
    | error e => rw [hc] at h; simp at h
    | ok cs => rw [castlingMoves_mono chk chk2 hle _ _ _ _ _ _ hc]; rw [hc] at h; exact h
  · rw [← getPossibleMovesCore_of_not_king chk chk2 s b p r c hp]; exact h

theorem scanAttack_mono (chk chk2 : Oracle)
    (hle : ∀ s b c v, chk s b c = .ok v → chk2 s b c = .ok v)
    (s : GameStatus) (b : Board) (color : PieceColor) (kingPos : Pos) (l : List (Int × Int))
    (v : Bool) (h : scanAttack chk s b color kingPos l = .ok v) :
    scanAttack chk2 s b color kingPos l = .ok v := by
  induction l with
  | nil => exact h
  | cons rc rest ih =>
    rw [scanAttack] at h ⊢
    cases hocc : b.occupant rc.1 rc.2 with
    | none => rw [hocc] at h; exact ih h
    | some p =>
      rw [hocc] at h
      dsimp only at h ⊢
      by_cases hc : p.color ≠ color
      · rw [if_pos hc] at h ⊢
        cases hg : getPossibleMovesCore chk s b p rc.1 rc.2 with
        | error e => rw [hg] at h; simp at h
        | ok moves =>
          rw [getPossibleMovesCore_mono chk chk2 hle _ _ _ _ _ _ hg]
          rw [hg] at h
          dsimp only at h ⊢
          split at h
          · rename_i hany; rw [if_pos hany]; exact h
          · rename_i hany; rw [if_neg hany]; exact ih h
      · rw [if_neg hc] at h ⊢; exact ih h

theorem isCheckStateStep_mono (chk chk2 : Oracle)
    (hle : ∀ s b c v, chk s b c = .ok v → chk2 s b c = .ok v)
    (s : GameStatus) (b : Board) (color : PieceColor) (v : Bool)
    (h : isCheckStateStep chk s b color = .ok v) : isCheckStateStep chk2 s b color = .ok v := by
  unfold isCheckStateStep at h ⊢
  cases hk : findKing b color with
  | none => rw [hk] at h; exact h
  | some kp => rw [hk] at h; exact scanAttack_mono chk chk2 hle _ _ _ _ _ _ h

theorem isCheckState_succ (n : Nat) :
    ∀ s b c v, isCheckState n s b c = .ok v → isCheckState (n + 1) s b c = .ok v := by
  induction n with
  | zero => intro s b c v h; simp [isCheckState] at h
  | succ n ih => intro s b c v h; exact isCheckStateStep_mono _ _ ih s b c v h

theorem isCheckState_mono (n m : Nat) (hnm : n ≤ m) (s : GameStatus) (b : Board)
    (c : PieceColor) (v : Bool) (h : isCheckState n s b c = .ok v) :
    isCheckState m s b c = .ok v := by
  induction m with
  | zero =>
    have : n = 0 := Nat.le_zero.mp hnm
    subst this; exact h
  | succ m ih =>
    rcases Nat.lt_or_ge n (m + 1) with hlt | hge
    · exact isCheckState_succ m s b c v (ih (Nat.lt_succ_iff.mp hlt))
    · have : n = m + 1 := Nat.le_antisymm hnm hge
      subst this; exact h

theorem getPossibleMoves_mono (n m : Nat) (hnm : n ≤ m) (s : GameStatus) (b : Board)
    (p : Option Piece) (r c : Int) (ms : List Move)
    (h : getPossibleMoves n s b p r c = .ok ms) : getPossibleMoves m s b p r c = .ok ms := by
  cases p with
  | none => exact h
  | some q =>
    exact getPossibleMovesCore_mono _ _ (fun s b c v => isCheckState_mono n m hnm s b c v)
      _ _ _ _ _ _ h

theorem dryRunFilter_mono (n m : Nat) (hnm : n ≤ m) (s : GameStatus) (p : Piece)
    (ms : List Move) (b : Board) (res : List Move × Board)
    (h : dryRunFilter n s p ms b = .ok res) : dryRunFilter m s p ms b = .ok res := by
  induction ms generalizing b res with
  | nil => exact h
  | cons mv ms ih =>
    rw [dryRunFilter] at h ⊢
    cases ht : b.getSquare mv.to_.row mv.to_.col with
    | none => rw [ht] at h; simp at h
    | some tsq =>
      rw [ht] at h
      dsimp only at h ⊢
      cases hf : b.getSquare mv.from_.row mv.from_.col with
      | none => rw [hf] at h; simp at h
      | some fsq =>
        rw [hf] at h
        dsimp only at h ⊢
        cases hc : isCheckState n s ((b.setOccupant mv.to_.row mv.to_.col (some p)).setOccupant
            mv.from_.row mv.from_.col none) p.color with
        | error e => rw [hc] at h; simp at h
        | ok v =>
          rw [isCheckState_mono n m hnm _ _ _ _ hc]
          rw [hc] at h
          dsimp only at h ⊢
          split at h
          · simp at h
          · rename_i kept bEnd hrec
            rw [ih _ _ hrec]
            exact h

theorem getValidMoves_mono (n m : Nat) (hnm : n ≤ m) (s : GameStatus) (b : Board)
    (p : Option Piece) (r c : Int) (res : List Move × Board)
    (h : getValidMoves n s b p r c = .ok res) : getValidMoves m s b p r c = .ok res := by
  unfold getValidMoves at h ⊢
  cases hg : getPossibleMoves n s b p r c with
  | error e => rw [hg] at h; simp at h
  | ok possible =>
    rw [getPossibleMoves_mono n m hnm _ _ _ _ _ _ hg]
    rw [hg] at h
    cases p with
    | none => exact h
    | some q => exact dryRunFilter_mono n m hnm _ _ _ _ _ h

theorem mateScan_mono (n m : Nat) (hnm : n ≤ m) (s : GameStatus) (color : PieceColor)
    (l : List (Int × Int)) (b : Board) (res : Bool × Board)
    (h : mateScan n s color l b = .ok res) : mateScan m s color l b = .ok res := by
  induction l generalizing b res with
  | nil => exact h
  | cons rc rest ih =>
    rw [mateScan] at h ⊢
    cases hocc : b.occupant rc.1 rc.2 with
    | none => rw [hocc] at h; exact ih _ _ h
    | some p =>
      rw [hocc] at h
      dsimp only at h ⊢
      by_cases hc : p.color = color
      · rw [if_pos hc] at h ⊢
        cases hg : getValidMoves n s b (some p) rc.1 rc.2 with
        | error e => rw [hg] at h; simp at h
        | ok vb =>
          rw [getValidMoves_mono n m hnm _ _ _ _ _ _ hg]
          rw [hg] at h
          obtain ⟨valid, b1⟩ := vb
          dsimp only at h ⊢
          by_cases hl : valid.length > 0
          · rw [if_pos hl] at h ⊢; exact h
          · rw [if_neg hl] at h ⊢; exact ih _ _ h
      · rw [if_neg hc] at h ⊢; exact ih _ _ h

theorem isCheckMateState_mono (n m : Nat) (hnm : n ≤ m) (s : GameStatus) (b : Board)
    (color : PieceColor) (res : Bool × Board)
    (h : isCheckMateState n s b color = .ok res) : isCheckMateState m s b color = .ok res := by
  unfold isCheckMateState at h ⊢
  cases hc : isCheckState n s b color with
  | error e => rw [hc] at h; simp at h
  | ok v =>
    rw [isCheckState_mono n m hnm _ _ _ _ hc]
    rw [hc] at h
    cases v with
    | false => exact h
    | true => exact mateScan_mono n m hnm _ _ _ _ _ h

theorem Game.move_mono (n m : Nat) (hnm : n ≤ m) (g : Game) (fr fc tr tc : Int)
    (res : Bool × Game) (h : Game.move n g fr fc tr tc = .ok res) :
    Game.move m g fr fc tr tc = .ok res := by
  unfold Game.move at h ⊢
  cases hsq : g.board.getSquare fr fc with
  | none => rw [hsq] at h; simp at h
  | some sq =>
    rw [hsq] at h
    dsimp only at h ⊢
    cases hocc : sq.occupyingPiece with
    | none => rw [hocc] at h; exact h
    | some piece =>
      rw [hocc] at h
      dsimp only at h ⊢
      by_cases hc : piece.color ≠ g.getTurnColor
      · rw [if_pos hc] at h ⊢; exact h
      · rw [if_neg hc] at h ⊢
        cases hg : getValidMoves n g.status g.board (some piece) fr fc with
        | error e => rw [hg] at h; simp at h
        | ok vb =>
          rw [getValidMoves_mono n m hnm _ _ _ _ _ _ hg]
          rw [hg] at h
          exact h

/-! ### The legality filter -/

/-- C2 (evaluation at the failing input): in the pin position the filter keeps
the en-passant capture b5xc6, and once `Gameplay.move` has applied it the
white king is in check from the rook on h5. -/
theorem en_passant_kept_but_exposes_king (fuel : Nat) :
    (∃ vb, getValidMoves (fuel + 1) pinStatus pinBoard (pinBoard.occupant 5 2) 5 2 = .ok vb ∧
      pinMove ∈ vb.1) ∧
    ∃ s b, move pinStatus pinBoard pinMove = .ok (true, s, b) ∧
      isCheckState (fuel + 1) s b .WHITE = .ok true := by
  constructor
  · have h1 : (match getValidMoves 1 pinStatus pinBoard (pinBoard.occupant 5 2) 5 2 with
        | .ok vb => decide (pinMove ∈ vb.1)
        | .error _ => false) = true := by decide!
    cases hv : getValidMoves 1 pinStatus pinBoard (pinBoard.occupant 5 2) 5 2 with
    | error e => rw [hv] at h1; simp at h1
    | ok vb =>
      rw [hv] at h1
      exact ⟨vb, getValidMoves_mono 1 (fuel + 1) (by omega) _ _ _ _ _ _ hv, by simpa using h1⟩
  · have h1 : (match move pinStatus pinBoard pinMove with
        | .ok (r, s, b) => r && decide (isCheckState 1 s b .WHITE = .ok true)
        | .error _ => false) = true := by decide!
    cases hm : move pinStatus pinBoard pinMove with
    | error e => rw [hm] at h1; simp at h1
    | ok rsb =>
      obtain ⟨r, s, b⟩ := rsb
      rw [hm] at h1
      simp only [Bool.and_eq_true, decide_eq_true_eq] at h1
      obtain ⟨hr, hc⟩ := h1
      subst hr
      exact ⟨s, b, rfl, isCheckState_mono 1 (fuel + 1) (by omega) _ _ _ _ hc⟩

/-! ### Shape of the generated moves -/

theorem getSquare_eq_some (b : Board) (r c : Int) (h : inRange r c) :
    b.getSquare r c = some (b.squares r c) := by
  unfold inRange at h
  unfold Board.getSquare
  rw [if_neg (by omega)]

theorem getSquare_eq_none (b : Board) (r c : Int) (h : ¬ inRange r c) :
    b.getSquare r c = none := by
  unfold inRange at h
  unfold Board.getSquare
  rw [if_pos (by omega)]

theorem getSquare_some_iff (b : Board) (r c : Int) (sq : Square) :
    b.getSquare r c = some sq ↔ inRange r c ∧ b.squares r c = sq := by
  by_cases h : inRange r c
  · rw [getSquare_eq_some b r c h]; simp [h]
  · rw [getSquare_eq_none b r c h]; simp [h]

theorem mem_addMove (p : Piece) (fr fc : Int) (t : MoveType) (r c : Int) (cap : Option Piece)
    (m : Move) :
    m ∈ addMove p fr fc t r c cap ↔
      inRange r c ∧ m = Move.mk t (Pos.mk fr fc) (Pos.mk r c) p cap := by
  unfold addMove inRange
  by_cases h : r ≥ 1 ∧ r ≤ 8 ∧ c ≥ 1 ∧ c ≤ 8
  · rw [if_pos h]; simp; intro _; omega
  · rw [if_neg h]; simp; intro h1 h2 h3 h4; exact absurd ⟨h1, h2, h3, h4⟩ h

theorem generatedFrom_intro (p : Piece) (fr fc : Int) (t : MoveType) (r c : Int)
    (cap : Option Piece) (hr : inRange r c) (ht : t ≠ .OTHER)
    (hc : t = .CASTLING → r = fr ∧ (c = fc + 2 ∨ c = fc - 2)) :
    generatedFrom p fr fc (Move.mk t (Pos.mk fr fc) (Pos.mk r c) p cap) :=
  And.intro rfl (And.intro rfl (And.intro hr (And.intro ht hc)))

theorem generatedFrom_of_mem_addMove (p : Piece) (fr fc : Int) (t : MoveType) (r c : Int)
    (cap : Option Piece) (m : Move) (ht : t ≠ .OTHER) (hc : t ≠ .CASTLING)
    (h : m ∈ addMove p fr fc t r c cap) : generatedFrom p fr fc m := by
  rw [mem_addMove] at h
  obtain ⟨hr, rfl⟩ := h
  exact generatedFrom_intro _ _ _ _ _ _ _ hr ht (fun h => absurd h hc)

theorem generatedFrom_pawnAdvance (b : Board) (p : Piece) (r c : Int) (m : Move)
    (h : m ∈ pawnAdvance b p r c) : generatedFrom p r c m := by
  unfold pawnAdvance at h
  dsimp only at h
  generalize (if p.color = PieceColor.WHITE then (1 : Int) else -1) = dir at h
  generalize (if p.color = PieceColor.WHITE then (2 : Int) else 7) = startRow at h
  split at h
  · simp at h
  · split at h
    · rw [List.mem_append] at h
      rcases h with h | h
      · exact generatedFrom_of_mem_addMove _ _ _ _ _ _ _ _ (by decide) (by decide) h
      · split at h
        · split at h
          · simp at h
          · split at h
            · exact generatedFrom_of_mem_addMove _ _ _ _ _ _ _ _ (by decide) (by decide) h
            · simp at h
        · simp at h
    · simp at h

theorem generatedFrom_pawnCapture (b : Board) (p : Piece) (r c x : Int) (m : Move)
    (h : m ∈ pawnCapture b p r c x) : generatedFrom p r c m := by
  unfold pawnCapture at h
  dsimp only at h
  generalize (if p.color = PieceColor.WHITE then (1 : Int) else -1) = dir at h
  split at h
  · simp at h
  · split at h
    · simp at h
    · split at h
      · exact generatedFrom_of_mem_addMove _ _ _ _ _ _ _ _ (by decide) (by decide) h
      · simp at h

theorem generatedFrom_pawnEnPassant (s : GameStatus) (b : Board) (p : Piece) (r c x : Int)
    (m : Move) (h : m ∈ pawnEnPassant s b p r c x) : generatedFrom p r c m := by
  unfold pawnEnPassant at h
  dsimp only at h
  generalize (if p.color = PieceColor.WHITE then (1 : Int) else -1) = dir at h
  split at h
  · simp at h
  · split at h
    · simp at h
    · split at h
      · exact generatedFrom_of_mem_addMove _ _ _ _ _ _ _ _ (by decide) (by decide) h
      · simp at h

theorem generatedFrom_pawnMoves (s : GameStatus) (b : Board) (p : Piece) (r c : Int) (m : Move)
    (h : m ∈ pawnMoves s b p r c) : generatedFrom p r c m := by
  unfold pawnMoves at h
  dsimp only at h
  rw [List.mem_append, List.mem_append] at h
  rcases h with (h | h) | h
  · exact generatedFrom_pawnAdvance _ _ _ _ _ h
  · rw [List.mem_flatMap] at h
    obtain ⟨x, _, h⟩ := h
    exact generatedFrom_pawnCapture _ _ _ _ _ _ h
  · generalize (if p.color = PieceColor.WHITE then (5 : Int) else 4) = epRow at h
    split at h
    · rw [List.mem_flatMap] at h
      obtain ⟨x, _, h⟩ := h
      exact generatedFrom_pawnEnPassant _ _ _ _ _ _ _ h
    · simp at h

theorem generatedFrom_slideRay (b : Board) (p : Piece) (fr fc dr dc : Int) (n : Nat) (r c : Int)
    (m : Move) (h : m ∈ slideRay b p fr fc dr dc n r c) : generatedFrom p fr fc m := by
  induction n generalizing r c with
  | zero => simp [slideRay] at h
  | succ n ih =>
    rw [slideRay] at h
    split at h
    · rename_i hr
      split at h
      · simp at h
      · split at h
        · rw [List.mem_cons] at h
          rcases h with rfl | h
          · exact generatedFrom_intro _ _ _ _ _ _ _ hr (fun h => by cases h) (fun h => by cases h)
          · exact ih _ _ h
        · split at h
          · rw [List.mem_singleton] at h
            subst h
            exact generatedFrom_intro _ _ _ _ _ _ _ hr (fun h => by cases h) (fun h => by cases h)
          · simp at h
    · simp at h

theorem generatedFrom_addSlidingMoves (b : Board) (p : Piece) (fr fc : Int)
    (dirs : List (Int × Int)) (m : Move) (h : m ∈ addSlidingMoves b p fr fc dirs) :
    generatedFrom p fr fc m := by
  unfold addSlidingMoves at h
  rw [List.mem_flatMap] at h
  obtain ⟨d, _, h⟩ := h
  exact generatedFrom_slideRay _ _ _ _ _ _ _ _ _ _ h

theorem generatedFrom_stepMoves (b : Board) (p : Piece) (fr fc : Int)
    (offsets : List (Int × Int)) (m : Move) (h : m ∈ stepMoves b p fr fc offsets) :
    generatedFrom p fr fc m := by
  unfold stepMoves at h
  rw [List.mem_flatMap] at h
  obtain ⟨d, _, h⟩ := h
  dsimp only at h
  split at h
  · simp at h
  · split at h
    · exact generatedFrom_of_mem_addMove _ _ _ _ _ _ _ _ (by decide) (by decide) h
    · split at h
      · exact generatedFrom_of_mem_addMove _ _ _ _ _ _ _ _ (by decide) (by decide) h
      · simp at h

theorem generatedFrom_castleSide (b : Board) (p : Piece) (fr fc rookCol : Int) (rookMoved : Bool)
    (path : List Int) (toCol : Int) (ms : List Move) (m : Move)
    (hto : toCol = fc + 2 ∨ toCol = fc - 2)
    (h : castleSide b p fr fc rookCol rookMoved path toCol = .ok ms) (hm : m ∈ ms) :
    generatedFrom p fr fc m := by
  unfold castleSide at h
  split at h
  · simp at h; subst h; simp at hm
  · split at h
    · split at h
      · simp at h
      · simp at h
        subst h
        rw [mem_addMove] at hm
        obtain ⟨hr, rfl⟩ := hm
        exact generatedFrom_intro _ _ _ _ _ _ _ hr (fun h => by cases h) (fun _ => ⟨rfl, hto⟩)
      · simp at h; subst h; simp at hm
    · simp at h; subst h; simp at hm

theorem generatedFrom_castlingMoves (chk : Oracle) (s : GameStatus) (b : Board) (p : Piece)
    (fr fc : Int) (ms : List Move) (m : Move)
    (h : castlingMoves chk s b p fr fc = .ok ms) (hm : m ∈ ms) : generatedFrom p fr fc m := by
  unfold castlingMoves at h
  split at h
  · simp at h; subst h; simp at hm
  · split at h
    · simp at h
    · simp at h; subst h; simp at hm
    · split at h
      · simp at h
      · rename_i ks hks
        split at h
        · simp at h
        · rename_i qs hqs
          simp at h
          subst h
          rw [List.mem_append] at hm
          rcases hm with hm | hm
          · exact generatedFrom_castleSide _ _ _ _ _ _ _ _ _ _ (Or.inl rfl) hks hm
          · exact generatedFrom_castleSide _ _ _ _ _ _ _ _ _ _ (Or.inr rfl) hqs hm

theorem generatedFrom_getPossibleMovesCore (chk : Oracle) (s : GameStatus) (b : Board)
    (p : Piece) (r c : Int) (ms : List Move) (m : Move)
    (h : getPossibleMovesCore chk s b p r c = .ok ms) (hm : m ∈ ms) : generatedFrom p r c m := by
  unfold getPossibleMovesCore at h
  split at h
  · simp at h; subst h; exact generatedFrom_pawnMoves _ _ _ _ _ _ hm
  · simp at h; subst h; exact generatedFrom_addSlidingMoves _ _ _ _ _ _ hm
  · simp at h; subst h; exact generatedFrom_addSlidingMoves _ _ _ _ _ _ hm
  · simp at h; subst h; exact generatedFrom_addSlidingMoves _ _ _ _ _ _ hm
  · simp at h; subst h; exact generatedFrom_stepMoves _ _ _ _ _ _ hm
  · split at h
    · simp at h
    · rename_i cs hcs
      simp at h
      subst h
      rw [List.mem_append] at hm
      rcases hm with hm | hm
      · exact generatedFrom_stepMoves _ _ _ _ _ _ hm
      · exact generatedFrom_castlingMoves _ _ _ _ _ _ _ _ hcs hm

/-! ### The dry run of the legality filter -/

theorem Board.ext_squares (b1 b2 : Board) (h : ∀ r c, b1.squares r c = b2.squares r c) :
    b1 = b2 := by
  cases b1; cases b2
  congr
  funext r c
  exact h r c

theorem occupant_eq_some_iff (b : Board) (r c : Int) (p : Piece) :
    b.occupant r c = some p ↔ inRange r c ∧ b.squares r c = { occupyingPiece := some p } := by
  unfold Board.occupant
  by_cases h : inRange r c
  · rw [getSquare_eq_some b r c h]
    constructor
    · intro hp
      refine ⟨h, ?_⟩
      cases hs : b.squares r c
      rw [hs] at hp
      simp at hp
      simp [hp]
    · intro hp; rw [hp.2]
  · rw [getSquare_eq_none b r c h]; simp [h]

theorem occupant_of_inRange (b : Board) (r c : Int) (h : inRange r c) :
    b.occupant r c = (b.squares r c).occupyingPiece := by
  unfold Board.occupant
  rw [getSquare_eq_some b r c h]

/-- The two assignments that end a dry run restore the board, when the piece
tried is the occupant of the origin square. -/
theorem dryRun_revert (b : Board) (p : Piece) (fr fc tr tc : Int)
    (hocc : b.squares fr fc = { occupyingPiece := some p }) :
    (((b.setOccupant tr tc (some p)).setOccupant fr fc none).setOccupant fr fc
      (some p)).setOccupant tr tc (b.squares tr tc).occupyingPiece = b := by
  apply Board.ext_squares
  intro r c
  simp only [Board.setOccupant]
  by_cases h1 : r = tr ∧ c = tc
  · rw [if_pos h1]; rw [h1.1, h1.2]
  · rw [if_neg h1]
    by_cases h2 : r = fr ∧ c = fc
    · rw [if_pos h2, h2.1, h2.2, hocc]
    · rw [if_neg h2, if_neg h2, if_neg h1]

/-- The filter keeps exactly the moves whose dry run is not in check, in
order, and hands the board back as it received it; every dry run returns. -/
theorem dryRunFilter_eq (fuel : Nat) (s : GameStatus) (p : Piece) (r c : Int) (b : Board)
    (hin : inRange r c) (hocc : b.occupant r c = some p) (ms : List Move)
    (hms : ∀ m ∈ ms, generatedFrom p r c m) (res : List Move × Board)
    (h : dryRunFilter fuel s p ms b = .ok res) :
    res = (ms.filter fun m => decide (isCheckState fuel s (dryRunBoard b p m) p.color = .ok false),
      b) ∧
    ∀ m ∈ ms, ∃ v, isCheckState fuel s (dryRunBoard b p m) p.color = .ok v := by
  induction ms generalizing res with
  | nil =>
    simp [dryRunFilter] at h
    simp [← h]
  | cons m ms ih =>
    have hm := hms m (List.mem_cons_self _ _)
    obtain ⟨hfrom, _, hto, _, _⟩ := hm
    have hsq := ((occupant_eq_some_iff b r c p).mp hocc).2
    rw [dryRunFilter, getSquare_eq_some b _ _ hto] at h
    dsimp only at h
    rw [hfrom] at h
    dsimp only at h
    rw [getSquare_eq_some b _ _ hin] at h
    dsimp only at h
    have hb : dryRunBoard b p m =
        (b.setOccupant m.to_.row m.to_.col (some p)).setOccupant r c none := by
      unfold dryRunBoard; rw [hfrom]
    cases hc : isCheckState fuel s
        ((b.setOccupant m.to_.row m.to_.col (some p)).setOccupant r c none) p.color with
    | error e => rw [hc] at h; simp at h
    | ok v =>
      rw [hc] at h
      dsimp only at h
      rw [dryRun_revert b p r c _ _ hsq] at h
      cases hrec : dryRunFilter fuel s p ms b with
      | error e => rw [hrec] at h; simp at h
      | ok res2 =>
        rw [hrec] at h
        obtain ⟨kept, bEnd⟩ := res2
        obtain ⟨ih1, ih2⟩ := ih (fun m hm => hms m (List.mem_cons_of_mem _ hm)) _ hrec
        simp only [Prod.mk.injEq] at ih1
        obtain ⟨hk, hbe⟩ := ih1
        dsimp only at h
        simp only [Except.ok.injEq] at h
        constructor
        · rw [← h, hbe, hk, List.filter_cons, hb, hc]
          cases v <;> simp
        · intro m' hm'
          rw [List.mem_cons] at hm'
          rcases hm' with rfl | hm'
          · exact ⟨v, by rw [hb, hc]⟩
          · exact ih2 m' hm'

theorem getValidMoves_eq (fuel : Nat) (s : GameStatus) (b : Board) (p : Piece) (r c : Int)
    (hin : inRange r c) (hocc : b.occupant r c = some p) (res : List Move × Board)
    (h : getValidMoves fuel s b (some p) r c = .ok res) :
    ∃ possible, getPossibleMoves fuel s b (some p) r c = .ok possible ∧
      res = (possible.filter fun m =>
        decide (isCheckState fuel s (dryRunBoard b p m) p.color = .ok false), b) := by
  unfold getValidMoves at h
  cases hg : getPossibleMoves fuel s b (some p) r c with
  | error e => rw [hg] at h; simp at h
  | ok possible =>
    rw [hg] at h
    dsimp only at h
    refine ⟨possible, rfl, ?_⟩
    exact (dryRunFilter_eq fuel s p r c b hin hocc possible
      (fun m hm => generatedFrom_getPossibleMovesCore _ _ _ _ _ _ _ _ hg hm) res h).1

/-! ### Move application succeeds on generated moves -/

theorem relocate_eq (b : Board) (fr fc tr tc : Int) (hf : inRange fr fc) (ht : inRange tr tc) :
    relocate b fr fc tr tc =
      .ok (true, (b.setOccupant fr fc none).setOccupant tr tc (b.squares fr fc).occupyingPiece) := by
  unfold relocate Board.removeOccupyingPiece Board.occupySquare
  rw [getSquare_eq_some b _ _ ht, getSquare_eq_some b _ _ hf]
  dsimp only
  rw [getSquare_eq_some _ _ _ ht]

theorem removeOccupyingPiece_eq (b : Board) (r c : Int) (h : inRange r c) :
    b.removeOccupyingPiece r c = .ok ((b.squares r c).occupyingPiece, b.setOccupant r c none) := by
  unfold Board.removeOccupyingPiece
  rw [getSquare_eq_some b _ _ h]

theorem move_generated_returns_true (s : GameStatus) (b : Board) (p : Piece) (r c : Int)
    (m : Move) (hin : inRange r c) (hg : generatedFrom p r c m) :
    ∃ s2 b2, move s b m = .ok (true, s2, b2) := by
  obtain ⟨hfrom, _, hto, hty, hcastle⟩ := hg
  have hf : inRange m.from_.row m.from_.col := by rw [hfrom]; exact hin
  unfold move
  cases hmt : m.type with
  | NORMAL =>
    dsimp only
    rw [relocate_eq b _ _ _ _ hf hto]
    exact ⟨_, _, rfl⟩
  | CAPTURE =>
    dsimp only
    rw [removeOccupyingPiece_eq b _ _ hto]
    dsimp only
    rw [relocate_eq _ _ _ _ _ hf hto]
    exact ⟨_, _, rfl⟩
  | EN_PASSANT =>
    dsimp only
    have h1 : inRange m.from_.row m.to_.col := ⟨hf.1, hf.2.1, hto.2.2.1, hto.2.2.2⟩
    rw [removeOccupyingPiece_eq b _ _ h1]
    dsimp only
    rw [relocate_eq _ _ _ _ _ hf hto]
    exact ⟨_, _, rfl⟩
  | CASTLING =>
    dsimp only
    obtain ⟨hrow, hcol⟩ := hcastle hmt
    rw [relocate_eq b _ _ _ _ hf hto]
    dsimp only
    have hfc : m.from_.col = c := by rw [hfrom]
    have h1 : inRange m.from_.row (if m.to_.col < m.from_.col then b.MIN_COL else b.MAX_COL) := by
      unfold inRange Board.MIN_COL Board.MAX_COL at *
      split <;> omega
    have h2 : inRange m.to_.row
        (if m.to_.col < m.from_.col then m.from_.col - 1 else m.from_.col + 1) := by
      unfold inRange at *
      split <;> omega
    rw [relocate_eq _ _ _ _ _ h1 h2]
    exact ⟨_, _, rfl⟩
  | OTHER => exact absurd hmt hty

/-! ### `Game.move` -/

/-- The two ways `Game.move` returns from an in-range origin. -/
theorem Game.move_cases (fuel : Nat) (g : Game) (fr fc tr tc : Int) (hin : inRange fr fc)
    (res : Bool × Game) (h : Game.move fuel g fr fc tr tc = .ok res) :
    (res = (false, g) ∧
      (g.board.occupant fr fc = none ∨
        ∃ p, g.board.occupant fr fc = some p ∧
          (p.color ≠ g.getTurnColor ∨
            ∃ valid, getValidMoves fuel g.status g.board (some p) fr fc = .ok (valid, g.board) ∧
              valid.find? (fun m => decide (m.to_.row = tr ∧ m.to_.col = tc)) = none))) ∨
    ∃ p valid m s2 b2, g.board.occupant fr fc = some p ∧ p.color = g.getTurnColor ∧
      getValidMoves fuel g.status g.board (some p) fr fc = .ok (valid, g.board) ∧
      valid.find? (fun m => decide (m.to_.row = tr ∧ m.to_.col = tc)) = some m ∧
      Gameplay.move g.status g.board m = .ok (true, s2, b2) ∧
      res = (true, { board := b2, status := s2, turn := Game.incrementTurn g.turn }) := by
  unfold Game.move at h
  rw [getSquare_eq_some _ _ _ hin] at h
  dsimp only at h
  have hocc := occupant_of_inRange g.board fr fc hin
  cases hp : (g.board.squares fr fc).occupyingPiece with
  | none =>
    rw [hp] at h hocc
    simp only [Except.ok.injEq] at h
    exact Or.inl ⟨h.symm, Or.inl hocc⟩
  | some p =>
    rw [hp] at h hocc
    dsimp only at h
    by_cases hc : p.color ≠ g.getTurnColor
    · rw [if_pos hc] at h
      simp only [Except.ok.injEq] at h
      exact Or.inl ⟨h.symm, Or.inr ⟨p, hocc, Or.inl hc⟩⟩
    · rw [if_neg hc] at h
      have hc2 : p.color = g.getTurnColor := not_not.mp hc
      cases hv : getValidMoves fuel g.status g.board (some p) fr fc with
      | error e => rw [hv] at h; simp at h
      | ok vb =>
        obtain ⟨possible, hposs, hvb⟩ := getValidMoves_eq fuel _ _ p fr fc hin hocc vb hv
        rw [hv] at h
        subst hvb
        dsimp only at h
        cases hf : (List.filter (fun m => decide (isCheckState fuel g.status
            (dryRunBoard g.board p m) p.color = .ok false)) possible).find?
            (fun m => decide (m.to_.row = tr ∧ m.to_.col = tc)) with
        | none =>
          rw [hf] at h
          simp only [Except.ok.injEq] at h
          exact Or.inl ⟨h.symm, Or.inr ⟨p, hocc, Or.inr ⟨_, hv, hf⟩⟩⟩
        | some m =>
          rw [hf] at h
          dsimp only at h
          have hmem : m ∈ possible := List.mem_of_mem_filter (List.mem_of_find?_eq_some hf)
          obtain ⟨s2, b2, hmv⟩ := move_generated_returns_true g.status g.board p fr fc m hin
            (generatedFrom_getPossibleMovesCore _ _ _ _ _ _ _ _ hposs hmem)
          rw [hmv] at h
          simp only [Except.ok.injEq] at h
          exact Or.inr ⟨p, _, m, s2, b2, hocc, hc2, hv, hf, hmv, h.symm⟩


theorem Game.move_ok_true_of_valid (fuel : Nat) (g : Game) (fr fc tr tc : Int)
    (hin : inRange fr fc) (p : Piece) (valid : List Move)
    (hocc : g.board.occupant fr fc = some p) (hcol : p.color = g.getTurnColor)
    (hv : getValidMoves fuel g.status g.board (some p) fr fc = .ok (valid, g.board))
    (hex : ∃ m ∈ valid, m.to_ = { row := tr, col := tc }) :
    ∃ g2, Game.move fuel g fr fc tr tc = .ok (true, g2) := by
  obtain ⟨possible, hposs, hvb⟩ := getValidMoves_eq fuel _ _ p fr fc hin hocc _ hv
  simp only [Prod.mk.injEq, and_true] at hvb
  have hsome : ∃ m, valid.find? (fun m => decide (m.to_.row = tr ∧ m.to_.col = tc)) = some m := by
    cases hf : valid.find? (fun m => decide (m.to_.row = tr ∧ m.to_.col = tc)) with
    | some m => exact ⟨m, rfl⟩
    | none =>
      obtain ⟨m, hm, hto⟩ := hex
      have := List.find?_eq_none.mp hf m hm
      rw [hto] at this
      simp at this
  obtain ⟨m, hf⟩ := hsome
  have hmem : m ∈ possible := by
    have := List.mem_of_find?_eq_some hf
    rw [hvb] at this
    exact List.mem_of_mem_filter this
  obtain ⟨s2, b2, hmv⟩ := move_generated_returns_true g.status g.board p fr fc m hin
    (generatedFrom_getPossibleMovesCore _ _ _ _ _ _ _ _ hposs hmem)
  refine ⟨{ board := b2, status := s2, turn := Game.incrementTurn g.turn }, ?_⟩
  unfold Game.move
  rw [getSquare_eq_some _ _ _ hin]
  dsimp only
  rw [← occupant_of_inRange g.board fr fc hin, hocc]
  dsimp only
  rw [if_neg (not_not.mpr hcol), hv]
  dsimp only
  rw [hf]
  dsimp only
  rw [hmv]

/-- C3: from an in-range origin `Game.move` returns true exactly when the
origin holds a piece of the colour to move whose valid moves contain one with
the requested destination; the move applied is then the first such move of
the valid-move list, applied by `Gameplay.move`, and the turn counter is the
one `this.turn++` leaves. -/
theorem Game.move_true_iff (fuel : Nat) (g : Game) (fromRow fromCol toRow toCol : Int)
    (hin : inRange fromRow fromCol) :
    ((∃ g2, Game.move fuel g fromRow fromCol toRow toCol = .ok (true, g2)) ↔
      ∃ p valid b1, g.board.occupant fromRow fromCol = some p ∧ p.color = g.getTurnColor ∧
        getValidMoves fuel g.status g.board (some p) fromRow fromCol = .ok (valid, b1) ∧
        ∃ m ∈ valid, m.to_ = { row := toRow, col := toCol }) ∧
    ∀ g2, Game.move fuel g fromRow fromCol toRow toCol = .ok (true, g2) →
      ∃ p valid m s2 b2, g.board.occupant fromRow fromCol = some p ∧
        getValidMoves fuel g.status g.board (some p) fromRow fromCol = .ok (valid, g.board) ∧
        valid.find? (fun m => decide (m.to_.row = toRow ∧ m.to_.col = toCol)) = some m ∧
        Gameplay.move g.status g.board m = .ok (true, s2, b2) ∧
        g2 = { board := b2, status := s2, turn := Game.incrementTurn g.turn } := by
  have key : ∀ g2, Game.move fuel g fromRow fromCol toRow toCol = .ok (true, g2) →
      ∃ p valid m s2 b2, g.board.occupant fromRow fromCol = some p ∧
        p.color = g.getTurnColor ∧
        getValidMoves fuel g.status g.board (some p) fromRow fromCol = .ok (valid, g.board) ∧
        valid.find? (fun m => decide (m.to_.row = toRow ∧ m.to_.col = toCol)) = some m ∧
        Gameplay.move g.status g.board m = .ok (true, s2, b2) ∧
        g2 = { board := b2, status := s2, turn := Game.incrementTurn g.turn } := by
    intro g2 h
    rcases Game.move_cases fuel g _ _ _ _ hin _ h with ⟨h1, _⟩ | ⟨p, valid, m, s2, b2, h1, h2, h3, h4, h5, h6⟩
    · simp at h1
    · simp only [Prod.mk.injEq, true_and] at h6
      exact ⟨p, valid, m, s2, b2, h1, h2, h3, h4, h5, h6⟩
  refine ⟨⟨?_, ?_⟩, ?_⟩
  · rintro ⟨g2, h⟩
    obtain ⟨p, valid, m, s2, b2, h1, h2, h3, h4, _, _⟩ := key g2 h
    refine ⟨p, valid, g.board, h1, h2, h3, m, List.mem_of_find?_eq_some h4, ?_⟩
    have := List.find?_some h4
    simp only [decide_eq_true_eq] at this
    cases hm : m.to_
    rw [hm] at this
    simp only at this
    rw [this.1, this.2]
  · rintro ⟨p, valid, b1, h1, h2, h3, h4⟩
    obtain ⟨possible, _, hvb⟩ := getValidMoves_eq fuel _ _ p _ _ hin h1 _ h3
    simp only [Prod.mk.injEq] at hvb
    rw [hvb.2] at h3
    exact Game.move_ok_true_of_valid fuel g _ _ _ _ hin p valid h1 h2 h3 h4
  · intro g2 h
    obtain ⟨p, valid, m, s2, b2, h1, _, h3, h4, h5, h6⟩ := key g2 h
    exact ⟨p, valid, m, s2, b2, h1, h3, h4, h5, h6⟩

/-- C3, at the pin position: the request b5-c6 is granted. -/
theorem Game.move_true_iff_witness :
    Except.map Prod.fst (Game.move 1 pinGame 5 2 6 3) = .ok true ∧
    ((∃ g2, Game.move 1 pinGame 5 2 6 3 = .ok (true, g2)) ↔
      ∃ p valid b1, pinGame.board.occupant 5 2 = some p ∧ p.color = pinGame.getTurnColor ∧
        getValidMoves 1 pinGame.status pinGame.board (some p) 5 2 = .ok (valid, b1) ∧
        ∃ m ∈ valid, m.to_ = { row := 6, col := 3 }) :=
  ⟨by decide!, (Game.move_true_iff 1 pinGame 5 2 6 3 (by decide)).1⟩

theorem eq_ok_of_map_fst {α : Type} (x : Except Err (Bool × α)) (v : Bool)
    (h : Except.map Prod.fst x = .ok v) : ∃ a, x = .ok (v, a) := by
  cases x with
  | error e => simp [Except.map] at h
  | ok r =>
    obtain ⟨r1, r2⟩ := r
    simp [Except.map] at h
    exact ⟨r2, by rw [h]⟩

/-- C4: whenever `Game.move` returns false from an in-range origin, the game
after the call is the game before it: turn counter, every square and every
status field. -/
theorem Game.move_false_unchanged (fuel : Nat) (g : Game) (fromRow fromCol toRow toCol : Int)
    (hin : inRange fromRow fromCol)
    (hfalse : Except.map Prod.fst (Game.move fuel g fromRow fromCol toRow toCol) = .ok false) :
    Game.move fuel g fromRow fromCol toRow toCol = .ok (false, g) := by
  obtain ⟨g2, h⟩ := eq_ok_of_map_fst _ _ hfalse
  rcases Game.move_cases fuel g _ _ _ _ hin _ h with ⟨h1, _⟩ | ⟨_, _, _, _, _, _, _, _, _, _, h6⟩
  · rw [h, h1]
  · simp at h6

/-- C4, at the pin position: the request a5-b4, which the dry run rejects
because the pawn on c5 attacks b4, leaves the game as it was. -/
theorem Game.move_false_unchanged_witness :
    Game.move 1 pinGame 5 1 4 2 = .ok (false, pinGame) :=
  Game.move_false_unchanged 1 pinGame 5 1 4 2 (by decide) (by decide!)

/-- C5 (counterexample): on the pin position with the turn counter at
`2 ^ 53`, BLACK to move, the request e8-d8 is granted, yet the turn counter is
still `2 ^ 53` afterwards, not `2 ^ 53 + 1`, and BLACK is still to move. -/
theorem Game.turn_stuck_at_two_pow_53 :
    lateGame.turn = 2 ^ 53 ∧ lateGame.getTurnColor = .BLACK ∧
    ∃ g2, Game.move 1 lateGame 8 5 8 4 = .ok (true, g2) ∧ g2.turn = lateGame.turn ∧
      g2.turn ≠ lateGame.turn + 1 ∧ g2.getTurnColor = lateGame.getTurnColor := by
  refine ⟨rfl, by decide!, ?_⟩
  have h1 : (match Game.move 1 lateGame 8 5 8 4 with
      | .error _ => false
      | .ok (r, g2) =>
        r && decide (g2.turn = lateGame.turn) && decide (g2.turn ≠ lateGame.turn + 1) &&
          decide (g2.getTurnColor = lateGame.getTurnColor)) = true := by decide!
  cases hm : Game.move 1 lateGame 8 5 8 4 with
  | error e => rw [hm] at h1; simp at h1
  | ok rg =>
    obtain ⟨r, g2⟩ := rg
    rw [hm] at h1
    simp only [Bool.and_eq_true, decide_eq_true_eq] at h1
    obtain ⟨⟨⟨hr, h2⟩, h3⟩, h4⟩ := h1
    subst hr
    exact ⟨g2, rfl, h2, h3, h4⟩

/-- C5 (amended): the turn colour is WHITE exactly on odd turn counters and
BLACK on even ones; a `Game.move` that returns true leaves the counter that
`this.turn++` computes, which, as long as the counter is below `2 ^ 53`, is the
counter plus exactly one, and the colour to move after it is then the
opposite one. -/
theorem Game.turn_alternates (g : Game) :
    (g.getTurnColor = .WHITE ↔ g.turn % 2 = 1) ∧ (g.getTurnColor = .BLACK ↔ g.turn % 2 = 0) ∧
    ∀ (fuel : Nat) (fromRow fromCol toRow toCol : Int) (g2 : Game),
      Game.move fuel g fromRow fromCol toRow toCol = .ok (true, g2) →
      g2.turn = Game.incrementTurn g.turn ∧
      (g.turn < 2 ^ 53 →
        g2.turn = g.turn + 1 ∧ g2.getTurnColor = opColor g.getTurnColor) := by
  refine ⟨?_, ?_, ?_⟩
  · unfold Game.getTurnColor
    rcases Nat.mod_two_eq_zero_or_one g.turn with h | h <;> simp [h]
  · unfold Game.getTurnColor
    rcases Nat.mod_two_eq_zero_or_one g.turn with h | h <;> simp [h]
  · intro fuel fr fc tr tc g2 h
    have hin : inRange fr fc := by
      by_contra hn
      unfold Game.move at h
      rw [getSquare_eq_none _ _ _ hn] at h
      simp at h
    rcases Game.move_cases fuel g _ _ _ _ hin _ h with ⟨h1, _⟩ | ⟨_, _, _, _, _, _, _, _, _, _, h6⟩
    · simp at h1
    · simp only [Prod.mk.injEq, true_and] at h6
      subst h6
      refine ⟨rfl, ?_⟩
      intro hlt
      have hinc : Game.incrementTurn g.turn = g.turn + 1 := by
        unfold Game.incrementTurn
        rw [if_pos hlt]
      refine ⟨hinc, ?_⟩
      unfold Game.getTurnColor opColor
      dsimp only
      rw [hinc]
      rcases Nat.mod_two_eq_zero_or_one g.turn with h | h
      · have h2 : (g.turn + 1) % 2 = 1 := by omega
        simp [h, h2]
      · have h2 : (g.turn + 1) % 2 = 0 := by omega
        simp [h, h2]

/-- C5 (amended), at the pin position: WHITE is to move on turn 1, which is
below `2 ^ 53`, and after the granted request b5-c6 the turn counter is 2 and
BLACK is to move. -/
theorem Game.turn_alternates_witness :
    pinGame.getTurnColor = .WHITE ∧ pinGame.turn < 2 ^ 53 ∧
    ∃ g2, Game.move 1 pinGame 5 2 6 3 = .ok (true, g2) ∧ g2.turn = 2 ∧
      g2.getTurnColor = .BLACK := by
  obtain ⟨g2, h⟩ := eq_ok_of_map_fst (Game.move 1 pinGame 5 2 6 3) true (by decide!)
  have h2 := ((Game.turn_alternates pinGame).2.2 1 5 2 6 3 g2 h).2 (by decide)
  exact ⟨by decide, by decide, g2, h, h2.1, h2.2⟩

/-! ### The initial position and the fool's mate -/

theorem mem_allSquares (r c : Int) (h : inRange r c) : (r, c) ∈ allSquares := by
  unfold inRange at h
  obtain ⟨h1, h2, h3, h4⟩ := h
  have hr : r = 1 ∨ r = 2 ∨ r = 3 ∨ r = 4 ∨ r = 5 ∨ r = 6 ∨ r = 7 ∨ r = 8 := by omega
  have hc : c = 1 ∨ c = 2 ∨ c = 3 ∨ c = 4 ∨ c = 5 ∨ c = 6 ∨ c = 7 ∨ c = 8 := by omega
  rcases hr with rfl | rfl | rfl | rfl | rfl | rfl | rfl | rfl <;>
    rcases hc with rfl | rfl | rfl | rfl | rfl | rfl | rfl | rfl <;> decide

/-- C7: a new game has turn 1 with WHITE to move, WHITE pawns on row 2 and
BLACK pawns on row 7, the back ranks in the order ROOK, KNIGHT, BISHOP, QUEEN,
KING, BISHOP, KNIGHT, ROOK, rows 3 to 6 empty, every castling flag false and
both en-passant entries empty. -/
theorem Game.new_layout :
    Game.new.turn = 1 ∧ Game.new.getTurnColor = .WHITE ∧
    (∀ c ∈ range18,
      (Game.new.board.occupant 2 c).map (fun p => (p.type, p.color)) = some (.PAWN, .WHITE) ∧
      (Game.new.board.occupant 7 c).map (fun p => (p.type, p.color)) = some (.PAWN, .BLACK)) ∧
    range18.map (fun c => (Game.new.board.occupant 1 c).map fun p => (p.type, p.color)) =
      [PieceType.ROOK, .KNIGHT, .BISHOP, .QUEEN, .KING, .BISHOP, .KNIGHT, .ROOK].map
        (fun t => some (t, PieceColor.WHITE)) ∧
    range18.map (fun c => (Game.new.board.occupant 8 c).map fun p => (p.type, p.color)) =
      [PieceType.ROOK, .KNIGHT, .BISHOP, .QUEEN, .KING, .BISHOP, .KNIGHT, .ROOK].map
        (fun t => some (t, PieceColor.BLACK)) ∧
    (∀ r ∈ [(3 : Int), 4, 5, 6], ∀ c ∈ range18, Game.new.board.occupant r c = none) ∧
    (∀ color : PieceColor,
      Game.new.status.isKingMoved color = false ∧
      Game.new.status.isFirstColRookMoved color = false ∧
      Game.new.status.isLastColRookMoved color = false ∧
      Game.new.status.getPieceEnPassantable color = none) := by
  refine ⟨rfl, by decide, by decide!, by decide!, by decide!, by decide!, ?_⟩
  intro color
  cases color <;> exact ⟨rfl, rfl, rfl, rfl⟩

/-- C6: after the fool's mate moves, applied as NORMAL moves with
`Gameplay.move` from the initial layout, WHITE is in check, no WHITE piece has
a valid move, and `isCheckMateState` returns true for WHITE; one level of
nested check test is enough. -/
theorem foolsMate_is_checkmate (fuel : Nat) :
    ∃ s b, playNormal foolsMateSteps Game.new.status Game.new.board = .ok (s, b) ∧
      isCheckState (fuel + 1) s b .WHITE = .ok true ∧
      (∀ r c p, b.occupant r c = some p → p.color = .WHITE →
        ∃ b2, getValidMoves (fuel + 1) s b (some p) r c = .ok ([], b2)) ∧
      ∃ b2, isCheckMateState (fuel + 1) s b .WHITE = .ok (true, b2) := by
  have h1 : (match playNormal foolsMateSteps Game.new.status Game.new.board with
      | .error _ => false
      | .ok (s, b) =>
        decide (isCheckState 1 s b .WHITE = .ok true) && noValidMoves 1 s b .WHITE &&
          decide (Except.map Prod.fst (isCheckMateState 1 s b .WHITE) = .ok true)) = true := by
    decide!
  cases ha : playNormal foolsMateSteps Game.new.status Game.new.board with
  | error e => rw [ha] at h1; simp at h1
  | ok sb =>
    obtain ⟨s, b⟩ := sb
    rw [ha] at h1
    simp only [Bool.and_eq_true, decide_eq_true_eq] at h1
    obtain ⟨⟨hc, hv⟩, hm⟩ := h1
    refine ⟨s, b, rfl, isCheckState_mono 1 _ (by omega) _ _ _ _ hc, ?_, ?_⟩
    · intro r c p hocc hcol
      have hin := ((occupant_eq_some_iff b r c p).mp hocc).1
      unfold noValidMoves at hv
      have := List.all_eq_true.mp hv (r, c) (mem_allSquares r c hin)
      dsimp only at this
      rw [hocc] at this
      dsimp only at this
      rw [if_pos hcol] at this
      cases hg : getValidMoves 1 s b (some p) r c with
      | error e => rw [hg] at this; simp at this
      | ok vb =>
        obtain ⟨valid, b2⟩ := vb
        rw [hg] at this
        simp only [List.isEmpty_iff] at this
        subst this
        exact ⟨b2, getValidMoves_mono 1 _ (by omega) _ _ _ _ _ _ hg⟩
    · obtain ⟨b2, hb2⟩ := eq_ok_of_map_fst _ _ hm
      exact ⟨b2, isCheckMateState_mono 1 _ (by omega) _ _ _ _ hb2⟩

/-! ### En passant -/

theorem mem_pawnEnPassant (s : GameStatus) (b : Board) (p : Piece) (r c x : Int) (m : Move) :
    m ∈ pawnEnPassant s b p r c x ↔
      ∃ q, b.occupant r x = some q ∧ q.type = .PAWN ∧ q.color ≠ p.color ∧
        s.getPieceEnPassantable (opColor p.color) = some q ∧
        inRange (r + if p.color = .WHITE then 1 else -1) x ∧
        m = Move.mk .EN_PASSANT (Pos.mk r c)
          (Pos.mk (r + if p.color = .WHITE then 1 else -1) x) p (some q) := by
  unfold pawnEnPassant Board.occupant
  dsimp only
  cases hsq : b.getSquare r x with
  | none => simp
  | some sq =>
    dsimp only
    cases hq : sq.occupyingPiece with
    | none => simp
    | some q =>
      dsimp only
      by_cases hcond : q.type = .PAWN ∧ q.color ≠ p.color ∧
          s.getPieceEnPassantable (opColor p.color) = some q
      · rw [if_pos hcond, mem_addMove]
        constructor
        · rintro ⟨h1, h2⟩
          exact ⟨q, rfl, hcond.1, hcond.2.1, hcond.2.2, h1, h2⟩
        · rintro ⟨q2, h0, _, _, _, h1, h2⟩
          simp only [Option.some.injEq] at h0
          subst h0
          exact ⟨h1, h2⟩
      · rw [if_neg hcond]
        constructor
        · intro h; simp at h
        · rintro ⟨q2, h0, h1, h2, h3, _⟩
          simp only [Option.some.injEq] at h0
          subst h0
          exact absurd ⟨h1, h2, h3⟩ hcond

theorem type_of_mem_pawnAdvance (b : Board) (p : Piece) (r c : Int) (m : Move)
    (h : m ∈ pawnAdvance b p r c) : m.type = .NORMAL := by
  unfold pawnAdvance at h
  dsimp only at h
  generalize (if p.color = PieceColor.WHITE then (1 : Int) else -1) = dir at h
  generalize (if p.color = PieceColor.WHITE then (2 : Int) else 7) = startRow at h
  split at h
  · simp at h
  · split at h
    · rw [List.mem_append] at h
      rcases h with h | h
      · rw [mem_addMove] at h; rw [h.2]
      · split at h
        · split at h
          · simp at h
          · split at h
            · rw [mem_addMove] at h; rw [h.2]
            · simp at h
        · simp at h
    · simp at h

theorem type_of_mem_pawnCapture (b : Board) (p : Piece) (r c x : Int) (m : Move)
    (h : m ∈ pawnCapture b p r c x) : m.type = .CAPTURE := by
  unfold pawnCapture at h
  dsimp only at h
  generalize (if p.color = PieceColor.WHITE then (1 : Int) else -1) = dir at h
  split at h
  · simp at h
  · split at h
    · simp at h
    · split at h
      · rw [mem_addMove] at h; rw [h.2]
      · simp at h

/-- The en-passant moves among the pawn's moves. -/
theorem mem_pawnMoves_enPassant (s : GameStatus) (b : Board) (p : Piece) (r c : Int) (m : Move) :
    (m ∈ pawnMoves s b p r c ∧ m.type = .EN_PASSANT) ↔
      r = (if p.color = .WHITE then 5 else 4) ∧
        ∃ x, (x = c - 1 ∨ x = c + 1) ∧ m ∈ pawnEnPassant s b p r c x := by
  unfold pawnMoves
  dsimp only
  constructor
  · rintro ⟨h, ht⟩
    rw [List.mem_append, List.mem_append] at h
    rcases h with (h | h) | h
    · rw [type_of_mem_pawnAdvance _ _ _ _ _ h] at ht; cases ht
    · rw [List.mem_flatMap] at h
      obtain ⟨x, _, h⟩ := h
      rw [type_of_mem_pawnCapture _ _ _ _ _ _ h] at ht; cases ht
    · by_cases hrow : r = (if p.color = PieceColor.WHITE then (5 : Int) else 4)
      · rw [if_pos hrow, List.mem_flatMap] at h
        obtain ⟨x, hx, h⟩ := h
        refine ⟨hrow, x, ?_, h⟩
        simpa using hx
      · rw [if_neg hrow] at h
        simp at h
  · rintro ⟨hrow, x, hx, h⟩
    refine ⟨?_, ?_⟩
    · rw [List.mem_append]
      right
      rw [if_pos hrow, List.mem_flatMap]
      exact ⟨x, by simpa using hx, h⟩
    · rw [mem_pawnEnPassant] at h
      obtain ⟨q, _, _, _, _, _, hm⟩ := h
      rw [hm]

theorem getPossibleMoves_pawn (fuel : Nat) (s : GameStatus) (b : Board) (p : Piece)
    (r c : Int) (hp : p.type = .PAWN) :
    getPossibleMoves fuel s b (some p) r c = .ok (pawnMoves s b p r c) := by
  unfold getPossibleMoves getPossibleMovesCore
  dsimp only
  rw [hp]

theorem color_eq_opColor_iff (c d : PieceColor) : c = opColor d ↔ c ≠ d := by
  cases c <;> cases d <;> simp [opColor]

/-- C8: a pawn's moves contain an EN_PASSANT move to `(row + dir, col2)`, for
`col2` one of the two neighbouring columns, exactly when the pawn stands on
row 5 (WHITE) or 4 (BLACK) and `(row, col2)` holds a pawn of the other colour
that is the en-passantable piece of that colour; the captured piece of such a
move is that pawn. After e2-e4, e4-e5, d7-d5 the pawn on e5 has the
EN_PASSANT move to d6 capturing the pawn on d5. -/
theorem pawn_enPassant_iff :
    (∀ (fuel : Nat) (s : GameStatus) (b : Board) (p : Piece) (row col col2 : Int),
      p.type = .PAWN → (col2 = col - 1 ∨ col2 = col + 1) →
      ∃ ms, getPossibleMoves fuel s b (some p) row col = .ok ms ∧
        ((∃ m ∈ ms, m.type = .EN_PASSANT ∧
            m.to_ = { row := row + (if p.color = .WHITE then 1 else -1), col := col2 }) ↔
          (row = (if p.color = .WHITE then 5 else 4) ∧
            ∃ q, b.occupant row col2 = some q ∧ q.type = .PAWN ∧ q.color = opColor p.color ∧
              s.getPieceEnPassantable (opColor p.color) = some q)) ∧
        ∀ m ∈ ms, m.type = .EN_PASSANT →
          m.to_ = { row := row + (if p.color = .WHITE then 1 else -1), col := col2 } →
          m.capturedPiece = b.occupant row col2 ∧
            m.capturedPiece = s.getPieceEnPassantable (opColor p.color)) ∧
    ∀ fuel : Nat, ∃ s b wp bp ms,
      playNormal enPassantSteps Game.new.status Game.new.board = .ok (s, b) ∧
      b.occupant 5 5 = some wp ∧ wp.type = .PAWN ∧ wp.color = .WHITE ∧
      b.occupant 5 4 = some bp ∧ bp.type = .PAWN ∧ bp.color = .BLACK ∧
      getPossibleMoves fuel s b (some wp) 5 5 = .ok ms ∧
      Move.mk .EN_PASSANT (Pos.mk 5 5) (Pos.mk 6 4) wp (some bp) ∈ ms := by
  constructor
  · intro fuel s b p row col col2 hp hcol2
    refine ⟨pawnMoves s b p row col, getPossibleMoves_pawn fuel s b p row col hp, ⟨?_, ?_⟩, ?_⟩
    · rintro ⟨m, hm, hty, hto⟩
      obtain ⟨hrow, x, _, hx⟩ := (mem_pawnMoves_enPassant s b p row col m).mp ⟨hm, hty⟩
      obtain ⟨q, h1, h2, h3, h4, _, h6⟩ := (mem_pawnEnPassant s b p row col x m).mp hx
      rw [h6] at hto
      simp only [Pos.mk.injEq, true_and] at hto
      subst hto
      exact ⟨hrow, q, h1, h2, (color_eq_opColor_iff _ _).mpr h3, h4⟩
    · rintro ⟨hrow, q, h1, h2, h3, h4⟩
      have hin := ((occupant_eq_some_iff b row col2 q).mp h1).1
      have hin2 : inRange (row + if p.color = .WHITE then 1 else -1) col2 := by
        unfold inRange at hin ⊢
        split at hrow <;> rename_i hc <;> simp only [hc, if_true, if_false] <;> omega
      refine ⟨Move.mk .EN_PASSANT (Pos.mk row col)
        (Pos.mk (row + if p.color = .WHITE then 1 else -1) col2) p (some q), ?_, rfl, rfl⟩
      refine ((mem_pawnMoves_enPassant s b p row col _).mpr ⟨hrow, col2, hcol2, ?_⟩).1
      exact (mem_pawnEnPassant s b p row col col2 _).mpr
        ⟨q, h1, h2, (color_eq_opColor_iff _ _).mp h3, h4, hin2, rfl⟩
    · intro m hm hty hto
      obtain ⟨_, x, _, hx⟩ := (mem_pawnMoves_enPassant s b p row col m).mp ⟨hm, hty⟩
      obtain ⟨q, h1, _, _, h4, _, h6⟩ := (mem_pawnEnPassant s b p row col x m).mp hx
      rw [h6] at hto
      simp only [Pos.mk.injEq, true_and] at hto
      subst hto
      rw [h6, h1, h4]
      exact ⟨rfl, rfl⟩
  · intro fuel
    have h1 : (match playNormal enPassantSteps Game.new.status Game.new.board with
        | .error _ => false
        | .ok (s, b) =>
          match b.occupant 5 5, b.occupant 5 4 with
          | some wp, some bp =>
            decide (wp.type = .PAWN ∧ wp.color = .WHITE ∧ bp.type = .PAWN ∧ bp.color = .BLACK ∧
              Move.mk .EN_PASSANT (Pos.mk 5 5) (Pos.mk 6 4) wp (some bp) ∈ pawnMoves s b wp 5 5)
          | _, _ => false) = true := by decide!
    cases ha : playNormal enPassantSteps Game.new.status Game.new.board with
    | error e => rw [ha] at h1; simp at h1
    | ok sb =>
      obtain ⟨s, b⟩ := sb
      rw [ha] at h1
      dsimp only at h1
      cases hw : b.occupant 5 5 with
      | none => rw [hw] at h1; simp at h1
      | some wp =>
        cases hb : b.occupant 5 4 with
        | none => rw [hw, hb] at h1; simp at h1
        | some bp =>
          rw [hw, hb] at h1
          simp only [decide_eq_true_eq] at h1
          obtain ⟨h2, h3, h4, h5, h6⟩ := h1
          exact ⟨s, b, wp, bp, _, rfl, hw, h2, h3, hb, h4, h5,
            getPossibleMoves_pawn fuel s b wp 5 5 h2, h6⟩

theorem squares_setOccupant (b : Board) (r c : Int) (p : Option Piece) (r2 c2 : Int) :
    (b.setOccupant r c p).squares r2 c2 =
      if r2 = r ∧ c2 = c then { occupyingPiece := p } else b.squares r2 c2 := rfl

/-- C9: an EN_PASSANT move with in-range origin and destination that differ
in both row and column makes `Gameplay.move` return true, leaves the status as
it was, empties the origin and the square on the origin row in the destination
column, puts the origin's occupant on the destination and changes no other
square. -/
theorem move_enPassant_effect (s : GameStatus) (b : Board) (m : Move)
    (hty : m.type = .EN_PASSANT)
    (hf : inRange m.from_.row m.from_.col) (ht : inRange m.to_.row m.to_.col)
    (hc : m.to_.col ≠ m.from_.col) (hr : m.to_.row ≠ m.from_.row) :
    ∃ b2, move s b m = .ok (true, s, b2) ∧
      b2.occupant m.from_.row m.from_.col = none ∧
      b2.occupant m.from_.row m.to_.col = none ∧
      b2.occupant m.to_.row m.to_.col = b.occupant m.from_.row m.from_.col ∧
      ∀ r c, ¬ (r = m.from_.row ∧ c = m.from_.col) → ¬ (r = m.from_.row ∧ c = m.to_.col) →
        ¬ (r = m.to_.row ∧ c = m.to_.col) → b2.squares r c = b.squares r c := by
  have h1 : inRange m.from_.row m.to_.col := ⟨hf.1, hf.2.1, ht.2.2.1, ht.2.2.2⟩
  refine ⟨((b.setOccupant m.from_.row m.to_.col none).setOccupant m.from_.row m.from_.col
    none).setOccupant m.to_.row m.to_.col
    ((b.setOccupant m.from_.row m.to_.col none).squares m.from_.row m.from_.col).occupyingPiece,
    ?_, ?_, ?_, ?_, ?_⟩
  · unfold move
    rw [hty]
    dsimp only
    rw [removeOccupyingPiece_eq b _ _ h1]
    dsimp only
    rw [relocate_eq _ _ _ _ _ hf ht]
  · rw [occupant_of_inRange _ _ _ hf]
    simp [squares_setOccupant, hr, Ne.symm hr]
  · rw [occupant_of_inRange _ _ _ h1]
    simp [squares_setOccupant, hr, hc, Ne.symm hr]
  · rw [occupant_of_inRange _ _ _ ht, occupant_of_inRange _ _ _ hf]
    simp [squares_setOccupant, hc, Ne.symm hc]
  · intro r c n1 n2 n3
    simp only [squares_setOccupant]
    rw [if_neg n3, if_neg n1, if_neg n2]

/-- C9, at the pin position: the capture b5xc6 empties b5 and c5 and puts the
white pawn on c6. -/
theorem move_enPassant_effect_witness :
    ∃ b2, move pinStatus pinBoard pinMove = .ok (true, pinStatus, b2) ∧
      b2.occupant 5 2 = none ∧ b2.occupant 5 3 = none ∧
      b2.occupant 6 3 = some pinWhitePawn ∧
      ∀ r c, ¬ (r = 5 ∧ c = 2) → ¬ (r = 5 ∧ c = 3) → ¬ (r = 6 ∧ c = 3) →
        b2.squares r c = pinBoard.squares r c :=
  move_enPassant_effect pinStatus pinBoard pinMove rfl (by decide) (by decide) (by decide)
    (by decide)

/-! ### Lifetime of the en-passant eligibility -/

theorem type_of_mem_slideRay (b : Board) (p : Piece) (fr fc dr dc : Int) (n : Nat) (r c : Int)
    (m : Move) (h : m ∈ slideRay b p fr fc dr dc n r c) : m.type ≠ .EN_PASSANT := by
  induction n generalizing r c with
  | zero => simp [slideRay] at h
  | succ n ih =>
    rw [slideRay] at h
    split at h
    · split at h
      · simp at h
      · split at h
        · rw [List.mem_cons] at h
          rcases h with rfl | h
          · intro h; cases h
          · exact ih _ _ h
        · split at h
          · rw [List.mem_singleton] at h
            subst h
            intro h; cases h
          · simp at h
    · simp at h

theorem type_of_mem_stepMoves (b : Board) (p : Piece) (fr fc : Int)
    (offsets : List (Int × Int)) (m : Move) (h : m ∈ stepMoves b p fr fc offsets) :
    m.type ≠ .EN_PASSANT := by
  unfold stepMoves at h
  rw [List.mem_flatMap] at h
  obtain ⟨d, _, h⟩ := h
  dsimp only at h
  split at h
  · simp at h
  · split at h
    · rw [mem_addMove] at h; rw [h.2]; intro h; cases h
    · split at h
      · rw [mem_addMove] at h; rw [h.2]; intro h; cases h
      · simp at h

theorem type_of_mem_castleSide (b : Board) (p : Piece) (fr fc rookCol : Int) (rookMoved : Bool)
    (path : List Int) (toCol : Int) (ms : List Move) (m : Move)
    (h : castleSide b p fr fc rookCol rookMoved path toCol = .ok ms) (hm : m ∈ ms) :
    m.type = .CASTLING := by
  unfold castleSide at h
  split at h
  · simp at h; subst h; simp at hm
  · split at h
    · split at h
      · simp at h
      · simp at h
        subst h
        rw [mem_addMove] at hm
        rw [hm.2]
      · simp at h; subst h; simp at hm
    · simp at h; subst h; simp at hm

theorem type_of_mem_castlingMoves (chk : Oracle) (s : GameStatus) (b : Board) (p : Piece)
    (fr fc : Int) (ms : List Move) (m : Move)
    (h : castlingMoves chk s b p fr fc = .ok ms) (hm : m ∈ ms) : m.type = .CASTLING := by
  unfold castlingMoves at h
  split at h
  · simp at h; subst h; simp at hm
  · split at h
    · simp at h
    · simp at h; subst h; simp at hm
    · split at h
      · simp at h
      · rename_i ks hks
        split at h
        · simp at h
        · rename_i qs hqs
          simp at h
          subst h
          rw [List.mem_append] at hm
          rcases hm with hm | hm
          · exact type_of_mem_castleSide _ _ _ _ _ _ _ _ _ _ hks hm
          · exact type_of_mem_castleSide _ _ _ _ _ _ _ _ _ _ hqs hm

/-- An EN_PASSANT move is generated for a pawn only, and its captured piece is
the en-passantable piece recorded for the other colour. -/
theorem enPassant_captures_recorded (chk : Oracle) (s : GameStatus) (b : Board) (p : Piece)
    (r c : Int) (ms : List Move) (m : Move)
    (h : getPossibleMovesCore chk s b p r c = .ok ms) (hm : m ∈ ms)
    (hty : m.type = .EN_PASSANT) :
    ∃ q, m.capturedPiece = some q ∧ q.color = opColor p.color ∧
      s.getPieceEnPassantable (opColor p.color) = some q := by
  unfold getPossibleMovesCore at h
  split at h
  · simp at h; subst h
    obtain ⟨_, x, _, hx⟩ := (mem_pawnMoves_enPassant s b p r c m).mp ⟨hm, hty⟩
    obtain ⟨q, _, _, h3, h4, _, h6⟩ := (mem_pawnEnPassant s b p r c x m).mp hx
    exact ⟨q, by rw [h6], (color_eq_opColor_iff _ _).mpr h3, h4⟩
  · simp at h; subst h
    unfold addSlidingMoves at hm
    rw [List.mem_flatMap] at hm
    obtain ⟨d, _, hm⟩ := hm
    exact absurd hty (type_of_mem_slideRay _ _ _ _ _ _ _ _ _ _ hm)
  · simp at h; subst h
    unfold addSlidingMoves at hm
    rw [List.mem_flatMap] at hm
    obtain ⟨d, _, hm⟩ := hm
    exact absurd hty (type_of_mem_slideRay _ _ _ _ _ _ _ _ _ _ hm)
  · simp at h; subst h
    unfold addSlidingMoves at hm
    rw [List.mem_flatMap] at hm
    obtain ⟨d, _, hm⟩ := hm
    exact absurd hty (type_of_mem_slideRay _ _ _ _ _ _ _ _ _ _ hm)
  · simp at h; subst h
    exact absurd hty (type_of_mem_stepMoves _ _ _ _ _ _ hm)
  · split at h
    · simp at h
    · rename_i cs hcs
      simp at h
      subst h
      rw [List.mem_append] at hm
      rcases hm with hm | hm
      · exact absurd hty (type_of_mem_stepMoves _ _ _ _ _ _ hm)
      · rw [type_of_mem_castlingMoves _ _ _ _ _ _ _ _ hcs hm] at hty
        cases hty

theorem enPassantable_setKingMove (s : GameStatus) (c d : PieceColor) :
    (s.setKingMove c).getPieceEnPassantable d = s.getPieceEnPassantable d := by
  unfold GameStatus.setKingMove GameStatus.getPieceEnPassantable
  split <;> rfl

theorem enPassantable_setFirstColRookMove (s : GameStatus) (c d : PieceColor) :
    (s.setFirstColRookMove c).getPieceEnPassantable d = s.getPieceEnPassantable d := by
  unfold GameStatus.setFirstColRookMove GameStatus.getPieceEnPassantable
  split <;> rfl

theorem enPassantable_setLastColRookMove (s : GameStatus) (c d : PieceColor) :
    (s.setLastColRookMove c).getPieceEnPassantable d = s.getPieceEnPassantable d := by
  unfold GameStatus.setLastColRookMove GameStatus.getPieceEnPassantable
  split <;> rfl

theorem enPassantable_kingRookFlags (s : GameStatus) (b : Board) (m : Move) (d : PieceColor) :
    (kingRookFlags s b m).getPieceEnPassantable d = s.getPieceEnPassantable d := by
  unfold kingRookFlags
  split
  · exact enPassantable_setKingMove _ _ _
  · split
    · split
      · exact enPassantable_setFirstColRookMove _ _ _
      · split
        · exact enPassantable_setLastColRookMove _ _ _
        · rfl
    · rfl

/-- The only write of `Gameplay.move` to the en-passant record of colour `c`:
a NORMAL double step of a pawn of colour `c` records that pawn. -/
theorem enPassantable_after_move (s : GameStatus) (b : Board) (m : Move) (c : PieceColor)
    (r : Bool) (s2 : GameStatus) (b2 : Board) (h : move s b m = .ok (r, s2, b2)) :
    s2.getPieceEnPassantable c =
      if isDoubleStepOf c m then some m.movedPiece else s.getPieceEnPassantable c := by
  unfold move at h
  unfold isDoubleStepOf
  split at h
  · rename_i hty
    dsimp only at h
    split at h
    · simp at h
    · rename_i r1 b1 _
      simp only [Except.ok.injEq, Prod.mk.injEq] at h
      obtain ⟨_, hs, _⟩ := h
      rw [← hs]
      by_cases hd : m.movedPiece.type = .PAWN ∧ (m.to_.row - m.from_.row).natAbs = 2
      · rw [if_pos hd]
        unfold GameStatus.setPieceEnPassantable GameStatus.getPieceEnPassantable
        dsimp only
        by_cases hc : c = m.movedPiece.color
        · rw [if_pos hc, if_pos ⟨hty, hd.1, hd.2, hc.symm⟩]
        · rw [if_neg hc, if_neg (fun hh => hc hh.2.2.2.symm)]
      · rw [if_neg hd, enPassantable_kingRookFlags, if_neg (fun hh => hd ⟨hh.2.1, hh.2.2.1⟩)]
  · rename_i hty
    dsimp only at h
    split at h
    · simp at h
    · split at h
      · simp at h
      · simp only [Except.ok.injEq, Prod.mk.injEq] at h
        obtain ⟨_, hs, _⟩ := h
        rw [← hs, enPassantable_kingRookFlags, if_neg]
        rw [hty]
        intro hh
        cases hh.1
  · rename_i hty
    split at h
    · simp at h
    · split at h
      · simp at h
      · simp only [Except.ok.injEq, Prod.mk.injEq] at h
        obtain ⟨_, hs, _⟩ := h
        rw [← hs, if_neg]
        rw [hty]
        intro hh
        cases hh.1
  · rename_i hty
    dsimp only at h
    split at h
    · simp at h
    · split at h
      · simp at h
      · simp only [Except.ok.injEq, Prod.mk.injEq] at h
        obtain ⟨_, hs, _⟩ := h
        have hn : ¬ (m.type = .NORMAL ∧ m.movedPiece.type = .PAWN ∧
            (m.to_.row - m.from_.row).natAbs = 2 ∧ m.movedPiece.color = c) := by
          rw [hty]; intro hh; cases hh.1
        rw [if_neg hn, ← hs]
        by_cases hcnd : (if m.to_.col < m.from_.col then b.MIN_COL else b.MAX_COL) = b.MIN_COL
        · rw [if_pos hcnd, enPassantable_setFirstColRookMove, enPassantable_setKingMove]
        · rw [if_neg hcnd, enPassantable_setLastColRookMove, enPassantable_setKingMove]
  · rename_i hty
    simp only [Except.ok.injEq, Prod.mk.injEq] at h
    obtain ⟨_, hs, _⟩ := h
    rw [← hs, if_neg (by rw [hty]; intro hh; cases hh.1)]

theorem enPassantable_after_applyMoves (ms : List Move) (s : GameStatus) (b : Board)
    (c : PieceColor) (s2 : GameStatus) (b2 : Board)
    (hms : ∀ x ∈ ms, ¬ isDoubleStepOf c x) (h : applyMoves ms s b = .ok (s2, b2)) :
    s2.getPieceEnPassantable c = s.getPieceEnPassantable c := by
  induction ms generalizing s b with
  | nil =>
    simp only [applyMoves, Except.ok.injEq, Prod.mk.injEq] at h
    rw [h.1]
  | cons m ms ih =>
    rw [applyMoves] at h
    cases hm : move s b m with
    | error e => rw [hm] at h; simp at h
    | ok rsb =>
      obtain ⟨r, s1, b1⟩ := rsb
      rw [hm] at h
      dsimp only at h
      rw [ih s1 b1 (fun x hx => hms x (List.mem_cons_of_mem _ hx)) h,
        enPassantable_after_move s b m c r s1 b1 hm,
        if_neg (hms m (List.mem_cons_self _ _))]


/-- C10 (counterexample): from the initial layout, after the double step e2-e4
and the four further moves d7-d5, a2-a3, d5-d4, h2-h3, the moves generated for
the black pawn on d4 contain an EN_PASSANT move whose captured piece is the
pawn that double-stepped to e4. -/
theorem stale_enPassant_generated :
    applyMoves (staleDoubleStep :: staleFurtherMoves) Game.new.status Game.new.board =
      .ok (staleStatus, staleBoard) ∧
    Game.new.board.occupant 2 5 = some whitePawnE ∧
    isDoubleStepOf .WHITE staleDoubleStep ∧ staleDoubleStep.movedPiece = whitePawnE ∧
    staleFurtherMoves.length = 4 ∧
    staleBoard.occupant 4 4 = some blackPawnD ∧
    ∀ fuel, ∃ ms, getPossibleMoves fuel staleStatus staleBoard (some blackPawnD) 4 4 = .ok ms ∧
      Move.mk .EN_PASSANT (Pos.mk 4 4) (Pos.mk 3 5) blackPawnD (some whitePawnE) ∈ ms := by
  refine ⟨rfl, by decide!, by decide, rfl, rfl, by decide!, ?_⟩
  intro fuel
  exact ⟨_, getPossibleMoves_pawn fuel _ _ _ _ _ rfl, by decide!⟩

/-- C10 (amended): after a pawn's double step followed by any further moves
applied with `Gameplay.move`, none of them a NORMAL double step by a pawn of
the same colour, the en-passantable piece recorded for that colour is still
that pawn, and every EN_PASSANT move generated against that colour captures
that pawn and no other. -/
theorem enPassant_eligibility_until_next_double_step (fuel : Nat) (s0 : GameStatus) (b0 : Board)
    (d : Move) (ms : List Move) (s : GameStatus) (b : Board)
    (hd : isDoubleStepOf d.movedPiece.color d)
    (hms : ∀ x ∈ ms, ¬ isDoubleStepOf d.movedPiece.color x)
    (happ : applyMoves (d :: ms) s0 b0 = .ok (s, b)) :
    s.getPieceEnPassantable d.movedPiece.color = some d.movedPiece ∧
    ∀ (p : Piece) (r c : Int) (moves : List Move) (m : Move) (q : Piece),
      getPossibleMoves fuel s b (some p) r c = .ok moves → m ∈ moves →
      m.type = .EN_PASSANT → m.capturedPiece = some q → q.color = d.movedPiece.color →
      q = d.movedPiece := by
  have hrec : s.getPieceEnPassantable d.movedPiece.color = some d.movedPiece := by
    rw [applyMoves] at happ
    cases hm : move s0 b0 d with
    | error e => rw [hm] at happ; simp at happ
    | ok rsb =>
      obtain ⟨r, s1, b1⟩ := rsb
      rw [hm] at happ
      dsimp only at happ
      rw [enPassantable_after_applyMoves ms s1 b1 _ s b hms happ,
        enPassantable_after_move s0 b0 d _ r s1 b1 hm, if_pos hd]
  refine ⟨hrec, ?_⟩
  intro p r c moves m q hg hm hty hcap hcol
  obtain ⟨q2, h1, h2, h3⟩ := enPassant_captures_recorded _ s b p r c moves m hg hm hty
  rw [hcap] at h1
  simp only [Option.some.injEq] at h1
  subst h1
  rw [← h2, hcol, hrec] at h3
  simp only [Option.some.injEq] at h3
  exact h3.symm

/-- C10 (amended), on the moves e2-e4, d7-d5, a2-a3, d5-d4, h2-h3: the pawn on
e4 is still the en-passantable WHITE piece. -/
theorem enPassant_eligibility_until_next_double_step_witness :
    staleStatus.getPieceEnPassantable .WHITE = some whitePawnE ∧
    ∀ (p : Piece) (r c : Int) (moves : List Move) (m : Move) (q : Piece),
      getPossibleMoves 1 staleStatus staleBoard (some p) r c = .ok moves → m ∈ moves →
      m.type = .EN_PASSANT → m.capturedPiece = some q → q.color = .WHITE →
      q = whitePawnE :=
  enPassant_eligibility_until_next_double_step 1 Game.new.status Game.new.board
    staleDoubleStep staleFurtherMoves staleStatus staleBoard (by decide) (by decide) rfl

/-! ### Castling: generation -/

theorem occupiedAt_eq (b : Board) (r c : Int) (h : inRange r c) :
    b.occupiedAt r c = .ok (b.occupant r c).isSome := by
  unfold Board.occupiedAt Board.occupant Square.occupiedState
  rw [getSquare_eq_some b r c h]

theorem pathClear_eq (b : Board) (row : Int) (cols : List Int)
    (h : ∀ c ∈ cols, inRange row c) :
    pathClear b row cols = .ok (cols.all fun c => (b.occupant row c).isNone) := by
  induction cols with
  | nil => rfl
  | cons c cs ih =>
    rw [pathClear, occupiedAt_eq b row c (h c (List.mem_cons_self _ _)), List.all_cons]
    cases hocc : b.occupant row c with
    | none =>
      dsimp only [Option.isSome_none, Option.isNone_none]
      rw [Bool.true_and]
      exact ih (fun x hx => h x (List.mem_cons_of_mem _ hx))
    | some q =>
      dsimp only [Option.isSome_some, Option.isNone_some]
      rw [Bool.false_and]

/-- One side of the castling rule when the path squares are on the board. -/
theorem mem_castleSide_iff (b : Board) (p : Piece) (fr fc rookCol : Int) (rookMoved : Bool)
    (path : List Int) (toCol : Int) (hpath : ∀ c ∈ path, inRange fr c)
    (hto : inRange fr toCol) :
    ∃ ms, castleSide b p fr fc rookCol rookMoved path toCol = .ok ms ∧
      (∀ m ∈ ms, m = Move.mk .CASTLING (Pos.mk fr fc) (Pos.mk fr toCol) p none) ∧
      (ms ≠ [] ↔ (∃ rook, b.occupant fr rookCol = some rook ∧ rook.type = .ROOK) ∧
        rookMoved = false ∧ ∀ c ∈ path, b.occupant fr c = none) := by
  unfold castleSide
  rw [pathClear_eq b fr path hpath]
  cases hocc : b.occupant fr rookCol with
  | none => exact ⟨[], rfl, by simp, by simp⟩
  | some rook =>
    dsimp only
    by_cases hcond : rook.type = .ROOK ∧ rookMoved = false
    · rw [if_pos hcond]
      by_cases hall : (path.all fun c => (b.occupant fr c).isNone) = true
      · rw [hall]
        dsimp only
        refine ⟨_, rfl, ?_, ?_⟩
        · intro m hm
          exact ((mem_addMove _ _ _ _ _ _ _ _).mp hm).2
        · have hne : addMove p fr fc .CASTLING fr toCol none ≠ [] := by
            intro h
            have : Move.mk .CASTLING (Pos.mk fr fc) (Pos.mk fr toCol) p none ∈
                addMove p fr fc .CASTLING fr toCol none :=
              (mem_addMove _ _ _ _ _ _ _ _).mpr ⟨hto, rfl⟩
            rw [h] at this
            simp at this
          simp only [ne_eq, hne, not_false_eq_true, true_iff]
          refine ⟨⟨rook, rfl, hcond.1⟩, hcond.2, ?_⟩
          intro c hc
          have := List.all_eq_true.mp hall c hc
          simpa using this
      · have hall2 : (path.all fun c => (b.occupant fr c).isNone) = false := by
          simpa using hall
        rw [hall2]
        dsimp only
        refine ⟨[], rfl, by simp, ?_⟩
        simp only [ne_eq, not_true_eq_false, false_iff]
        rintro ⟨_, _, h3⟩
        apply hall
        rw [List.all_eq_true]
        intro c hc
        rw [h3 c hc]
        rfl
    · rw [if_neg hcond]
      refine ⟨[], rfl, by simp, ?_⟩
      simp only [ne_eq, not_true_eq_false, false_iff]
      rintro ⟨⟨rook2, h1, h2⟩, h3, _⟩
      simp only [Option.some.injEq] at h1
      subst h1
      exact hcond ⟨h2, h3⟩


theorem type_of_mem_stepMoves_cases (b : Board) (p : Piece) (fr fc : Int)
    (offsets : List (Int × Int)) (m : Move) (h : m ∈ stepMoves b p fr fc offsets) :
    m.type = .NORMAL ∨ m.type = .CAPTURE := by
  unfold stepMoves at h
  rw [List.mem_flatMap] at h
  obtain ⟨d, _, h⟩ := h
  dsimp only at h
  split at h
  · simp at h
  · split at h
    · rw [mem_addMove] at h; rw [h.2]; exact Or.inl rfl
    · split at h
      · rw [mem_addMove] at h; rw [h.2]; exact Or.inr rfl
      · simp at h

/-- The moves generated for a king on column 5 of an on-board row, given the
outcome `v` of the check test. -/
theorem getPossibleMoves_king_col5 (fuel : Nat) (s : GameStatus) (b : Board) (k : Piece)
    (r : Int) (v : Bool) (hr : 1 ≤ r ∧ r ≤ 8) (hk : k.type = .KING)
    (hchk : isCheckState fuel s b k.color = .ok v) :
    ∃ ks qs, getPossibleMoves fuel s b (some k) r 5 =
        .ok (stepMoves b k r 5 kingOffsets ++ (ks ++ qs)) ∧
      (∀ m ∈ ks, m = Move.mk .CASTLING (Pos.mk r 5) (Pos.mk r 7) k none) ∧
      (∀ m ∈ qs, m = Move.mk .CASTLING (Pos.mk r 5) (Pos.mk r 3) k none) ∧
      (ks ≠ [] ↔ s.isKingMoved k.color = false ∧ v = false ∧
        (∃ rook, b.occupant r 8 = some rook ∧ rook.type = .ROOK) ∧
        s.isLastColRookMoved k.color = false ∧ b.occupant r 6 = none ∧ b.occupant r 7 = none) ∧
      (qs ≠ [] ↔ s.isKingMoved k.color = false ∧ v = false ∧
        (∃ rook, b.occupant r 1 = some rook ∧ rook.type = .ROOK) ∧
        s.isFirstColRookMoved k.color = false ∧ b.occupant r 4 = none ∧
        b.occupant r 3 = none ∧ b.occupant r 2 = none) := by
  have hin : ∀ c : Int, 1 ≤ c → c ≤ 8 → inRange r c := fun c h1 h2 => ⟨hr.1, hr.2, h1, h2⟩
  obtain ⟨ks, hks, hks1, hks2⟩ := mem_castleSide_iff b k r 5 b.MAX_COL
    (s.isLastColRookMoved k.color) [5 + 1, 5 + 2] (5 + 2)
    (by intro c hc; simp at hc; rcases hc with rfl | rfl <;> exact hin _ (by omega) (by omega))
    (hin _ (by omega) (by omega))
  obtain ⟨qs, hqs, hqs1, hqs2⟩ := mem_castleSide_iff b k r 5 b.MIN_COL
    (s.isFirstColRookMoved k.color) [5 - 1, 5 - 2, 5 - 3] (5 - 2)
    (by intro c hc; simp at hc; rcases hc with rfl | rfl | rfl <;>
      exact hin _ (by omega) (by omega))
    (hin _ (by omega) (by omega))
  have h52 : (5 : Int) + 2 = 7 := by norm_num
  have h53 : (5 : Int) - 2 = 3 := by norm_num
  rw [h52] at hks1
  rw [h53] at hqs1
  unfold getPossibleMoves getPossibleMovesCore
  dsimp only
  rw [hk]
  dsimp only
  unfold castlingMoves
  by_cases hmoved : s.isKingMoved k.color = true
  · rw [if_pos hmoved]
    refine ⟨[], [], rfl, by simp, by simp, ?_, ?_⟩ <;> simp [hmoved]
  · rw [if_neg hmoved, hchk]
    have hmoved2 : s.isKingMoved k.color = false := by simpa using hmoved
    cases v with
    | true =>
      dsimp only
      refine ⟨[], [], rfl, by simp, by simp, ?_, ?_⟩ <;> simp
    | false =>
      dsimp only
      rw [hks, hqs]
      dsimp only
      refine ⟨ks, qs, rfl, hks1, hqs1, ?_, ?_⟩
      · rw [hks2]
        simp [hmoved2, Board.MAX_COL]
      · rw [hqs2]
        simp [hmoved2, Board.MIN_COL]

/-- C11: for a king standing on column 5 of row `r`, when the check test
returns `v`, the generated moves contain a CASTLING move to `(r, 7)` exactly
when the king's moved flag is unset, `v` is false, `(r, 8)` holds a rook whose
last-column flag is unset and `(r, 6)`, `(r, 7)` are empty; and a CASTLING
move to `(r, 3)` exactly when the king's moved flag is unset, `v` is false,
`(r, 1)` holds a rook whose first-column flag is unset and `(r, 4)`, `(r, 3)`,
`(r, 2)` are empty. Attacks on the squares the king crosses play no part. -/
theorem castling_generated_iff (fuel : Nat) (s : GameStatus) (b : Board) (k : Piece) (r : Int)
    (v : Bool) (hocc : b.occupant r 5 = some k) (hk : k.type = .KING)
    (hchk : isCheckState fuel s b k.color = .ok v) :
    ∃ ms, getPossibleMoves fuel s b (some k) r 5 = .ok ms ∧
      ((∃ m ∈ ms, m.type = .CASTLING ∧ m.to_ = { row := r, col := 7 }) ↔
        s.isKingMoved k.color = false ∧ v = false ∧
        (∃ rook, b.occupant r 8 = some rook ∧ rook.type = .ROOK) ∧
        s.isLastColRookMoved k.color = false ∧ b.occupant r 6 = none ∧
        b.occupant r 7 = none) ∧
      ((∃ m ∈ ms, m.type = .CASTLING ∧ m.to_ = { row := r, col := 3 }) ↔
        s.isKingMoved k.color = false ∧ v = false ∧
        (∃ rook, b.occupant r 1 = some rook ∧ rook.type = .ROOK) ∧
        s.isFirstColRookMoved k.color = false ∧ b.occupant r 4 = none ∧
        b.occupant r 3 = none ∧ b.occupant r 2 = none) := by
  have hin := ((occupant_eq_some_iff b r 5 k).mp hocc).1
  obtain ⟨ks, qs, hms, hks1, hqs1, hks2, hqs2⟩ :=
    getPossibleMoves_king_col5 fuel s b k r v ⟨hin.1, hin.2.1⟩ hk hchk
  refine ⟨_, hms, ?_, ?_⟩
  · rw [← hks2]
    constructor
    · rintro ⟨m, hm, hty, hto⟩
      rw [List.mem_append, List.mem_append] at hm
      rcases hm with hm | hm | hm
      · rcases type_of_mem_stepMoves_cases _ _ _ _ _ _ hm with h | h <;>
          rw [h] at hty <;> cases hty
      · intro h; rw [h] at hm; simp at hm
      · rw [hqs1 m hm] at hto
        simp at hto
    · intro hne
      obtain ⟨m, hm⟩ := List.exists_mem_of_ne_nil ks hne
      refine ⟨m, ?_, ?_, ?_⟩
      · rw [List.mem_append, List.mem_append]; exact Or.inr (Or.inl hm)
      · rw [hks1 m hm]
      · rw [hks1 m hm]
  · rw [← hqs2]
    constructor
    · rintro ⟨m, hm, hty, hto⟩
      rw [List.mem_append, List.mem_append] at hm
      rcases hm with hm | hm | hm
      · rcases type_of_mem_stepMoves_cases _ _ _ _ _ _ hm with h | h <;>
          rw [h] at hty <;> cases hty
      · rw [hks1 m hm] at hto
        simp at hto
      · intro h; rw [h] at hm; simp at hm
    · intro hne
      obtain ⟨m, hm⟩ := List.exists_mem_of_ne_nil qs hne
      refine ⟨m, ?_, ?_, ?_⟩
      · rw [List.mem_append, List.mem_append]; exact Or.inr (Or.inr hm)
      · rw [hqs1 m hm]
      · rw [hqs1 m hm]

/-- C11, on the position with king e1 and rooks a1, h1, where WHITE is not in
check: both castling moves are generated. -/
theorem castling_generated_iff_witness :
    ∃ ms, getPossibleMoves 1 castleStatus castleBoard (some castleKing) 1 5 = .ok ms ∧
      (∃ m ∈ ms, m.type = .CASTLING ∧ m.to_ = { row := 1, col := 7 }) ∧
      (∃ m ∈ ms, m.type = .CASTLING ∧ m.to_ = { row := 1, col := 3 }) := by
  obtain ⟨ms, hms, h7, h3⟩ := castling_generated_iff 1 castleStatus castleBoard castleKing 1
    false (by decide!) rfl (by decide!)
  exact ⟨ms, hms, h7.mpr (by decide!), h3.mpr (by decide!)⟩

/-! ### Castling rights are permanent -/

theorem move_status_eq (s : GameStatus) (b : Board) (m : Move) (r : Bool) (s2 : GameStatus)
    (b2 : Board) (h : move s b m = .ok (r, s2, b2)) : s2 = statusAfterMove s b m := by
  unfold move at h
  unfold statusAfterMove
  split at h
  · dsimp only at h
    split at h
    · simp at h
    · simp only [Except.ok.injEq, Prod.mk.injEq] at h
      exact h.2.1.symm
  · dsimp only at h
    split at h
    · simp at h
    · split at h
      · simp at h
      · simp only [Except.ok.injEq, Prod.mk.injEq] at h
        exact h.2.1.symm
  · split at h
    · simp at h
    · split at h
      · simp at h
      · simp only [Except.ok.injEq, Prod.mk.injEq] at h
        exact h.2.1.symm
  · dsimp only at h
    split at h
    · simp at h
    · split at h
      · simp at h
      · simp only [Except.ok.injEq, Prod.mk.injEq] at h
        rw [← h.2.1]
        by_cases hc : m.to_.col < m.from_.col
        · simp [hc]
        · simp [hc, Board.MIN_COL, Board.MAX_COL]
  · simp only [Except.ok.injEq, Prod.mk.injEq] at h
    exact h.2.1.symm

theorem isKingMoved_setKingMove (s : GameStatus) (c d : PieceColor) :
    (s.setKingMove c).isKingMoved d = (decide (c = d) || s.isKingMoved d) := by
  unfold GameStatus.setKingMove GameStatus.isKingMoved
  cases c <;> cases d <;> simp

theorem isKingMoved_setFirstColRookMove (s : GameStatus) (c d : PieceColor) :
    (s.setFirstColRookMove c).isKingMoved d = s.isKingMoved d := by
  unfold GameStatus.setFirstColRookMove GameStatus.isKingMoved
  cases c <;> cases d <;> simp

theorem isKingMoved_setLastColRookMove (s : GameStatus) (c d : PieceColor) :
    (s.setLastColRookMove c).isKingMoved d = s.isKingMoved d := by
  unfold GameStatus.setLastColRookMove GameStatus.isKingMoved
  cases c <;> cases d <;> simp

theorem isKingMoved_setPieceEnPassantable (s : GameStatus) (c d : PieceColor)
    (p : Option Piece) : (s.setPieceEnPassantable c p).isKingMoved d = s.isKingMoved d := rfl

theorem isKingMoved_kingRookFlags (s : GameStatus) (b : Board) (m : Move) (d : PieceColor) :
    (kingRookFlags s b m).isKingMoved d =
      (decide (m.movedPiece.type = .KING ∧ m.movedPiece.color = d) || s.isKingMoved d) := by
  unfold kingRookFlags
  by_cases hk : m.movedPiece.type = .KING
  · rw [if_pos hk, isKingMoved_setKingMove]
    simp [hk]
  · rw [if_neg hk]
    have hd : decide (m.movedPiece.type = .KING ∧ m.movedPiece.color = d) = false := by
      simp [hk]
    rw [hd, Bool.false_or]
    split
    · split
      · exact isKingMoved_setFirstColRookMove _ _ _
      · split
        · exact isKingMoved_setLastColRookMove _ _ _
        · rfl
    · rfl

/-- No move application resets a king's moved flag. -/
theorem isKingMoved_statusAfterMove_of_true (s : GameStatus) (b : Board) (m : Move)
    (d : PieceColor) (h : s.isKingMoved d = true) : (statusAfterMove s b m).isKingMoved d = true := by
  unfold statusAfterMove
  split
  · split
    · rw [isKingMoved_setPieceEnPassantable]; exact h
    · rw [isKingMoved_kingRookFlags, h, Bool.or_true]
  · rw [isKingMoved_kingRookFlags, h, Bool.or_true]
  · exact h
  · split
    · rw [isKingMoved_setFirstColRookMove, isKingMoved_setKingMove, h, Bool.or_true]
    · rw [isKingMoved_setLastColRookMove, isKingMoved_setKingMove, h, Bool.or_true]
  · exact h

/-- A NORMAL, CAPTURE or CASTLING move of a king sets the moved flag of its
colour. -/
theorem isKingMoved_statusAfterMove_of_king (s : GameStatus) (b : Board) (m : Move)
    (hty : m.type = .NORMAL ∨ m.type = .CAPTURE ∨ m.type = .CASTLING)
    (hk : m.movedPiece.type = .KING) :
    (statusAfterMove s b m).isKingMoved m.movedPiece.color = true := by
  unfold statusAfterMove
  rcases hty with h | h | h <;> rw [h] <;> dsimp only
  · rw [if_neg (by rw [hk]; intro hh; cases hh.1), isKingMoved_kingRookFlags]
    simp [hk]
  · rw [isKingMoved_kingRookFlags]
    simp [hk]
  · split
    · rw [isKingMoved_setFirstColRookMove, isKingMoved_setKingMove]; simp
    · rw [isKingMoved_setLastColRookMove, isKingMoved_setKingMove]; simp

theorem isKingMoved_after_applyMoves (ms : List Move) (s : GameStatus) (b : Board)
    (d : PieceColor) (s2 : GameStatus) (b2 : Board) (h0 : s.isKingMoved d = true)
    (h : applyMoves ms s b = .ok (s2, b2)) : s2.isKingMoved d = true := by
  induction ms generalizing s b with
  | nil =>
    simp only [applyMoves, Except.ok.injEq, Prod.mk.injEq] at h
    rw [← h.1]; exact h0
  | cons m ms ih =>
    rw [applyMoves] at h
    cases hm : move s b m with
    | error e => rw [hm] at h; simp at h
    | ok rsb =>
      obtain ⟨r, s1, b1⟩ := rsb
      rw [hm] at h
      dsimp only at h
      refine ih s1 b1 ?_ h
      rw [move_status_eq s b m r s1 b1 hm]
      exact isKingMoved_statusAfterMove_of_true s b m d h0

/-- A king whose moved flag is set gets its step moves and nothing else. -/
theorem getPossibleMoves_king_moved (fuel : Nat) (s : GameStatus) (b : Board) (k : Piece)
    (r c : Int) (hk : k.type = .KING) (hmoved : s.isKingMoved k.color = true) :
    getPossibleMoves fuel s b (some k) r c = .ok (stepMoves b k r c kingOffsets) := by
  unfold getPossibleMoves getPossibleMovesCore
  dsimp only
  rw [hk]
  dsimp only
  unfold castlingMoves
  rw [if_pos hmoved]
  dsimp only
  rw [List.append_nil]

theorem mem_of_mem_dryRunFilter (fuel : Nat) (s : GameStatus) (p : Piece) (ms : List Move)
    (b : Board) (res : List Move × Board) (h : dryRunFilter fuel s p ms b = .ok res) :
    ∀ m ∈ res.1, m ∈ ms := by
  induction ms generalizing b res with
  | nil =>
    intro m hm
    simp only [dryRunFilter, Except.ok.injEq] at h
    rw [← h] at hm
    exact hm
  | cons x xs ih =>
    intro m hm
    rw [dryRunFilter] at h
    split at h
    · simp at h
    · dsimp only at h
      split at h
      · simp at h
      · split at h
        · simp at h
        · rename_i inCheck _
          split at h
          · simp at h
          · rename_i kept bEnd hrec
            simp only [Except.ok.injEq] at h
            rw [← h] at hm
            dsimp only at hm
            have hsub : ∀ y ∈ kept, y ∈ xs := fun y hy => ih _ _ hrec y hy
            cases inCheck with
            | true =>
              simp only [if_true] at hm
              exact List.mem_cons_of_mem _ (hsub m hm)
            | false =>
              simp only [Bool.false_eq_true, if_false, List.mem_cons] at hm
              rcases hm with rfl | hm
              · exact List.mem_cons_self _ _
              · exact List.mem_cons_of_mem _ (hsub m hm)

theorem mem_possible_of_mem_getValidMoves (fuel : Nat) (s : GameStatus) (b : Board) (p : Piece)
    (r c : Int) (res : List Move × Board) (h : getValidMoves fuel s b (some p) r c = .ok res)
    (m : Move) (hm : m ∈ res.1) :
    ∃ possible, getPossibleMoves fuel s b (some p) r c = .ok possible ∧ m ∈ possible := by
  unfold getValidMoves at h
  cases hg : getPossibleMoves fuel s b (some p) r c with
  | error e => rw [hg] at h; simp at h
  | ok possible =>
    rw [hg] at h
    dsimp only at h
    exact ⟨possible, rfl, mem_of_mem_dryRunFilter fuel s p possible b res h m hm⟩

/-- C12: once `Gameplay.move` has applied a NORMAL, CAPTURE or CASTLING move of
a king, then after any further moves applied with `Gameplay.move` the moved
flag of that king's colour is still set, `getPossibleMoves` for a king of that
colour returns a list without CASTLING moves, on whatever square the king
stands, and so does every list `getValidMoves` returns for it. -/
theorem castling_rights_permanent (s0 : GameStatus) (b0 : Board) (d : Move) (ms : List Move)
    (s : GameStatus) (b : Board)
    (hty : d.type = .NORMAL ∨ d.type = .CAPTURE ∨ d.type = .CASTLING)
    (hk : d.movedPiece.type = .KING)
    (happ : applyMoves (d :: ms) s0 b0 = .ok (s, b)) :
    s.isKingMoved d.movedPiece.color = true ∧
    ∀ (fuel : Nat) (k : Piece) (r c : Int), k.type = .KING → k.color = d.movedPiece.color →
      (∃ moves, getPossibleMoves fuel s b (some k) r c = .ok moves ∧
        ∀ m ∈ moves, m.type ≠ .CASTLING) ∧
      ∀ res, getValidMoves fuel s b (some k) r c = .ok res → ∀ m ∈ res.1, m.type ≠ .CASTLING := by
  have hflag : s.isKingMoved d.movedPiece.color = true := by
    rw [applyMoves] at happ
    cases hm : move s0 b0 d with
    | error e => rw [hm] at happ; simp at happ
    | ok rsb =>
      obtain ⟨r, s1, b1⟩ := rsb
      rw [hm] at happ
      dsimp only at happ
      refine isKingMoved_after_applyMoves ms s1 b1 _ s b ?_ happ
      rw [move_status_eq s0 b0 d r s1 b1 hm]
      exact isKingMoved_statusAfterMove_of_king s0 b0 d hty hk
  refine ⟨hflag, ?_⟩
  intro fuel k r c hkt hkc
  have hgen := getPossibleMoves_king_moved fuel s b k r c hkt (by rw [hkc]; exact hflag)
  have hno : ∀ m ∈ stepMoves b k r c kingOffsets, m.type ≠ .CASTLING := by
    intro m hm
    rcases type_of_mem_stepMoves_cases _ _ _ _ _ _ hm with h | h <;> rw [h] <;> intro hh <;>
      cases hh
  refine ⟨⟨_, hgen, hno⟩, ?_⟩
  intro res hv m hm
  obtain ⟨possible, hp, hmem⟩ := mem_possible_of_mem_getValidMoves fuel s b k r c res hv m hm
  rw [hgen] at hp
  simp only [Except.ok.injEq] at hp
  rw [← hp] at hmem
  exact hno m hmem

/-- C12, on the castling position after the king has stepped e1-e2 and back
e2-e1: the king stands on e1 again with the rook on h1 and f1, g1 empty, yet
no CASTLING move is generated. -/
theorem castling_rights_permanent_witness :
    castleBackBoard.occupant 1 5 = some castleKing ∧
    castleBackBoard.occupant 1 8 = some castleRookH ∧
    castleBackBoard.occupant 1 6 = none ∧ castleBackBoard.occupant 1 7 = none ∧
    castleBackStatus.isKingMoved .WHITE = true ∧
    ∀ (fuel : Nat) (k : Piece) (r c : Int), k.type = .KING → k.color = .WHITE →
      (∃ moves, getPossibleMoves fuel castleBackStatus castleBackBoard (some k) r c = .ok moves ∧
        ∀ m ∈ moves, m.type ≠ .CASTLING) ∧
      ∀ res, getValidMoves fuel castleBackStatus castleBackBoard (some k) r c = .ok res →
        ∀ m ∈ res.1, m.type ≠ .CASTLING :=
  ⟨by decide!, by decide!, by decide!, by decide!,
    castling_rights_permanent castleStatus castleBoard castleKingOut [castleKingBack]
      castleBackStatus castleBackBoard (Or.inl rfl) rfl rfl⟩

/-! ### Castling: application -/

theorem castle_status_eq (s : GameStatus) (c : PieceColor) :
    (s.setKingMove c).setLastColRookMove c =
      { whiteKingMoved := s.whiteKingMoved || decide (c = .WHITE),
        blackKingMoved := s.blackKingMoved || decide (c = .BLACK),
        whiteFirstColRookMoved := s.whiteFirstColRookMoved,
        whiteLastColRookMoved := s.whiteLastColRookMoved || decide (c = .WHITE),
        blackFirstColRookMoved := s.blackFirstColRookMoved,
        blackLastColRookMoved := s.blackLastColRookMoved || decide (c = .BLACK),
        enPassantablePiece := s.enPassantablePiece } ∧
    (s.setKingMove c).setFirstColRookMove c =
      { whiteKingMoved := s.whiteKingMoved || decide (c = .WHITE),
        blackKingMoved := s.blackKingMoved || decide (c = .BLACK),
        whiteFirstColRookMoved := s.whiteFirstColRookMoved || decide (c = .WHITE),
        whiteLastColRookMoved := s.whiteLastColRookMoved,
        blackFirstColRookMoved := s.blackFirstColRookMoved || decide (c = .BLACK),
        blackLastColRookMoved := s.blackLastColRookMoved,
        enPassantablePiece := s.enPassantablePiece } := by
  cases s
  cases c <;>
    simp [GameStatus.setKingMove, GameStatus.setLastColRookMove, GameStatus.setFirstColRookMove]


/-- C13 (counterexample): a CASTLING move of the king from f1 to h1, all
squares involved on the board, returns true but leaves the destination h1
empty: the king ends on g1 and the rook is gone. -/
theorem castling_onto_corner_loses_rook :
    inRange 1 6 ∧ inRange 1 7 ∧ inRange 1 8 ∧
    cornerMove = Move.mk .CASTLING (Pos.mk 1 6) (Pos.mk 1 (6 + 2)) castleKing none ∧
    cornerBoard.occupant 1 6 = some castleKing ∧
    ∃ s2 b2, move castleStatus cornerBoard cornerMove = .ok (true, s2, b2) ∧
      b2.occupant 1 8 = none ∧ b2.occupant 1 7 = some castleKing ∧
      ∀ r c, b2.occupant r c ≠ some castleRookH := by
  refine ⟨by decide, by decide, by decide, by decide, by decide!, ?_⟩
  have h1 : (match move castleStatus cornerBoard cornerMove with
      | .error _ => false
      | .ok (r, _, b2) =>
        r && decide (b2.occupant 1 8 = none) && decide (b2.occupant 1 7 = some castleKing) &&
          allSquares.all fun rc => decide (b2.occupant rc.1 rc.2 ≠ some castleRookH)) = true := by
    decide!
  cases hm : move castleStatus cornerBoard cornerMove with
  | error e => rw [hm] at h1; simp at h1
  | ok rsb =>
    obtain ⟨r, s2, b2⟩ := rsb
    rw [hm] at h1
    simp only [Bool.and_eq_true, decide_eq_true_eq, List.all_eq_true] at h1
    obtain ⟨⟨⟨hr, h8⟩, h7⟩, hall⟩ := h1
    subst hr
    refine ⟨s2, b2, rfl, h8, h7, ?_⟩
    intro r c hocc
    have hin := ((occupant_eq_some_iff b2 r c _).mp hocc).1
    exact hall (r, c) (mem_allSquares r c hin) hocc

/-- C13 (amended): a CASTLING move from `(r, k)` to `(r, k + 2)` with
`k + 2 ≤ 7`, or to `(r, k - 2)` with `k - 2 ≥ 2`, so that the destination is
not the rook's corner, returns true; afterwards the destination holds the
origin's occupant, the origin is empty, the corner's occupant stands between
origin and destination, the corner is empty, the king flag and the castled
side's rook flag of the mover's colour are set, and every other square and
status field is as before. -/
theorem move_castling_effect (s : GameStatus) (b : Board) (p : Piece) (cap : Option Piece)
    (r k : Int) (hr : 1 ≤ r ∧ r ≤ 8) :
    (1 ≤ k → k + 2 ≤ 7 →
      ∃ b2, move s b (Move.mk .CASTLING (Pos.mk r k) (Pos.mk r (k + 2)) p cap) =
          .ok (true,
            { whiteKingMoved := s.whiteKingMoved || decide (p.color = .WHITE),
              blackKingMoved := s.blackKingMoved || decide (p.color = .BLACK),
              whiteFirstColRookMoved := s.whiteFirstColRookMoved,
              whiteLastColRookMoved := s.whiteLastColRookMoved || decide (p.color = .WHITE),
              blackFirstColRookMoved := s.blackFirstColRookMoved,
              blackLastColRookMoved := s.blackLastColRookMoved || decide (p.color = .BLACK),
              enPassantablePiece := s.enPassantablePiece }, b2) ∧
        b2.occupant r (k + 2) = b.occupant r k ∧ b2.occupant r k = none ∧
        b2.occupant r (k + 1) = b.occupant r 8 ∧ b2.occupant r 8 = none ∧
        ∀ r2 c2, ¬ (r2 = r ∧ (c2 = k ∨ c2 = k + 1 ∨ c2 = k + 2 ∨ c2 = 8)) →
          b2.squares r2 c2 = b.squares r2 c2) ∧
    (2 ≤ k - 2 → k ≤ 8 →
      ∃ b2, move s b (Move.mk .CASTLING (Pos.mk r k) (Pos.mk r (k - 2)) p cap) =
          .ok (true,
            { whiteKingMoved := s.whiteKingMoved || decide (p.color = .WHITE),
              blackKingMoved := s.blackKingMoved || decide (p.color = .BLACK),
              whiteFirstColRookMoved := s.whiteFirstColRookMoved || decide (p.color = .WHITE),
              whiteLastColRookMoved := s.whiteLastColRookMoved,
              blackFirstColRookMoved := s.blackFirstColRookMoved || decide (p.color = .BLACK),
              blackLastColRookMoved := s.blackLastColRookMoved,
              enPassantablePiece := s.enPassantablePiece }, b2) ∧
        b2.occupant r (k - 2) = b.occupant r k ∧ b2.occupant r k = none ∧
        b2.occupant r (k - 1) = b.occupant r 1 ∧ b2.occupant r 1 = none ∧
        ∀ r2 c2, ¬ (r2 = r ∧ (c2 = k ∨ c2 = k - 1 ∨ c2 = k - 2 ∨ c2 = 1)) →
          b2.squares r2 c2 = b.squares r2 c2) := by
  have hin : ∀ c : Int, 1 ≤ c → c ≤ 8 → inRange r c := fun c h1 h2 => ⟨hr.1, hr.2, h1, h2⟩
  constructor
  · intro hk1 hk2
    have hlt : ¬ (k + 2 < k) := by omega
    refine ⟨relocated (relocated b r k r (k + 2)) r 8 r (k + 1), ?_, ?_, ?_, ?_, ?_, ?_⟩
    · unfold move
      dsimp only
      rw [if_neg hlt, if_neg hlt,
        relocate_eq b _ _ _ _ (hin k (by omega) (by omega)) (hin (k + 2) (by omega) (by omega))]
      dsimp only
      rw [relocate_eq _ _ _ _ _ (hin b.MAX_COL (by unfold Board.MAX_COL; omega) (by unfold Board.MAX_COL; omega))
        (hin (k + 1) (by omega) (by omega))]
      dsimp only
      rw [if_neg (by unfold Board.MAX_COL Board.MIN_COL; omega), (castle_status_eq s p.color).1]
      rfl
    · rw [occupant_of_inRange _ _ _ (hin (k + 2) (by omega) (by omega)),
        occupant_of_inRange _ _ _ (hin k (by omega) (by omega))]
      have e1 : ¬ (k + 2 = k + 1) := by omega
      have e2 : ¬ (k + 2 = 8) := by omega
      simp [relocated, squares_setOccupant, Board.MAX_COL, e1, e2]
    · rw [occupant_of_inRange _ _ _ (hin k (by omega) (by omega))]
      have e1 : ¬ (k = k + 1) := by omega
      have e2 : ¬ (k = 8) := by omega
      have e3 : ¬ (k = k + 2) := by omega
      simp [relocated, squares_setOccupant, Board.MAX_COL, e1, e2, e3]
    · rw [occupant_of_inRange _ _ _ (hin (k + 1) (by omega) (by omega)),
        occupant_of_inRange _ _ _ (hin 8 (by omega) (by omega))]
      have e1 : ¬ ((8 : Int) = k + 2) := by omega
      have e2 : ¬ ((8 : Int) = k) := by omega
      simp [relocated, squares_setOccupant, Board.MAX_COL, e1, e2]
    · rw [occupant_of_inRange _ _ _ (hin 8 (by omega) (by omega))]
      have e1 : ¬ ((8 : Int) = k + 1) := by omega
      simp [relocated, squares_setOccupant, Board.MAX_COL, e1]
    · intro r2 c2 hne
      simp only [relocated, squares_setOccupant, Board.MAX_COL]
      rw [if_neg (fun h => hne ⟨h.1, Or.inr (Or.inl h.2)⟩),
        if_neg (fun h => hne ⟨h.1, Or.inr (Or.inr (Or.inr h.2))⟩),
        if_neg (fun h => hne ⟨h.1, Or.inr (Or.inr (Or.inl h.2))⟩),
        if_neg (fun h => hne ⟨h.1, Or.inl h.2⟩)]
  · intro hk1 hk2
    have hlt : k - 2 < k := by omega
    refine ⟨relocated (relocated b r k r (k - 2)) r 1 r (k - 1), ?_, ?_, ?_, ?_, ?_, ?_⟩
    · unfold move
      dsimp only
      rw [if_pos hlt, if_pos hlt,
        relocate_eq b _ _ _ _ (hin k (by omega) (by omega)) (hin (k - 2) (by omega) (by omega))]
      dsimp only
      rw [relocate_eq _ _ _ _ _ (hin b.MIN_COL (by unfold Board.MIN_COL; omega) (by unfold Board.MIN_COL; omega))
        (hin (k - 1) (by omega) (by omega))]
      dsimp only
      rw [if_pos rfl, (castle_status_eq s p.color).2]
      rfl
    · rw [occupant_of_inRange _ _ _ (hin (k - 2) (by omega) (by omega)),
        occupant_of_inRange _ _ _ (hin k (by omega) (by omega))]
      have e1 : ¬ (k - 2 = k - 1) := by omega
      have e2 : ¬ (k - 2 = 1) := by omega
      simp [relocated, squares_setOccupant, Board.MIN_COL, e1, e2]
    · rw [occupant_of_inRange _ _ _ (hin k (by omega) (by omega))]
      have e1 : ¬ (k = k - 1) := by omega
      have e2 : ¬ (k = 1) := by omega
      have e3 : ¬ (k = k - 2) := by omega
      simp [relocated, squares_setOccupant, Board.MIN_COL, e1, e2, e3]
    · rw [occupant_of_inRange _ _ _ (hin (k - 1) (by omega) (by omega)),
        occupant_of_inRange _ _ _ (hin 1 (by omega) (by omega))]
      have e1 : ¬ ((1 : Int) = k - 2) := by omega
      have e2 : ¬ ((1 : Int) = k) := by omega
      simp [relocated, squares_setOccupant, Board.MIN_COL, e1, e2]
    · rw [occupant_of_inRange _ _ _ (hin 1 (by omega) (by omega))]
      have e1 : ¬ ((1 : Int) = k - 1) := by omega
      simp [relocated, squares_setOccupant, Board.MIN_COL, e1]
    · intro r2 c2 hne
      simp only [relocated, squares_setOccupant, Board.MIN_COL]
      rw [if_neg (fun h => hne ⟨h.1, Or.inr (Or.inl h.2)⟩),
        if_neg (fun h => hne ⟨h.1, Or.inr (Or.inr (Or.inr h.2))⟩),
        if_neg (fun h => hne ⟨h.1, Or.inr (Or.inr (Or.inl h.2))⟩),
        if_neg (fun h => hne ⟨h.1, Or.inl h.2⟩)]


/-- C13 (amended), on the castling position: after e1-g1 the king stands on
g1 and the h1 rook on f1; after e1-c1 the king stands on c1 and the a1 rook on
d1; the king flag and the castled side's rook flag of WHITE are set. -/
theorem move_castling_effect_witness :
    (∃ s2 b2, move castleStatus castleBoard castleShort = .ok (true, s2, b2) ∧
      b2.occupant 1 7 = some castleKing ∧ b2.occupant 1 5 = none ∧
      b2.occupant 1 6 = some castleRookH ∧ b2.occupant 1 8 = none ∧
      s2.isKingMoved .WHITE = true ∧ s2.isLastColRookMoved .WHITE = true ∧
      s2.isFirstColRookMoved .WHITE = false) ∧
    (∃ s2 b2, move castleStatus castleBoard castleLong = .ok (true, s2, b2) ∧
      b2.occupant 1 3 = some castleKing ∧ b2.occupant 1 5 = none ∧
      b2.occupant 1 4 = some castleRookA ∧ b2.occupant 1 1 = none ∧
      s2.isKingMoved .WHITE = true ∧ s2.isFirstColRookMoved .WHITE = true ∧
      s2.isLastColRookMoved .WHITE = false) := by
  have h := move_castling_effect castleStatus castleBoard castleKing none 1 5 (by decide)
  obtain ⟨b2, hm, h1, h2, h3, h4, _⟩ := h.1 (by decide) (by decide)
  obtain ⟨b3, hm3, k1, k2, k3, k4, _⟩ := h.2 (by decide) (by decide)
  refine ⟨⟨_, b2, hm, ?_, h2, ?_, h4, rfl, rfl, rfl⟩, ⟨_, b3, hm3, ?_, k2, ?_, k4, rfl, rfl, rfl⟩⟩
  · exact h1.trans (by decide!)
  · exact h3.trans (by decide!)
  · exact k1.trans (by decide!)
  · exact k3.trans (by decide!)

/-! ### Sliding pieces -/

theorem occupant_of_not_inRange (b : Board) (r c : Int) (h : ¬ inRange r c) :
    b.occupant r c = none := by
  unfold Board.occupant
  rw [getSquare_eq_none b r c h]

/-- The shape of one ray: NORMAL moves over the leading empty squares, then
the capture on the square that stops the ray, if the loop counter reaches it. -/
theorem slideRay_shape (b : Board) (p : Piece) (fr fc dr dc : Int) :
    ∀ (n0 : Nat) (r0 c0 : Int), ∃ n : Nat, n ≤ n0 ∧
      (∀ i : Nat, i < n → inRange (r0 + i * dr) (c0 + i * dc) ∧
        b.occupant (r0 + i * dr) (c0 + i * dc) = none) ∧
      (¬ inRange (r0 + n * dr) (c0 + n * dc) ∨
        (∃ q, b.occupant (r0 + n * dr) (c0 + n * dc) = some q) ∨ n = n0) ∧
      slideRay b p fr fc dr dc n0 r0 c0 =
        (List.range n).map (fun i : Nat =>
          Move.mk .NORMAL (Pos.mk fr fc) (Pos.mk (r0 + i * dr) (c0 + i * dc)) p none) ++
        (if n < n0 then rayCapture b p fr fc (r0 + n * dr) (c0 + n * dc) else []) := by
  intro n0
  induction n0 with
  | zero =>
    intro r0 c0
    exact ⟨0, Nat.le_refl _, by intro i hi; omega, Or.inr (Or.inr rfl), by simp [slideRay]⟩
  | succ n0 ih =>
    intro r0 c0
    by_cases hin : inRange r0 c0
    · cases hocc : b.occupant r0 c0 with
      | none =>
        obtain ⟨n, hle, hempty, hstop, hlist⟩ := ih (r0 + dr) (c0 + dc)
        have hshift : ∀ i : Nat, (r0 + dr + (i : Int) * dr = r0 + ((i + 1 : Nat) : Int) * dr) ∧
            (c0 + dc + (i : Int) * dc = c0 + ((i + 1 : Nat) : Int) * dc) := by
          intro i; constructor <;> (push_cast; ring)
        refine ⟨n + 1, by omega, ?_, ?_, ?_⟩
        · intro i hi
          cases i with
          | zero => simpa using ⟨hin, hocc⟩
          | succ j =>
            have := hempty j (by omega)
            rw [(hshift j).1, (hshift j).2] at this
            exact this
        · rw [(hshift n).1, (hshift n).2] at hstop
          rcases hstop with h | h | h
          · exact Or.inl h
          · exact Or.inr (Or.inl h)
          · exact Or.inr (Or.inr (by omega))
        · rw [slideRay, if_pos (show r0 ≥ 1 ∧ r0 ≤ 8 ∧ c0 ≥ 1 ∧ c0 ≤ 8 from hin), getSquare_eq_some b r0 c0 hin]
          dsimp only
          rw [← occupant_of_inRange b r0 c0 hin, hocc]
          dsimp only
          rw [hlist, List.range_succ_eq_map, List.map_cons, List.map_map, List.cons_append]
          congr 1
          · simp
          · congr 1
            · apply List.map_congr_left
              intro i _
              simp only [Function.comp]
              rw [(hshift i).1, (hshift i).2]
            · rw [(hshift n).1, (hshift n).2]
              by_cases hlt : n < n0
              · rw [if_pos hlt, if_pos (by omega)]
              · rw [if_neg hlt, if_neg (by omega)]
      | some q =>
        refine ⟨0, by omega, by intro i hi; omega, Or.inr (Or.inl ⟨q, by simpa using hocc⟩), ?_⟩
        rw [slideRay, if_pos (show r0 ≥ 1 ∧ r0 ≤ 8 ∧ c0 ≥ 1 ∧ c0 ≤ 8 from hin), getSquare_eq_some b r0 c0 hin]
        dsimp only
        rw [← occupant_of_inRange b r0 c0 hin, hocc]
        simp [rayCapture, hocc]
    · refine ⟨0, by omega, by intro i hi; omega, Or.inl (by simpa using hin), ?_⟩
      rw [slideRay, if_neg (show ¬ (r0 ≥ 1 ∧ r0 ≤ 8 ∧ c0 ≥ 1 ∧ c0 ≤ 8) from hin)]
      simp [rayCapture, occupant_of_not_inRange b r0 c0 hin]


theorem mem_queenDirs_of_mem_slidingDirs (t : PieceType) (d : Int × Int)
    (h : d ∈ slidingDirs t) : d ∈ queenDirs := by
  unfold slidingDirs at h
  cases t <;> simp [rookDirs, bishopDirs, queenDirs] at h ⊢ <;> rcases h with h | h | h | h <;>
    simp [h]

theorem ray_leaves_board (r c : Int) (d : Int × Int) (hd : d ∈ queenDirs) (hin : inRange r c) :
    ¬ inRange (r + 8 * d.1) (c + 8 * d.2) := by
  unfold inRange at *
  simp only [queenDirs, List.mem_cons, List.mem_singleton, List.not_mem_nil, or_false] at hd
  rcases hd with rfl | rfl | rfl | rfl | rfl | rfl | rfl | rfl <;> dsimp only <;> omega

/-- One ray of a sliding piece standing on the board. -/
theorem rayOf_shape (b : Board) (p : Piece) (r c : Int) (d : Int × Int) (hd : d ∈ queenDirs)
    (hin : inRange r c) :
    ∃ n : Nat,
      (∀ i : Nat, 1 ≤ i → i ≤ n → inRange (r + i * d.1) (c + i * d.2) ∧
        b.occupant (r + i * d.1) (c + i * d.2) = none) ∧
      (¬ inRange (r + ((n + 1 : Nat) : Int) * d.1) (c + ((n + 1 : Nat) : Int) * d.2) ∨
        ∃ q, b.occupant (r + ((n + 1 : Nat) : Int) * d.1) (c + ((n + 1 : Nat) : Int) * d.2) =
          some q) ∧
      rayOf b p r c d =
        (List.range n).map (fun i : Nat => Move.mk .NORMAL (Pos.mk r c)
          (Pos.mk (r + ((i + 1 : Nat) : Int) * d.1) (c + ((i + 1 : Nat) : Int) * d.2)) p none) ++
        rayCapture b p r c (r + ((n + 1 : Nat) : Int) * d.1) (c + ((n + 1 : Nat) : Int) * d.2) := by
  obtain ⟨n, hle, hempty, hstop, hlist⟩ := slideRay_shape b p r c d.1 d.2 8 (r + d.1) (c + d.2)
  have hshift : ∀ i : Nat, (r + d.1 + (i : Int) * d.1 = r + ((i + 1 : Nat) : Int) * d.1) ∧
      (c + d.2 + (i : Int) * d.2 = c + ((i + 1 : Nat) : Int) * d.2) := by
    intro i; constructor <;> (push_cast; ring)
  have hn : n < 8 := by
    by_contra hge
    have h8 : n = 8 := by omega
    have h7 := (hempty 7 (by omega)).1
    rw [(hshift 7).1, (hshift 7).2] at h7
    have e1 : r + ((7 + 1 : Nat) : Int) * d.1 = r + 8 * d.1 := by push_cast; ring
    have e2 : c + ((7 + 1 : Nat) : Int) * d.2 = c + 8 * d.2 := by push_cast; ring
    rw [e1, e2] at h7
    exact ray_leaves_board r c d hd hin h7
  refine ⟨n, ?_, ?_, ?_⟩
  · intro i hi1 hi2
    obtain ⟨j, rfl⟩ : ∃ j, i = j + 1 := ⟨i - 1, by omega⟩
    have := hempty j (by omega)
    rw [(hshift j).1, (hshift j).2] at this
    exact this
  · rw [(hshift n).1, (hshift n).2] at hstop
    rcases hstop with h | h | h
    · exact Or.inl h
    · exact Or.inr h
    · omega
  · unfold rayOf
    rw [hlist, if_pos hn, (hshift n).1, (hshift n).2]
    congr 1
    apply List.map_congr_left
    intro i _
    rw [(hshift i).1, (hshift i).2]

theorem getPossibleMoves_sliding (fuel : Nat) (s : GameStatus) (b : Board) (p : Piece)
    (r c : Int) (hty : p.type = .ROOK ∨ p.type = .BISHOP ∨ p.type = .QUEEN) :
    getPossibleMoves fuel s b (some p) r c =
      .ok ((slidingDirs p.type).flatMap (rayOf b p r c)) := by
  unfold getPossibleMoves getPossibleMovesCore
  dsimp only
  rcases hty with h | h | h <;> rw [h] <;> rfl

/-- C14: the moves of a rook, bishop or queen standing on the board are, for
each direction of its direction set in turn, one NORMAL move to each of the
`n` empty squares met before the board edge or the first occupied square,
followed by one CAPTURE onto that occupied square exactly when it holds a
piece of the other colour, and nothing else. A rook on a1 with a friendly
piece on a4 has on the a-file the NORMAL moves to a2 and a3 only; with an
opposing piece on a4 it has in addition the CAPTURE of that piece on a4. -/
theorem sliding_moves_exact :
    (∀ (fuel : Nat) (s : GameStatus) (b : Board) (p : Piece) (r c : Int),
      (p.type = .ROOK ∨ p.type = .BISHOP ∨ p.type = .QUEEN) → inRange r c →
      getPossibleMoves fuel s b (some p) r c =
        .ok ((slidingDirs p.type).flatMap (rayOf b p r c)) ∧
      ∀ d ∈ slidingDirs p.type, ∃ n : Nat,
        (∀ i : Nat, 1 ≤ i → i ≤ n → inRange (r + i * d.1) (c + i * d.2) ∧
          b.occupant (r + i * d.1) (c + i * d.2) = none) ∧
        (¬ inRange (r + ((n + 1 : Nat) : Int) * d.1) (c + ((n + 1 : Nat) : Int) * d.2) ∨
          ∃ q, b.occupant (r + ((n + 1 : Nat) : Int) * d.1)
            (c + ((n + 1 : Nat) : Int) * d.2) = some q) ∧
        rayOf b p r c d =
          (List.range n).map (fun i : Nat => Move.mk .NORMAL (Pos.mk r c)
            (Pos.mk (r + ((i + 1 : Nat) : Int) * d.1) (c + ((i + 1 : Nat) : Int) * d.2))
            p none) ++
          rayCapture b p r c (r + ((n + 1 : Nat) : Int) * d.1)
            (c + ((n + 1 : Nat) : Int) * d.2)) ∧
    (∀ fuel : Nat, ∃ ms,
      getPossibleMoves fuel GameStatus.new slideBoardFriend (some slideRook) 1 1 = .ok ms ∧
      ms.filter (fun m => decide (m.to_.col = 1)) =
        [Move.mk .NORMAL (Pos.mk 1 1) (Pos.mk 2 1) slideRook none,
         Move.mk .NORMAL (Pos.mk 1 1) (Pos.mk 3 1) slideRook none]) ∧
    (∀ fuel : Nat, ∃ ms,
      getPossibleMoves fuel GameStatus.new slideBoardFoe (some slideRook) 1 1 = .ok ms ∧
      ms.filter (fun m => decide (m.to_.col = 1)) =
        [Move.mk .NORMAL (Pos.mk 1 1) (Pos.mk 2 1) slideRook none,
         Move.mk .NORMAL (Pos.mk 1 1) (Pos.mk 3 1) slideRook none,
         Move.mk .CAPTURE (Pos.mk 1 1) (Pos.mk 4 1) slideRook (some slideFoe)]) := by
  refine ⟨?_, ?_, ?_⟩
  · intro fuel s b p r c hty hin
    refine ⟨getPossibleMoves_sliding fuel s b p r c hty, ?_⟩
    intro d hd
    exact rayOf_shape b p r c d (mem_queenDirs_of_mem_slidingDirs _ _ hd) hin
  · intro fuel
    exact ⟨_, getPossibleMoves_sliding fuel _ _ _ _ _ (Or.inl rfl), by decide!⟩
  · intro fuel
    exact ⟨_, getPossibleMoves_sliding fuel _ _ _ _ _ (Or.inl rfl), by decide!⟩

/-! ### Pawn steps and captures -/

theorem occupant_eq_none_iff (b : Board) (r c : Int) (h : inRange r c) :
    b.occupant r c = none ↔ (b.squares r c).occupiedState = false := by
  rw [occupant_of_inRange b r c h]
  unfold Square.occupiedState
  cases (b.squares r c).occupyingPiece <;> simp

theorem mem_pawnAdvance (b : Board) (p : Piece) (r c : Int) (m : Move) :
    m ∈ pawnAdvance b p r c ↔
      inRange (r + if p.color = .WHITE then 1 else -1) c ∧
      b.occupant (r + if p.color = .WHITE then 1 else -1) c = none ∧
      (m = Move.mk .NORMAL (Pos.mk r c) (Pos.mk (r + if p.color = .WHITE then 1 else -1) c)
          p none ∨
        (r = (if p.color = .WHITE then 2 else 7) ∧
          inRange (r + 2 * if p.color = .WHITE then 1 else -1) c ∧
          b.occupant (r + 2 * if p.color = .WHITE then 1 else -1) c = none ∧
          m = Move.mk .NORMAL (Pos.mk r c)
            (Pos.mk (r + 2 * if p.color = .WHITE then 1 else -1) c) p none)) := by
  unfold pawnAdvance
  dsimp only
  generalize (if p.color = PieceColor.WHITE then (1 : Int) else -1) = dir
  generalize (if p.color = PieceColor.WHITE then (2 : Int) else 7) = startRow
  by_cases h1 : inRange (r + dir) c
  · rw [getSquare_eq_some b _ _ h1]
    dsimp only
    by_cases h2 : b.occupant (r + dir) c = none
    · have h2b := (occupant_eq_none_iff b _ _ h1).mp h2
      rw [h2b]
      simp only [Bool.not_false, if_true, List.mem_append, mem_addMove, h1, h2, true_and]
      apply or_congr_right
      by_cases h3 : r = startRow
      · rw [if_pos h3]
        subst h3
        by_cases h4 : inRange (r + 2 * dir) c
        · rw [getSquare_eq_some b _ _ h4]
          dsimp only
          by_cases h5 : b.occupant (r + 2 * dir) c = none
          · have h5b := (occupant_eq_none_iff b _ _ h4).mp h5
            rw [h5b]
            simp [mem_addMove, h4, h5]
          · have h5b : (b.squares (r + 2 * dir) c).occupiedState = true := by
              rw [occupant_eq_none_iff b _ _ h4] at h5
              simpa using h5
            rw [h5b]
            simp [h5]
        · rw [getSquare_eq_none b _ _ h4]
          simp [h4]
      · rw [if_neg h3]
        simp [h3]
    · have h2b : (b.squares (r + dir) c).occupiedState = true := by
        rw [occupant_eq_none_iff b _ _ h1] at h2
        simpa using h2
      rw [h2b]
      simp [h2]
  · rw [getSquare_eq_none b _ _ h1]
    simp [h1]

theorem mem_pawnCapture (b : Board) (p : Piece) (r c x : Int) (m : Move) :
    m ∈ pawnCapture b p r c x ↔
      ∃ q, inRange (r + if p.color = .WHITE then 1 else -1) x ∧
        b.occupant (r + if p.color = .WHITE then 1 else -1) x = some q ∧ q.color ≠ p.color ∧
        m = Move.mk .CAPTURE (Pos.mk r c) (Pos.mk (r + if p.color = .WHITE then 1 else -1) x)
          p (some q) := by
  unfold pawnCapture
  dsimp only
  generalize (if p.color = PieceColor.WHITE then (1 : Int) else -1) = dir
  by_cases h1 : inRange (r + dir) x
  · rw [getSquare_eq_some b _ _ h1, occupant_of_inRange b _ _ h1]
    dsimp only
    cases hq : (b.squares (r + dir) x).occupyingPiece with
    | none => simp
    | some q =>
      dsimp only
      by_cases hc : q.color ≠ p.color
      · rw [if_pos hc, mem_addMove]
        constructor
        · rintro ⟨_, hm⟩
          exact ⟨q, h1, rfl, hc, hm⟩
        · rintro ⟨q2, _, h2, _, hm⟩
          simp only [Option.some.injEq] at h2
          subst h2
          exact ⟨h1, hm⟩
      · rw [if_neg hc]
        constructor
        · intro h; simp at h
        · rintro ⟨q2, _, h2, h3, _⟩
          simp only [Option.some.injEq] at h2
          subst h2
          exact absurd h3 hc
  · rw [getSquare_eq_none b _ _ h1]
    simp [h1]


theorem mem_pawnMoves (s : GameStatus) (b : Board) (p : Piece) (r c : Int) (m : Move) :
    m ∈ pawnMoves s b p r c ↔
      m ∈ pawnAdvance b p r c ∨
      (∃ x, (x = c - 1 ∨ x = c + 1) ∧ m ∈ pawnCapture b p r c x) ∨
      (r = (if p.color = .WHITE then 5 else 4) ∧
        ∃ x, (x = c - 1 ∨ x = c + 1) ∧ m ∈ pawnEnPassant s b p r c x) := by
  unfold pawnMoves
  dsimp only
  rw [List.mem_append, List.mem_append, or_assoc]
  apply or_congr_right
  apply or_congr
  · simp [List.mem_flatMap]
  · by_cases hrow : r = (if p.color = PieceColor.WHITE then (5 : Int) else 4)
    · rw [if_pos hrow]
      simp [List.mem_flatMap, hrow]
    · rw [if_neg hrow]
      simp [hrow]

/-- C15: for a pawn on an on-board square, with `dir` and `home` as the code
sets them, the generated moves contain a NORMAL move to `(row + dir, col)`
exactly when that square is on the board and empty, a NORMAL move to
`(row + 2 * dir, col)` exactly when the pawn is on its home rank and both
squares ahead are empty, and a CAPTURE move to `(row + dir, col2)`, for `col2`
a neighbouring column, exactly when that square is on the board and holds a
piece of the other colour; there is no other NORMAL or CAPTURE move. -/
theorem pawn_steps_and_captures (fuel : Nat) (s : GameStatus) (b : Board) (p : Piece)
    (row col dir home : Int) (hp : p.type = .PAWN) (hin : inRange row col)
    (hdir : dir = if p.color = .WHITE then 1 else -1)
    (hhome : home = if p.color = .WHITE then 2 else 7) :
    ∃ ms, getPossibleMoves fuel s b (some p) row col = .ok ms ∧
      ((∃ m ∈ ms, m.type = .NORMAL ∧ m.to_ = { row := row + dir, col := col }) ↔
        inRange (row + dir) col ∧ b.occupant (row + dir) col = none) ∧
      ((∃ m ∈ ms, m.type = .NORMAL ∧ m.to_ = { row := row + 2 * dir, col := col }) ↔
        row = home ∧ b.occupant (row + dir) col = none ∧
          b.occupant (row + 2 * dir) col = none) ∧
      (∀ col2, col2 = col - 1 ∨ col2 = col + 1 →
        ((∃ m ∈ ms, m.type = .CAPTURE ∧ m.to_ = { row := row + dir, col := col2 }) ↔
          inRange (row + dir) col2 ∧
            ∃ q, b.occupant (row + dir) col2 = some q ∧ q.color ≠ p.color)) ∧
      (∀ m ∈ ms, m.type = .NORMAL →
        m.to_ = { row := row + dir, col := col } ∨
          m.to_ = { row := row + 2 * dir, col := col }) ∧
      (∀ m ∈ ms, m.type = .CAPTURE →
        (m.to_ = { row := row + dir, col := col - 1 } ∨
          m.to_ = { row := row + dir, col := col + 1 }) ∧
        m.capturedPiece = b.occupant m.to_.row m.to_.col) := by
  have hdir0 : dir = 1 ∨ dir = -1 := by
    rw [hdir]; split <;> simp
  have hnormal : ∀ m, m ∈ pawnMoves s b p row col → m.type = .NORMAL →
      m ∈ pawnAdvance b p row col := by
    intro m hm hty
    rcases (mem_pawnMoves s b p row col m).mp hm with h | ⟨x, _, h⟩ | ⟨_, x, _, h⟩
    · exact h
    · rw [type_of_mem_pawnCapture _ _ _ _ _ _ h] at hty; cases hty
    · obtain ⟨q, _, _, _, _, _, h6⟩ := (mem_pawnEnPassant s b p row col x m).mp h
      rw [h6] at hty; cases hty
  have hcapture : ∀ m, m ∈ pawnMoves s b p row col → m.type = .CAPTURE →
      ∃ x, (x = col - 1 ∨ x = col + 1) ∧ m ∈ pawnCapture b p row col x := by
    intro m hm hty
    rcases (mem_pawnMoves s b p row col m).mp hm with h | ⟨x, hx, h⟩ | ⟨_, x, _, h⟩
    · rw [type_of_mem_pawnAdvance _ _ _ _ _ h] at hty; cases hty
    · exact ⟨x, hx, h⟩
    · obtain ⟨q, _, _, _, _, _, h6⟩ := (mem_pawnEnPassant s b p row col x m).mp h
      rw [h6] at hty; cases hty
  refine ⟨pawnMoves s b p row col, getPossibleMoves_pawn fuel s b p row col hp,
    ⟨?_, ?_⟩, ⟨?_, ?_⟩, ?_, ?_, ?_⟩
  · rintro ⟨m, hm, hty, hto⟩
    have h := (mem_pawnAdvance b p row col m).mp (hnormal m hm hty)
    rw [← hdir] at h
    exact ⟨h.1, h.2.1⟩
  · rintro ⟨h1, h2⟩
    refine ⟨Move.mk .NORMAL (Pos.mk row col) (Pos.mk (row + dir) col) p none, ?_, rfl, rfl⟩
    refine (mem_pawnMoves s b p row col _).mpr (Or.inl ?_)
    rw [mem_pawnAdvance, ← hdir]
    exact ⟨h1, h2, Or.inl rfl⟩
  · rintro ⟨m, hm, hty, hto⟩
    have h := (mem_pawnAdvance b p row col m).mp (hnormal m hm hty)
    rw [← hdir, ← hhome] at h
    obtain ⟨_, h2, h3 | ⟨h3, _, h5, _⟩⟩ := h
    · rw [h3] at hto
      simp only [Pos.mk.injEq, and_true] at hto
      omega
    · exact ⟨h3, h2, h5⟩
  · rintro ⟨h1, h2, h3⟩
    have hr1 : inRange (row + dir) col := by
      unfold inRange at hin ⊢
      rw [hhome] at h1
      rw [hdir]
      split at h1 <;> rename_i hc <;> simp only [hc, if_true, if_false] <;> omega
    have hr2 : inRange (row + 2 * dir) col := by
      unfold inRange at hin ⊢
      rw [hhome] at h1
      rw [hdir]
      split at h1 <;> rename_i hc <;> simp only [hc, if_true, if_false] <;> omega
    refine ⟨Move.mk .NORMAL (Pos.mk row col) (Pos.mk (row + 2 * dir) col) p none, ?_, rfl, rfl⟩
    refine (mem_pawnMoves s b p row col _).mpr (Or.inl ?_)
    rw [mem_pawnAdvance, ← hdir, ← hhome]
    exact ⟨hr1, h2, Or.inr ⟨h1, hr2, h3, rfl⟩⟩
  · intro col2 hcol2
    constructor
    · rintro ⟨m, hm, hty, hto⟩
      obtain ⟨x, _, hx⟩ := hcapture m hm hty
      obtain ⟨q, h1, h2, h3, h4⟩ := (mem_pawnCapture b p row col x m).mp hx
      rw [← hdir] at h1 h2 h4
      rw [h4] at hto
      simp only [Pos.mk.injEq, true_and] at hto
      subst hto
      exact ⟨h1, q, h2, h3⟩
    · rintro ⟨h1, q, h2, h3⟩
      refine ⟨Move.mk .CAPTURE (Pos.mk row col) (Pos.mk (row + dir) col2) p (some q),
        ?_, rfl, rfl⟩
      refine (mem_pawnMoves s b p row col _).mpr (Or.inr (Or.inl ⟨col2, hcol2, ?_⟩))
      rw [mem_pawnCapture, ← hdir]
      exact ⟨q, h1, h2, h3, rfl⟩
  · intro m hm hty
    have h := (mem_pawnAdvance b p row col m).mp (hnormal m hm hty)
    rw [← hdir] at h
    obtain ⟨_, _, h3 | ⟨_, _, _, h3⟩⟩ := h
    · rw [h3]; exact Or.inl rfl
    · rw [h3]; exact Or.inr rfl
  · intro m hm hty
    obtain ⟨x, hx0, hx⟩ := hcapture m hm hty
    obtain ⟨q, _, h2, _, h4⟩ := (mem_pawnCapture b p row col x m).mp hx
    rw [← hdir] at h2 h4
    rw [h4]
    refine ⟨?_, h2.symm⟩
    rcases hx0 with rfl | rfl
    · exact Or.inl rfl
    · exact Or.inr rfl

/-- C15, on the initial position: the pawn on e2 has the NORMAL moves to e3 and
e4 and no CAPTURE move. -/
theorem pawn_steps_and_captures_witness :
    ∃ ms, getPossibleMoves 0 Game.new.status Game.new.board (some whitePawnE) 2 5 = .ok ms ∧
      (∃ m ∈ ms, m.type = .NORMAL ∧ m.to_ = { row := 3, col := 5 }) ∧
      (∃ m ∈ ms, m.type = .NORMAL ∧ m.to_ = { row := 4, col := 5 }) ∧
      ¬ (∃ m ∈ ms, m.type = .CAPTURE ∧ m.to_ = { row := 3, col := 4 }) ∧
      ¬ (∃ m ∈ ms, m.type = .CAPTURE ∧ m.to_ = { row := 3, col := 6 }) := by
  obtain ⟨ms, hms, h1, h2, h3, _, _⟩ := pawn_steps_and_captures 0 Game.new.status
    Game.new.board whitePawnE 2 5 1 2 rfl (by decide) (by decide) (by decide)
  refine ⟨ms, hms, h1.mpr (by decide!), h2.mpr (by decide!), ?_, ?_⟩
  · exact fun h => absurd ((h3 4 (Or.inl (by decide))).mp h) (by decide!)
  · exact fun h => absurd ((h3 6 (Or.inr (by decide))).mp h) (by decide!)

/-! ### NORMAL and CAPTURE: application -/

/-- C16 (counterexample): on a board where the piece on the destination a4
also stands on c4, the capture a1xa4 returns true and the captured piece is
still on c4 afterwards. -/
theorem captured_piece_remains_elsewhere :
    inRange 1 1 ∧ inRange 4 1 ∧ aliasCapture.type = .CAPTURE ∧
    aliasCapture.from_ = Pos.mk 1 1 ∧ aliasCapture.to_ = Pos.mk 4 1 ∧
    aliasBoard.occupant 4 1 = some slideFoe ∧
    ∃ s2 b2, move GameStatus.new aliasBoard aliasCapture = .ok (true, s2, b2) ∧
      b2.occupant 4 3 = some slideFoe := by
  refine ⟨by decide, by decide, rfl, rfl, rfl, by decide!, ?_⟩
  have h1 : (match move GameStatus.new aliasBoard aliasCapture with
      | .error _ => false
      | .ok (r, _, b2) => r && decide (b2.occupant 4 3 = some slideFoe)) = true := by decide!
  cases hm : move GameStatus.new aliasBoard aliasCapture with
  | error e => rw [hm] at h1; simp at h1
  | ok rsb =>
    obtain ⟨r, s2, b2⟩ := rsb
    rw [hm] at h1
    simp only [Bool.and_eq_true, decide_eq_true_eq] at h1
    obtain ⟨hr, h43⟩ := h1
    subst hr
    exact ⟨s2, b2, rfl, h43⟩

/-- C16 (amended): a NORMAL or CAPTURE move with on-board origin and
destination, origin different from destination, makes `Gameplay.move` return
true; afterwards the destination holds the origin's occupant, the origin is
empty and every other square is as before; for CAPTURE the piece previously on
the destination is on no square afterwards, provided it stood on no other
square before. -/
theorem move_normal_capture_effect (s : GameStatus) (b : Board) (m : Move)
    (hty : m.type = .NORMAL ∨ m.type = .CAPTURE)
    (hf : inRange m.from_.row m.from_.col) (ht : inRange m.to_.row m.to_.col)
    (hne : m.from_ ≠ m.to_) :
    ∃ s2 b2, move s b m = .ok (true, s2, b2) ∧
      b2.occupant m.to_.row m.to_.col = b.occupant m.from_.row m.from_.col ∧
      b2.occupant m.from_.row m.from_.col = none ∧
      (∀ r c, ¬ (r = m.from_.row ∧ c = m.from_.col) → ¬ (r = m.to_.row ∧ c = m.to_.col) →
        b2.squares r c = b.squares r c) ∧
      (m.type = .CAPTURE → ∀ q, b.occupant m.to_.row m.to_.col = some q →
        (∀ r c, b.occupant r c = some q → r = m.to_.row ∧ c = m.to_.col) →
        ∀ r c, b2.occupant r c ≠ some q) := by
  have hne2 : ¬ (m.from_.row = m.to_.row ∧ m.from_.col = m.to_.col) := by
    intro h
    apply hne
    cases hfr : m.from_
    cases hto : m.to_
    rw [hfr, hto] at h
    simp only at h
    rw [h.1, h.2]
  have hne3 : ¬ (m.to_.row = m.from_.row ∧ m.to_.col = m.from_.col) :=
    fun h => hne2 ⟨h.1.symm, h.2.symm⟩
  have key : ∃ s2 b2, move s b m = .ok (true, s2, b2) ∧
      b2.occupant m.to_.row m.to_.col = b.occupant m.from_.row m.from_.col ∧
      b2.occupant m.from_.row m.from_.col = none ∧
      (∀ r c, ¬ (r = m.from_.row ∧ c = m.from_.col) → ¬ (r = m.to_.row ∧ c = m.to_.col) →
        b2.squares r c = b.squares r c) := by
    rcases hty with h | h
    · refine ⟨statusAfterMove s b m, relocated b m.from_.row m.from_.col m.to_.row m.to_.col,
        ?_, ?_, ?_, ?_⟩
      · unfold move statusAfterMove
        rw [h]
        dsimp only
        rw [relocate_eq b _ _ _ _ hf ht]
        rfl
      · rw [occupant_of_inRange _ _ _ ht, occupant_of_inRange _ _ _ hf]
        simp [relocated, squares_setOccupant]
      · rw [occupant_of_inRange _ _ _ hf]
        simp [relocated, squares_setOccupant, hne2]
      · intro r c n1 n2
        simp only [relocated, squares_setOccupant]
        rw [if_neg n2, if_neg n1]
    · refine ⟨statusAfterMove s b m, relocated (b.setOccupant m.to_.row m.to_.col none)
        m.from_.row m.from_.col m.to_.row m.to_.col, ?_, ?_, ?_, ?_⟩
      · unfold move statusAfterMove
        rw [h]
        dsimp only
        rw [removeOccupyingPiece_eq b _ _ ht]
        dsimp only
        rw [relocate_eq _ _ _ _ _ hf ht]
        rfl
      · rw [occupant_of_inRange _ _ _ ht, occupant_of_inRange _ _ _ hf]
        simp [relocated, squares_setOccupant, hne2]
      · rw [occupant_of_inRange _ _ _ hf]
        simp [relocated, squares_setOccupant, hne2]
      · intro r c n1 n2
        simp only [relocated, squares_setOccupant]
        rw [if_neg n2, if_neg n1, if_neg n2]
  obtain ⟨s2, b2, hm, h1, h2, h3⟩ := key
  refine ⟨s2, b2, hm, h1, h2, h3, ?_⟩
  intro _ q hq huniq r c hocc
  have hin := ((occupant_eq_some_iff b2 r c q).mp hocc).1
  by_cases e1 : r = m.to_.row ∧ c = m.to_.col
  · rw [e1.1, e1.2, h1] at hocc
    exact hne2 (huniq _ _ hocc)
  · by_cases e2 : r = m.from_.row ∧ c = m.from_.col
    · rw [e2.1, e2.2, h2] at hocc
      cases hocc
    · have := h3 r c e2 e1
      rw [occupant_of_inRange _ _ _ hin, this, ← occupant_of_inRange _ _ _ hin] at hocc
      exact e1 (huniq r c hocc)

/-- C16 (amended), on the rook a1 with an opposing piece on a4: after a1xa4 the
rook stands on a4, a1 is empty and the captured piece is on no square. -/
theorem move_normal_capture_effect_witness :
    ∃ s2 b2, move GameStatus.new slideBoardFoe slideCapture = .ok (true, s2, b2) ∧
      b2.occupant 4 1 = some slideRook ∧ b2.occupant 1 1 = none ∧
      ∀ r c, b2.occupant r c ≠ some slideFoe := by
  obtain ⟨s2, b2, hm, h1, h2, _, h4⟩ := move_normal_capture_effect GameStatus.new slideBoardFoe
    slideCapture (Or.inr rfl) (by decide) (by decide) (by decide)
  refine ⟨s2, b2, hm, h1.trans (by decide!), h2, h4 rfl slideFoe (by decide!) ?_⟩
  intro r c hocc
  have hin := ((occupant_eq_some_iff slideBoardFoe r c _).mp hocc).1
  have hall : (allSquares.all fun rc =>
      decide (slideBoardFoe.occupant rc.1 rc.2 = some slideFoe → rc.1 = 4 ∧ rc.2 = 1)) = true := by
    decide!
  have := List.all_eq_true.mp hall (r, c) (mem_allSquares r c hin)
  simp only [decide_eq_true_eq] at this
  exact this hocc

/-! ### NORMAL and CAPTURE: status bookkeeping -/

/-- C17: when `Gameplay.move` returns from a NORMAL or CAPTURE move, the
status it leaves differs from the one it received as follows: a NORMAL move of
a pawn across two rows records that pawn as the en-passantable piece of its
colour; a move of a king sets the king flag of its colour; a move of a rook
sets the first-column rook flag of its colour when the origin column is 1, the
last-column flag when it is 8, and nothing otherwise; every other move changes
nothing. -/
theorem move_status_bookkeeping (s : GameStatus) (b : Board) (m : Move) (r : Bool)
    (s2 : GameStatus) (b2 : Board) (hty : m.type = .NORMAL ∨ m.type = .CAPTURE)
    (h : move s b m = .ok (r, s2, b2)) :
    (m.type = .NORMAL → m.movedPiece.type = .PAWN → (m.to_.row - m.from_.row).natAbs = 2 →
      s2 = { s with enPassantablePiece := fun c =>
        if c = m.movedPiece.color then some m.movedPiece else s.enPassantablePiece c }) ∧
    (m.movedPiece.type = .KING →
      s2 = if m.movedPiece.color = .WHITE then { s with whiteKingMoved := true }
        else { s with blackKingMoved := true }) ∧
    (m.movedPiece.type = .ROOK → m.from_.col = 1 →
      s2 = if m.movedPiece.color = .WHITE then { s with whiteFirstColRookMoved := true }
        else { s with blackFirstColRookMoved := true }) ∧
    (m.movedPiece.type = .ROOK → m.from_.col = 8 →
      s2 = if m.movedPiece.color = .WHITE then { s with whiteLastColRookMoved := true }
        else { s with blackLastColRookMoved := true }) ∧
    (m.movedPiece.type = .ROOK → m.from_.col ≠ 1 → m.from_.col ≠ 8 → s2 = s) ∧
    (¬ (m.type = .NORMAL ∧ m.movedPiece.type = .PAWN ∧ (m.to_.row - m.from_.row).natAbs = 2) →
      m.movedPiece.type ≠ .KING → m.movedPiece.type ≠ .ROOK → s2 = s) := by
  have hs := move_status_eq s b m r s2 b2 h
  have hflags : ∀ hnd : ¬ (m.type = .NORMAL ∧ m.movedPiece.type = .PAWN ∧
      (m.to_.row - m.from_.row).natAbs = 2), s2 = kingRookFlags s b m := by
    intro hnd
    rw [hs]
    unfold statusAfterMove
    rcases hty with h1 | h1
    · rw [h1]
      dsimp only
      rw [if_neg (fun hh => hnd ⟨h1, hh.1, hh.2⟩)]
    · rw [h1]
  refine ⟨?_, ?_, ?_, ?_, ?_, ?_⟩
  · intro h1 h2 h3
    rw [hs]
    unfold statusAfterMove
    rw [h1]
    dsimp only
    rw [if_pos ⟨h2, h3⟩]
    rfl
  · intro hk
    rw [hflags (by rw [hk]; intro hh; cases hh.2.1)]
    unfold kingRookFlags
    rw [if_pos hk]
    rfl
  · intro hk hc
    rw [hflags (by rw [hk]; intro hh; cases hh.2.1)]
    unfold kingRookFlags
    rw [if_neg (by rw [hk]; intro hh; cases hh), if_pos hk, if_pos (by rw [hc]; rfl)]
    rfl
  · intro hk hc
    rw [hflags (by rw [hk]; intro hh; cases hh.2.1)]
    unfold kingRookFlags
    rw [if_neg (by rw [hk]; intro hh; cases hh), if_pos hk,
      if_neg (by rw [hc]; unfold Board.MIN_COL; decide), if_pos (by rw [hc]; rfl)]
    rfl
  · intro hk hc1 hc8
    rw [hflags (by rw [hk]; intro hh; cases hh.2.1)]
    unfold kingRookFlags
    rw [if_neg (by rw [hk]; intro hh; cases hh), if_pos hk, if_neg (show ¬ m.from_.col = b.MIN_COL from hc1),
      if_neg (show ¬ m.from_.col = b.MAX_COL from hc8)]
  · intro hnd hk hr
    rw [hflags hnd]
    unfold kingRookFlags
    rw [if_neg hk, if_neg hr]

/-- C17, on the initial position: the double step e2-e4 records the e-pawn
as the en-passantable WHITE piece and changes no flag. -/
theorem move_status_bookkeeping_witness :
    ∃ b2, move Game.new.status Game.new.board staleDoubleStep =
      .ok (true, { Game.new.status with enPassantablePiece :=
        (fun c => if c = .WHITE then some whitePawnE else none) }, b2) := by
  have h1 : Except.map Prod.fst (move Game.new.status Game.new.board staleDoubleStep) =
      .ok true := by decide!
  obtain ⟨sb, hm⟩ := eq_ok_of_map_fst _ _ h1
  obtain ⟨s2, b2⟩ := sb
  have h2 := (move_status_bookkeeping Game.new.status Game.new.board staleDoubleStep true s2 b2
    (Or.inl rfl) hm).1 rfl rfl (by decide)
  rw [h2] at hm
  exact ⟨b2, hm⟩

/-! ### Return value of `Gameplay.move` -/

/-- C18 (counterexample): a CASTLING move from h1 to h2, origin and
destination on the board, makes `Gameplay.move` fail on the missing square
`(2, 9)` instead of returning true. -/
theorem castling_from_last_column_fails :
    inRange 1 8 ∧ inRange 2 8 ∧ edgeCastle.type = .CASTLING ∧
    edgeCastle.from_ = Pos.mk 1 8 ∧ edgeCastle.to_ = Pos.mk 2 8 ∧
    move castleStatus castleBoard edgeCastle = .error .nullDeref := by
  refine ⟨by decide, by decide, rfl, rfl, rfl, rfl⟩

/-- C18 (amended): for a move with on-board origin and destination whose
rook destination, when its type is CASTLING, is on the board as well (the
destination column is below the origin column, or the origin column is at most
7), `Gameplay.move` returns true exactly when the type is one of the four
kinds; for any other type it returns false with the status and the board it
received. -/
theorem move_returns_true_iff (s : GameStatus) (b : Board) (m : Move)
    (hf : inRange m.from_.row m.from_.col) (ht : inRange m.to_.row m.to_.col)
    (hrook : m.type = .CASTLING → m.to_.col < m.from_.col ∨ m.from_.col ≤ 7) :
    ((∃ s2 b2, move s b m = .ok (true, s2, b2)) ↔
      (m.type = .NORMAL ∨ m.type = .CAPTURE ∨ m.type = .EN_PASSANT ∨ m.type = .CASTLING)) ∧
    (¬ (m.type = .NORMAL ∨ m.type = .CAPTURE ∨ m.type = .EN_PASSANT ∨ m.type = .CASTLING) →
      move s b m = .ok (false, s, b)) := by
  have hother : m.type = .OTHER → move s b m = .ok (false, s, b) := by
    intro h
    unfold move
    rw [h]
  constructor
  · constructor
    · rintro ⟨s2, b2, h⟩
      cases hty : m.type with
      | OTHER => rw [hother hty] at h; simp at h
      | NORMAL => exact Or.inl rfl
      | CAPTURE => exact Or.inr (Or.inl rfl)
      | EN_PASSANT => exact Or.inr (Or.inr (Or.inl rfl))
      | CASTLING => exact Or.inr (Or.inr (Or.inr rfl))
    · intro hty
      unfold move
      rcases hty with h | h | h | h
      · rw [h]
        dsimp only
        rw [relocate_eq b _ _ _ _ hf ht]
        exact ⟨_, _, rfl⟩
      · rw [h]
        dsimp only
        rw [removeOccupyingPiece_eq b _ _ ht]
        dsimp only
        rw [relocate_eq _ _ _ _ _ hf ht]
        exact ⟨_, _, rfl⟩
      · rw [h]
        dsimp only
        rw [removeOccupyingPiece_eq b _ _ ⟨hf.1, hf.2.1, ht.2.2.1, ht.2.2.2⟩]
        dsimp only
        rw [relocate_eq _ _ _ _ _ hf ht]
        exact ⟨_, _, rfl⟩
      · have hr := hrook h
        rw [h]
        dsimp only
        rw [relocate_eq b _ _ _ _ hf ht]
        dsimp only
        have h1 : inRange m.from_.row
            (if m.to_.col < m.from_.col then b.MIN_COL else b.MAX_COL) := by
          unfold inRange Board.MIN_COL Board.MAX_COL at *
          split <;> omega
        have h2 : inRange m.to_.row
            (if m.to_.col < m.from_.col then m.from_.col - 1 else m.from_.col + 1) := by
          unfold inRange at *
          split <;> omega
        rw [relocate_eq _ _ _ _ _ h1 h2]
        exact ⟨_, _, rfl⟩
  · intro hty
    apply hother
    cases h : m.type with
    | OTHER => rfl
    | NORMAL => exact absurd (Or.inl h) hty
    | CAPTURE => exact absurd (Or.inr (Or.inl h)) hty
    | EN_PASSANT => exact absurd (Or.inr (Or.inr (Or.inl h))) hty
    | CASTLING => exact absurd (Or.inr (Or.inr (Or.inr h))) hty

/-- C18 (amended), on the castling position: the castling e1-g1 returns true,
and a move of no known kind returns false with status and board untouched. -/
theorem move_returns_true_iff_witness :
    (∃ s2 b2, move castleStatus castleBoard castleShort = .ok (true, s2, b2)) ∧
    move castleStatus castleBoard otherMove = .ok (false, castleStatus, castleBoard) :=
  ⟨(move_returns_true_iff castleStatus castleBoard castleShort (by decide) (by decide)
      (fun _ => Or.inr (by decide))).1.mpr (Or.inr (Or.inr (Or.inr rfl))),
    (move_returns_true_iff castleStatus castleBoard otherMove (by decide) (by decide)
      (fun h => by cases h)).2 (by decide)⟩

/-! ### `getValidMoves`: sub-list and frame -/

/-- The filter returns as soon as every dry-run check test returns. -/
theorem dryRunFilter_returns (fuel : Nat) (s : GameStatus) (p : Piece) (r c : Int) (b : Board)
    (hin : inRange r c) (hocc : b.occupant r c = some p) (ms : List Move)
    (hms : ∀ m ∈ ms, generatedFrom p r c m)
    (hall : ∀ m ∈ ms, ∃ v, isCheckState fuel s (dryRunBoard b p m) p.color = .ok v) :
    dryRunFilter fuel s p ms b =
      .ok (ms.filter fun m => decide (isCheckState fuel s (dryRunBoard b p m) p.color = .ok false),
        b) := by
  induction ms with
  | nil => rfl
  | cons m ms ih =>
    obtain ⟨hfrom, _, hto, _, _⟩ := hms m (List.mem_cons_self _ _)
    have hsq := ((occupant_eq_some_iff b r c p).mp hocc).2
    obtain ⟨v, hv⟩ := hall m (List.mem_cons_self _ _)
    have hb : dryRunBoard b p m =
        (b.setOccupant m.to_.row m.to_.col (some p)).setOccupant r c none := by
      unfold dryRunBoard; rw [hfrom]
    rw [dryRunFilter, getSquare_eq_some b _ _ hto]
    dsimp only
    rw [hfrom]
    dsimp only
    rw [getSquare_eq_some b _ _ hin]
    dsimp only
    rw [← hb, hv]
    dsimp only
    rw [hb, dryRun_revert b p r c _ _ hsq,
      ih (fun x hx => hms x (List.mem_cons_of_mem _ hx))
        (fun x hx => hall x (List.mem_cons_of_mem _ hx))]
    dsimp only
    rw [List.filter_cons, hv]
    cases v <;> simp

/-- C19: called with the occupant of an on-board square, `getValidMoves`
returns exactly when `getPossibleMoves` and the check test of every dry run
return; what it returns is then the sub-list of the possible moves, in order,
whose dry run is not in check, and the board it leaves is the board it
received, whatever the outcome of each dry run. -/
theorem getValidMoves_sublist_and_frame (fuel : Nat) (s : GameStatus) (b : Board) (p : Piece)
    (r c : Int) (hin : inRange r c) (hocc : b.occupant r c = some p) :
    (∀ res, getValidMoves fuel s b (some p) r c = .ok res →
      ∃ possible, getPossibleMoves fuel s b (some p) r c = .ok possible ∧
        res.1.Sublist possible ∧
        res.1 = possible.filter (fun m =>
          decide (isCheckState fuel s (dryRunBoard b p m) p.color = .ok false)) ∧
        res.2 = b) ∧
    (∀ possible, getPossibleMoves fuel s b (some p) r c = .ok possible →
      (∀ m ∈ possible, ∃ v, isCheckState fuel s (dryRunBoard b p m) p.color = .ok v) →
      getValidMoves fuel s b (some p) r c =
        .ok (possible.filter (fun m =>
          decide (isCheckState fuel s (dryRunBoard b p m) p.color = .ok false)), b)) := by
  constructor
  · intro res h
    obtain ⟨possible, hp, hres⟩ := getValidMoves_eq fuel s b p r c hin hocc res h
    refine ⟨possible, hp, ?_, ?_, ?_⟩
    · rw [hres]; exact List.filter_sublist _
    · rw [hres]
    · rw [hres]
  · intro possible hp hall
    unfold getValidMoves
    rw [hp]
    dsimp only
    exact dryRunFilter_returns fuel s p r c b hin hocc possible
      (fun m hm => generatedFrom_getPossibleMovesCore _ _ _ _ _ _ _ _ hp hm) hall

/-- C19, on the pin position: for the king on a5 `getValidMoves` returns three
of the four possible moves, a5-b4 being rejected, and leaves the board as it
was. -/
theorem getValidMoves_sublist_and_frame_witness :
    ∃ valid possible, getValidMoves 1 pinStatus pinBoard (some pinWhiteKing) 5 1 =
        .ok (valid, pinBoard) ∧
      getPossibleMoves 1 pinStatus pinBoard (some pinWhiteKing) 5 1 = .ok possible ∧
      valid.Sublist possible ∧ possible.length = 4 ∧ valid.length = 3 := by
  have h1 : Except.map (fun res => res.1.length)
      (getValidMoves 1 pinStatus pinBoard (some pinWhiteKing) 5 1) = .ok 3 := by decide!
  have h2 : Except.map List.length
      (getPossibleMoves 1 pinStatus pinBoard (some pinWhiteKing) 5 1) = .ok 4 := by decide!
  cases hv : getValidMoves 1 pinStatus pinBoard (some pinWhiteKing) 5 1 with
  | error e => rw [hv] at h1; simp [Except.map] at h1
  | ok res =>
    obtain ⟨possible, hp, hsub, _, hb⟩ :=
      (getValidMoves_sublist_and_frame 1 pinStatus pinBoard pinWhiteKing 5 1 (by decide)
        (by decide!)).1 res hv
    rw [hv] at h1
    rw [hp] at h2
    simp only [Except.map, Except.ok.injEq] at h1 h2
    obtain ⟨valid, b2⟩ := res
    simp only at hb
    subst hb
    exact ⟨valid, possible, rfl, hp, hsub, h2, h1⟩

/-! ### `Game.move` with an origin off the board -/

/-- C20 (evaluation at the failing input): with an origin outside the board
`Game.move` does not return false: it fails on the missing square, for every
game and destination; so does `new Game().move(0, 0, 1, 1)`. -/
theorem Game.move_out_of_range_fails :
    (∀ (fuel : Nat) (g : Game) (fromRow fromCol toRow toCol : Int),
      ¬ inRange fromRow fromCol →
      Game.move fuel g fromRow fromCol toRow toCol = .error .nullDeref) ∧
    ∀ fuel : Nat, Game.move fuel Game.new 0 0 1 1 = .error .nullDeref := by
  have h : ∀ (fuel : Nat) (g : Game) (fromRow fromCol toRow toCol : Int),
      ¬ inRange fromRow fromCol →
      Game.move fuel g fromRow fromCol toRow toCol = .error .nullDeref := by
    intro fuel g fr fc tr tc hn
    unfold Game.move
    rw [getSquare_eq_none _ _ _ hn]
  exact ⟨h, fun fuel => h fuel Game.new 0 0 1 1 (by decide)⟩

/-! ### The `Move` constructor -/

/-- C21 (evaluation at the failing input): with no global binding of the name
`col`, constructing a `Move` returns no move but fails, whatever the
arguments, as does `new Move(NORMAL, 2, 5, 4, 5, pawn)`; and were `col` bound
globally, the move built would carry that value, not `toCol`, as its
destination column. -/
theorem Move.new_fails :
    (∀ (type : MoveType) (fromRow fromCol toRow toCol : Int) (movedPiece : Piece)
        (capturedPiece : Option Piece),
      Move.new none type fromRow fromCol toRow toCol movedPiece capturedPiece =
        .error .referenceError) ∧
    Move.new none .NORMAL 2 5 4 5 whitePawnE none = .error .referenceError ∧
    ∀ (x : Int) (type : MoveType) (fromRow fromCol toRow toCol : Int) (movedPiece : Piece)
        (capturedPiece : Option Piece),
      Move.new (some x) type fromRow fromCol toRow toCol movedPiece capturedPiece =
        .ok (Move.mk type (Pos.mk fromRow fromCol) (Pos.mk toRow x) movedPiece capturedPiece) :=
  ⟨fun _ _ _ _ _ _ _ => rfl, rfl, fun _ _ _ _ _ _ _ _ => rfl⟩

/-! ### Destinations of the generated moves -/

/-- C24 (evaluation at the failing input): after the steps 1. e4 a6 2. e5 d5
3. Nc3 a5 4. Ne4 a4 5. Nd6 a3, applied with `Gameplay.move` from the initial
layout, the moves generated for the white pawn on e5 contain the EN_PASSANT
move to d6, where the white knight stands; applying it returns true and the
knight is on no square afterwards. -/
theorem enPassant_lands_on_friendly_piece :
    playNormal knightBehindSteps Game.new.status Game.new.board =
      .ok (knightBehindStatus, knightBehindBoard) ∧
    knightBehindBoard.occupant 5 5 = some whitePawnE ∧
    knightBehindBoard.occupant 6 4 = some whiteKnightB ∧
    whiteKnightB.color = whitePawnE.color ∧
    (∀ fuel : Nat, ∃ ms,
      getPossibleMoves fuel knightBehindStatus knightBehindBoard (some whitePawnE) 5 5 =
        .ok ms ∧ knightBehindCapture ∈ ms) ∧
    ∃ s2 b2, move knightBehindStatus knightBehindBoard knightBehindCapture = .ok (true, s2, b2) ∧
      b2.occupant 6 4 = some whitePawnE ∧ ∀ r c, b2.occupant r c ≠ some whiteKnightB := by
  refine ⟨rfl, by decide!, by decide!, rfl, ?_, ?_⟩
  · intro fuel
    exact ⟨_, getPossibleMoves_pawn fuel _ _ _ _ _ rfl, by decide!⟩
  · have h1 : (match move knightBehindStatus knightBehindBoard knightBehindCapture with
        | .error _ => false
        | .ok (r, _, b2) =>
          r && decide (b2.occupant 6 4 = some whitePawnE) &&
            allSquares.all fun rc => decide (b2.occupant rc.1 rc.2 ≠ some whiteKnightB)) =
        true := by decide!
    cases hm : move knightBehindStatus knightBehindBoard knightBehindCapture with
    | error e => rw [hm] at h1; simp at h1
    | ok rsb =>
      obtain ⟨r, s2, b2⟩ := rsb
      rw [hm] at h1
      simp only [Bool.and_eq_true, decide_eq_true_eq, List.all_eq_true] at h1
      obtain ⟨⟨hr, h64⟩, hall⟩ := h1
      subst hr
      refine ⟨s2, b2, rfl, h64, ?_⟩
      intro r c hocc
      have hin := ((occupant_eq_some_iff b2 r c _).mp hocc).1
      exact hall (r, c) (mem_allSquares r c hin) hocc

/-! ### No dereference of a missing square -/

/-- The path test stops with `false` on the first occupied square, the
squares before it being on the board. -/
theorem pathClear_stops (b : Board) (row : Int) (pre : List Int) (x : Int) (post : List Int)
    (hpre : ∀ c ∈ pre, inRange row c) (hx : inRange row x)
    (hocc : (b.occupant row x).isSome = true) :
    pathClear b row (pre ++ x :: post) = .ok false := by
  induction pre with
  | nil =>
    rw [List.nil_append, pathClear, occupiedAt_eq b row x hx, hocc]
  | cons c cs ih =>
    rw [List.cons_append, pathClear, occupiedAt_eq b row c (hpre c (List.mem_cons_self _ _))]
    cases (b.occupant row c).isSome with
    | true => rfl
    | false => exact ih (fun y hy => hpre y (List.mem_cons_of_mem _ hy))

/-- For a king standing on the board, the king-side path test never reads a
missing square when the corner holds a rook. -/
theorem pathClear_kingSide_ok (b : Board) (k rook : Piece) (r c : Int)
    (hocc : b.occupant r c = some k) (hk : k.type = .KING)
    (hrook : b.occupant r 8 = some rook) (hr : rook.type = .ROOK) :
    ∃ v, pathClear b r [c + 1, c + 2] = .ok v := by
  have hin := ((occupant_eq_some_iff b r c k).mp hocc).1
  have hc8 : c ≠ 8 := by
    intro h
    rw [h, hrook] at hocc
    simp only [Option.some.injEq] at hocc
    rw [hocc, hk] at hr
    cases hr
  unfold inRange at hin
  by_cases h7 : c = 7
  · have e : c + 1 = 8 := by omega
    refine ⟨false, ?_⟩
    rw [e]
    exact pathClear_stops b r [] 8 [c + 2] (by simp) ⟨hin.1, hin.2.1, by omega, by omega⟩
      (by rw [hrook]; rfl)
  · exact ⟨_, pathClear_eq b r _ (by
      intro x hx
      simp only [List.mem_cons, List.mem_singleton, List.not_mem_nil, or_false] at hx
      unfold inRange
      rcases hx with rfl | rfl <;> omega)⟩

/-- For a king standing on the board, the queen-side path test never reads a
missing square when the corner holds a rook. -/
theorem pathClear_queenSide_ok (b : Board) (k rook : Piece) (r c : Int)
    (hocc : b.occupant r c = some k) (hk : k.type = .KING)
    (hrook : b.occupant r 1 = some rook) (hr : rook.type = .ROOK) :
    ∃ v, pathClear b r [c - 1, c - 2, c - 3] = .ok v := by
  have hin := ((occupant_eq_some_iff b r c k).mp hocc).1
  have hc1 : c ≠ 1 := by
    intro h
    rw [h, hrook] at hocc
    simp only [Option.some.injEq] at hocc
    rw [hocc, hk] at hr
    cases hr
  unfold inRange at hin
  have hrow : ∀ x : Int, 1 ≤ x → x ≤ 8 → inRange r x := fun x h1 h2 => ⟨hin.1, hin.2.1, h1, h2⟩
  have hsome : (b.occupant r 1).isSome = true := by rw [hrook]; rfl
  by_cases h2 : c = 2
  · have e : c - 1 = 1 := by omega
    refine ⟨false, ?_⟩
    rw [e]
    exact pathClear_stops b r [] 1 _ (by simp) (hrow 1 (by omega) (by omega)) hsome
  · by_cases h3 : c = 3
    · have e : c - 2 = 1 := by omega
      refine ⟨false, ?_⟩
      rw [e]
      exact pathClear_stops b r [c - 1] 1 _
        (by intro x hx; simp only [List.mem_singleton] at hx; rw [hx];
            exact hrow _ (by omega) (by omega))
        (hrow 1 (by omega) (by omega)) hsome
    · exact ⟨_, pathClear_eq b r _ (by
        intro x hx
        simp only [List.mem_cons, List.mem_singleton, List.not_mem_nil, or_false] at hx
        rcases hx with rfl | rfl | rfl <;> exact hrow _ (by omega) (by omega))⟩

theorem castleSide_ok_of_pathClear (b : Board) (p : Piece) (fr fc rookCol : Int)
    (rookMoved : Bool) (path : List Int) (toCol : Int)
    (h : ∀ rook, b.occupant fr rookCol = some rook → rook.type = .ROOK →
      ∃ v, pathClear b fr path = .ok v) :
    ∃ ms, castleSide b p fr fc rookCol rookMoved path toCol = .ok ms := by
  unfold castleSide
  cases hocc : b.occupant fr rookCol with
  | none => exact ⟨_, rfl⟩
  | some rook =>
    dsimp only
    by_cases hcond : rook.type = .ROOK ∧ rookMoved = false
    · rw [if_pos hcond]
      obtain ⟨v, hv⟩ := h rook hocc hcond.1
      rw [hv]
      cases v <;> exact ⟨_, rfl⟩
    · rw [if_neg hcond]
      exact ⟨_, rfl⟩

/-- The castling rule of a king standing on the board fails only if the
check test fails, and then with the same failure. -/
theorem castlingMoves_ok_or_oracle (chk : Oracle) (s : GameStatus) (b : Board) (k : Piece)
    (r c : Int) (hocc : b.occupant r c = some k) (hk : k.type = .KING) :
    (∃ ms, castlingMoves chk s b k r c = .ok ms) ∨
      ∃ e, chk s b k.color = .error e ∧ castlingMoves chk s b k r c = .error e := by
  unfold castlingMoves
  by_cases hm : s.isKingMoved k.color = true
  · rw [if_pos hm]; exact Or.inl ⟨_, rfl⟩
  · rw [if_neg hm]
    cases hc : chk s b k.color with
    | error e => exact Or.inr ⟨e, rfl, rfl⟩
    | ok v =>
      left
      cases v with
      | true => exact ⟨_, rfl⟩
      | false =>
        dsimp only
        obtain ⟨ks, hks⟩ := castleSide_ok_of_pathClear b k r c b.MAX_COL
          (s.isLastColRookMoved k.color) [c + 1, c + 2] (c + 2)
          (fun rook h1 h2 => pathClear_kingSide_ok b k rook r c hocc hk h1 h2)
        obtain ⟨qs, hqs⟩ := castleSide_ok_of_pathClear b k r c b.MIN_COL
          (s.isFirstColRookMoved k.color) [c - 1, c - 2, c - 3] (c - 2)
          (fun rook h1 h2 => pathClear_queenSide_ok b k rook r c hocc hk h1 h2)
        rw [hks, hqs]
        exact ⟨_, rfl⟩

theorem getPossibleMovesCore_ok_or_oracle (chk : Oracle) (s : GameStatus) (b : Board)
    (p : Piece) (r c : Int) (hocc : b.occupant r c = some p) :
    (∃ ms, getPossibleMovesCore chk s b p r c = .ok ms) ∨
      ∃ e, chk s b p.color = .error e ∧ getPossibleMovesCore chk s b p r c = .error e := by
  unfold getPossibleMovesCore
  cases hty : p.type with
  | KING =>
    dsimp only
    rcases castlingMoves_ok_or_oracle chk s b p r c hocc hty with ⟨ms, h⟩ | ⟨e, h1, h2⟩
    · rw [h]; exact Or.inl ⟨_, rfl⟩
    · rw [h2]; exact Or.inr ⟨e, h1, rfl⟩
  | PAWN => exact Or.inl ⟨_, rfl⟩
  | ROOK => exact Or.inl ⟨_, rfl⟩
  | BISHOP => exact Or.inl ⟨_, rfl⟩
  | QUEEN => exact Or.inl ⟨_, rfl⟩
  | KNIGHT => exact Or.inl ⟨_, rfl⟩

theorem scanAttack_no_nullDeref (chk : Oracle) (s : GameStatus) (b : Board)
    (color : PieceColor) (kingPos : Pos) (l : List (Int × Int))
    (hchk : ∀ c, chk s b c ≠ .error .nullDeref) :
    scanAttack chk s b color kingPos l ≠ .error .nullDeref := by
  induction l with
  | nil => simp [scanAttack]
  | cons rc rest ih =>
    rw [scanAttack]
    cases hocc : b.occupant rc.1 rc.2 with
    | none => exact ih
    | some p =>
      dsimp only
      by_cases hc : p.color ≠ color
      · rw [if_pos hc]
        rcases getPossibleMovesCore_ok_or_oracle chk s b p rc.1 rc.2 hocc with
          ⟨ms, h⟩ | ⟨e, h1, h2⟩
        · rw [h]
          dsimp only
          split
          · simp
          · exact ih
        · rw [h2]
          intro hh
          simp only [Except.error.injEq] at hh
          rw [hh] at h1
          exact hchk _ h1
      · rw [if_neg hc]; exact ih

theorem isCheckState_no_nullDeref (fuel : Nat) (s : GameStatus) (b : Board) (c : PieceColor) :
    isCheckState fuel s b c ≠ .error .nullDeref := by
  induction fuel generalizing c with
  | zero => simp [isCheckState]
  | succ n ih =>
    rw [isCheckState]
    unfold isCheckStateStep
    cases findKing b c with
    | none => simp
    | some kp => exact scanAttack_no_nullDeref _ s b c kp allSquares ih


theorem dryRunFilter_no_nullDeref (fuel : Nat) (s : GameStatus) (p : Piece) (r c : Int)
    (hin : inRange r c) (ms : List Move) (hms : ∀ m ∈ ms, generatedFrom p r c m) (b : Board) :
    dryRunFilter fuel s p ms b ≠ .error .nullDeref := by
  induction ms generalizing b with
  | nil => simp [dryRunFilter]
  | cons m ms ih =>
    obtain ⟨hfrom, _, hto, _, _⟩ := hms m (List.mem_cons_self _ _)
    rw [dryRunFilter, getSquare_eq_some b _ _ hto]
    dsimp only
    rw [hfrom]
    dsimp only
    rw [getSquare_eq_some b _ _ hin]
    dsimp only
    cases hc : isCheckState fuel s
        ((b.setOccupant m.to_.row m.to_.col (some p)).setOccupant r c none) p.color with
    | error e =>
      dsimp only
      intro hh
      simp only [Except.error.injEq] at hh
      rw [hh] at hc
      exact isCheckState_no_nullDeref _ _ _ _ hc
    | ok v =>
      dsimp only
      have := ih (fun x hx => hms x (List.mem_cons_of_mem _ hx))
        ((((b.setOccupant m.to_.row m.to_.col (some p)).setOccupant r c none).setOccupant r c
          (some p)).setOccupant m.to_.row m.to_.col (b.squares m.to_.row m.to_.col).occupyingPiece)
      revert this
      cases dryRunFilter fuel s p ms
        ((((b.setOccupant m.to_.row m.to_.col (some p)).setOccupant r c none).setOccupant r c
          (some p)).setOccupant m.to_.row m.to_.col
          (b.squares m.to_.row m.to_.col).occupyingPiece) with
      | error e => intro h; simpa using h
      | ok res => intro _; simp

/-- C23: for a piece that is the occupant of an on-board square, neither
`isCheckState` nor `getPossibleMoves` nor `getValidMoves` ever fails on a
missing square: the castling path squares they read and the squares of each
dry run are on the board, and every generated move has an on-board
destination. -/
theorem no_dereference_of_missing_square (fuel : Nat) (s : GameStatus) (b : Board) :
    (∀ color, isCheckState fuel s b color ≠ .error .nullDeref) ∧
    ∀ (p : Piece) (r c : Int), b.occupant r c = some p →
      getPossibleMoves fuel s b (some p) r c ≠ .error .nullDeref ∧
      (p.type = .KING → s.isKingMoved p.color = false →
        isCheckState fuel s b p.color = .ok false →
        (∀ rook, b.occupant r 8 = some rook → rook.type = .ROOK →
          ∃ v, pathClear b r [c + 1, c + 2] = .ok v) ∧
        (∀ rook, b.occupant r 1 = some rook → rook.type = .ROOK →
          ∃ v, pathClear b r [c - 1, c - 2, c - 3] = .ok v)) ∧
      (∀ ms, getPossibleMoves fuel s b (some p) r c = .ok ms →
        ∀ m ∈ ms, inRange m.to_.row m.to_.col) ∧
      getValidMoves fuel s b (some p) r c ≠ .error .nullDeref := by
  refine ⟨fun color => isCheckState_no_nullDeref fuel s b color, ?_⟩
  intro p r c hocc
  have hin := ((occupant_eq_some_iff b r c p).mp hocc).1
  have hgen : getPossibleMoves fuel s b (some p) r c ≠ .error .nullDeref := by
    unfold getPossibleMoves
    dsimp only
    rcases getPossibleMovesCore_ok_or_oracle (isCheckState fuel) s b p r c hocc with
      ⟨ms, h⟩ | ⟨e, h1, h2⟩
    · rw [h]; simp
    · rw [h2]
      intro hh
      simp only [Except.error.injEq] at hh
      rw [hh] at h1
      exact isCheckState_no_nullDeref _ _ _ _ h1
  refine ⟨hgen, ?_, ?_, ?_⟩
  · intro hk _ _
    exact ⟨fun rook h1 h2 => pathClear_kingSide_ok b p rook r c hocc hk h1 h2,
      fun rook h1 h2 => pathClear_queenSide_ok b p rook r c hocc hk h1 h2⟩
  · intro ms hms m hm
    exact (generatedFrom_getPossibleMovesCore _ _ _ _ _ _ _ _ hms hm).2.2.1
  · unfold getValidMoves
    cases hg : getPossibleMoves fuel s b (some p) r c with
    | error e =>
      dsimp only
      intro hh
      simp only [Except.error.injEq] at hh
      rw [hh] at hg
      exact hgen hg
    | ok possible =>
      dsimp only
      exact dryRunFilter_no_nullDeref fuel s p r c hin possible
        (fun m hm => generatedFrom_getPossibleMovesCore _ _ _ _ _ _ _ _ hg hm) b

/-! ### The check test and the status -/

theorem flagsLe_refl (s : GameStatus) : flagsLe s s :=
  fun _ => ⟨id, id, id⟩

theorem flagsLe_trans (s1 s2 s3 : GameStatus) (h12 : flagsLe s1 s2) (h23 : flagsLe s2 s3) :
    flagsLe s1 s3 :=
  fun c => ⟨fun h => (h23 c).1 ((h12 c).1 h), fun h => (h23 c).2.1 ((h12 c).2.1 h),
    fun h => (h23 c).2.2 ((h12 c).2.2 h)⟩

theorem flagsLe_setKingMove (s : GameStatus) (c : PieceColor) : flagsLe s (s.setKingMove c) := by
  intro d
  cases c <;> cases d <;>
    simp [GameStatus.setKingMove, GameStatus.isKingMoved, GameStatus.isFirstColRookMoved,
      GameStatus.isLastColRookMoved]

theorem flagsLe_setFirstColRookMove (s : GameStatus) (c : PieceColor) :
    flagsLe s (s.setFirstColRookMove c) := by
  intro d
  cases c <;> cases d <;>
    simp [GameStatus.setFirstColRookMove, GameStatus.isKingMoved,
      GameStatus.isFirstColRookMoved, GameStatus.isLastColRookMoved]

theorem flagsLe_setLastColRookMove (s : GameStatus) (c : PieceColor) :
    flagsLe s (s.setLastColRookMove c) := by
  intro d
  cases c <;> cases d <;>
    simp [GameStatus.setLastColRookMove, GameStatus.isKingMoved,
      GameStatus.isFirstColRookMoved, GameStatus.isLastColRookMoved]

theorem flagsLe_setPieceEnPassantable (s : GameStatus) (c : PieceColor) (p : Option Piece) :
    flagsLe s (s.setPieceEnPassantable c p) :=
  fun _ => ⟨id, id, id⟩

theorem flagsLe_kingRookFlags (s : GameStatus) (b : Board) (m : Move) :
    flagsLe s (kingRookFlags s b m) := by
  unfold kingRookFlags
  split
  · exact flagsLe_setKingMove _ _
  · split
    · split
      · exact flagsLe_setFirstColRookMove _ _
      · split
        · exact flagsLe_setLastColRookMove _ _
        · exact flagsLe_refl _
    · exact flagsLe_refl _

/-- Applying a move sets flags and resets none. -/
theorem flagsLe_statusAfterMove (s : GameStatus) (b : Board) (m : Move) :
    flagsLe s (statusAfterMove s b m) := by
  unfold statusAfterMove
  split
  · split
    · exact flagsLe_setPieceEnPassantable _ _ _
    · exact flagsLe_kingRookFlags _ _ _
  · exact flagsLe_kingRookFlags _ _ _
  · exact flagsLe_refl _
  · split
    · exact flagsLe_trans _ _ _ (flagsLe_setKingMove _ _) (flagsLe_setFirstColRookMove _ _)
    · exact flagsLe_trans _ _ _ (flagsLe_setKingMove _ _) (flagsLe_setLastColRookMove _ _)
  · exact flagsLe_refl _

/-- The test `m.to == kingPos` of the attack scan, on the pawn's moves, does
not see the en-passant moves: one that lands on an opposing piece comes with
the capture of that piece. -/
theorem pawnMoves_any_hit (s : GameStatus) (b : Board) (p : Piece) (r c : Int) (kp : Pos)
    (k : Piece) (hk : b.occupant kp.row kp.col = some k) (hkc : k.color ≠ p.color) :
    (pawnMoves s b p r c).any (fun m => decide (m.to_.row = kp.row ∧ m.to_.col = kp.col)) =
      (pawnAdvance b p r c ++ [c - 1, c + 1].flatMap (pawnCapture b p r c)).any
        (fun m => decide (m.to_.row = kp.row ∧ m.to_.col = kp.col)) := by
  unfold pawnMoves
  dsimp only
  rw [List.any_append]
  generalize hE : (if r = (if p.color = PieceColor.WHITE then (5 : Int) else 4) then
      [c - 1, c + 1].flatMap (pawnEnPassant s b p r c) else []) = E
  cases hany : E.any (fun m => decide (m.to_.row = kp.row ∧ m.to_.col = kp.col)) with
  | false => rw [Bool.or_false]
  | true =>
    rw [Bool.or_true]
    symm
    rw [List.any_eq_true] at hany ⊢
    obtain ⟨m, hm, hhit⟩ := hany
    simp only [decide_eq_true_eq] at hhit
    rw [← hE] at hm
    by_cases hrow : r = (if p.color = PieceColor.WHITE then (5 : Int) else 4)
    · rw [if_pos hrow, List.mem_flatMap] at hm
      obtain ⟨x, hx, hmx⟩ := hm
      obtain ⟨q, _, _, _, _, hin, hmk⟩ := (mem_pawnEnPassant s b p r c x m).mp hmx
      rw [hmk] at hhit
      simp only at hhit
      refine ⟨Move.mk .CAPTURE (Pos.mk r c)
        (Pos.mk (r + if p.color = .WHITE then 1 else -1) x) p (some k), ?_, ?_⟩
      · rw [List.mem_append]
        right
        rw [List.mem_flatMap]
        refine ⟨x, hx, ?_⟩
        rw [mem_pawnCapture]
        refine ⟨k, hin, ?_, hkc, rfl⟩
        rw [hhit.1, hhit.2]
        exact hk
      · simp only [decide_eq_true_eq]
        exact hhit
    · rw [if_neg hrow] at hm
      simp at hm


theorem pathClear_true (b : Board) (row : Int) (cols : List Int)
    (h : pathClear b row cols = .ok true) : ∀ x ∈ cols, b.occupant row x = none := by
  induction cols with
  | nil => intro x hx; simp at hx
  | cons c cs ih =>
    rw [pathClear] at h
    unfold Board.occupiedAt at h
    cases hsq : b.getSquare row c with
    | none => rw [hsq] at h; simp at h
    | some sq =>
      rw [hsq] at h
      dsimp only at h
      cases hoc : sq.occupiedState with
      | true => rw [hoc] at h; simp at h
      | false =>
        rw [hoc] at h
        dsimp only at h
        intro x hx
        rw [List.mem_cons] at hx
        rcases hx with rfl | hx
        · unfold Board.occupant
          rw [hsq]
          unfold Square.occupiedState at hoc
          cases hp : sq.occupyingPiece with
          | none => exact hp
          | some q => rw [hp] at hoc; simp at hoc
        · exact ih h x hx

/-- A castling move lands on an empty square. -/
theorem castleSide_destination_empty (b : Board) (p : Piece) (fr fc rookCol : Int)
    (rookMoved : Bool) (path : List Int) (toCol : Int) (hto : toCol ∈ path) (ms : List Move)
    (h : castleSide b p fr fc rookCol rookMoved path toCol = .ok ms) :
    ∀ m ∈ ms, m.type = .CASTLING ∧ m.from_ = Pos.mk fr fc ∧ m.to_ = Pos.mk fr toCol ∧
      b.occupant fr toCol = none := by
  unfold castleSide at h
  intro m hm
  split at h
  · simp at h; subst h; simp at hm
  · split at h
    · split at h
      · simp at h
      · rename_i hpc
        simp at h
        subst h
        rw [mem_addMove] at hm
        rw [hm.2]
        exact ⟨rfl, rfl, rfl, pathClear_true b fr path hpc toCol hto⟩
      · simp at h; subst h; simp at hm
    · simp at h; subst h; simp at hm

theorem castlingMoves_destination_empty (chk : Oracle) (s : GameStatus) (b : Board) (p : Piece)
    (fr fc : Int) (ms : List Move) (h : castlingMoves chk s b p fr fc = .ok ms) :
    ∀ m ∈ ms, m.type = .CASTLING ∧ m.from_ = Pos.mk fr fc ∧ m.to_.row = fr ∧
      (m.to_.col = fc + 2 ∨ m.to_.col = fc - 2) ∧
      b.occupant m.to_.row m.to_.col = none := by
  unfold castlingMoves at h
  intro m hm
  split at h
  · simp at h; subst h; simp at hm
  · split at h
    · simp at h
    · simp at h; subst h; simp at hm
    · split at h
      · simp at h
      · rename_i ks hks
        split at h
        · simp at h
        · rename_i qs hqs
          simp at h
          subst h
          rw [List.mem_append] at hm
          rcases hm with hm | hm
          · obtain ⟨h1, h2, h3, h4⟩ := castleSide_destination_empty _ _ _ _ _ _ _ _
              (by simp) _ hks m hm
            rw [h3]
            exact ⟨h1, h2, rfl, Or.inl rfl, h4⟩
          · obtain ⟨h1, h2, h3, h4⟩ := castleSide_destination_empty _ _ _ _ _ _ _ _
              (by simp) _ hqs m hm
            rw [h3]
            exact ⟨h1, h2, rfl, Or.inr rfl, h4⟩

theorem castlingMoves_never_hit (chk : Oracle) (s : GameStatus) (b : Board) (p : Piece)
    (fr fc : Int) (ms : List Move) (h : castlingMoves chk s b p fr fc = .ok ms) (kp : Pos)
    (k : Piece) (hk : b.occupant kp.row kp.col = some k) :
    ms.any (fun m => decide (m.to_.row = kp.row ∧ m.to_.col = kp.col)) = false := by
  rw [List.any_eq_false]
  intro m hm
  simp only [decide_eq_true_eq]
  intro hh
  have := (castlingMoves_destination_empty chk s b p fr fc ms h m hm).2.2.2.2
  rw [hh.1, hh.2, hk] at this
  cases this

/-- Setting a rook flag leaves a castling side returning, with no new move. -/
theorem castleSide_flag_mono (b : Board) (p : Piece) (fr fc rookCol : Int) (rm rm2 : Bool)
    (path : List Int) (toCol : Int) (hrm : rm = true → rm2 = true) (ms : List Move)
    (h : castleSide b p fr fc rookCol rm path toCol = .ok ms) :
    ∃ ms2, castleSide b p fr fc rookCol rm2 path toCol = .ok ms2 := by
  cases rm2 with
  | false =>
    have : rm = false := by
      cases rm with
      | false => rfl
      | true => exact absurd (hrm rfl) (by decide)
    rw [this] at h
    exact ⟨ms, h⟩
  | true =>
    unfold castleSide
    cases b.occupant fr rookCol with
    | none => exact ⟨_, rfl⟩
    | some rook =>
      dsimp only
      rw [if_neg (by simp)]
      exact ⟨_, rfl⟩

theorem castlingMoves_status_mono (chk chk2 : Oracle) (s s2 : GameStatus) (b : Board)
    (hle : flagsLe s s2) (hchk : ∀ c v, chk s b c = .ok v → chk2 s2 b c = .ok v)
    (p : Piece) (fr fc : Int) (ms : List Move) (h : castlingMoves chk s b p fr fc = .ok ms) :
    ∃ ms2, castlingMoves chk2 s2 b p fr fc = .ok ms2 := by
  unfold castlingMoves at h ⊢
  by_cases hm2 : s2.isKingMoved p.color = true
  · rw [if_pos hm2]; exact ⟨_, rfl⟩
  · rw [if_neg hm2]
    have hm1 : ¬ s.isKingMoved p.color = true := fun hh => hm2 ((hle p.color).1 hh)
    rw [if_neg hm1] at h
    cases hc : chk s b p.color with
    | error e => rw [hc] at h; simp at h
    | ok v =>
      rw [hc] at h
      rw [hchk _ _ hc]
      cases v with
      | true => exact ⟨_, rfl⟩
      | false =>
        dsimp only at h ⊢
        cases hks : castleSide b p fr fc b.MAX_COL (s.isLastColRookMoved p.color)
            [fc + 1, fc + 2] (fc + 2) with
        | error e => rw [hks] at h; simp at h
        | ok ks =>
          rw [hks] at h
          dsimp only at h
          cases hqs : castleSide b p fr fc b.MIN_COL (s.isFirstColRookMoved p.color)
              [fc - 1, fc - 2, fc - 3] (fc - 2) with
          | error e => rw [hqs] at h; simp at h
          | ok qs =>
            obtain ⟨ks2, hks2⟩ := castleSide_flag_mono b p fr fc b.MAX_COL _
              (s2.isLastColRookMoved p.color) _ _ (hle p.color).2.2 ks hks
            obtain ⟨qs2, hqs2⟩ := castleSide_flag_mono b p fr fc b.MIN_COL _
              (s2.isFirstColRookMoved p.color) _ _ (hle p.color).2.1 qs hqs
            rw [hks2, hqs2]
            exact ⟨_, rfl⟩

/-- With more flags set, any en-passant records and a check test that returns
at least where the old one did, the generator still returns, and its moves
land on an occupied square `kingPos` of the other colour exactly when they
did. -/
theorem getPossibleMovesCore_status_mono (chk chk2 : Oracle) (s s2 : GameStatus) (b : Board)
    (hle : flagsLe s s2) (hchk : ∀ c v, chk s b c = .ok v → chk2 s2 b c = .ok v)
    (p : Piece) (r c : Int) (kp : Pos) (k : Piece)
    (hk : b.occupant kp.row kp.col = some k) (hkc : k.color ≠ p.color) (ms : List Move)
    (h : getPossibleMovesCore chk s b p r c = .ok ms) :
    ∃ ms2, getPossibleMovesCore chk2 s2 b p r c = .ok ms2 ∧
      ms2.any (fun m => decide (m.to_.row = kp.row ∧ m.to_.col = kp.col)) =
        ms.any (fun m => decide (m.to_.row = kp.row ∧ m.to_.col = kp.col)) := by
  unfold getPossibleMovesCore at h ⊢
  cases hty : p.type with
  | PAWN =>
    rw [hty] at h
    simp only [Except.ok.injEq] at h
    subst h
    exact ⟨_, rfl, by
      rw [pawnMoves_any_hit s2 b p r c kp k hk hkc, pawnMoves_any_hit s b p r c kp k hk hkc]⟩
  | ROOK => rw [hty] at h; exact ⟨ms, h, rfl⟩
  | BISHOP => rw [hty] at h; exact ⟨ms, h, rfl⟩
  | QUEEN => rw [hty] at h; exact ⟨ms, h, rfl⟩
  | KNIGHT => rw [hty] at h; exact ⟨ms, h, rfl⟩
  | KING =>
    rw [hty] at h
    dsimp only at h ⊢
    cases hcs : castlingMoves chk s b p r c with
    | error e => rw [hcs] at h; simp at h
    | ok cs =>
      rw [hcs] at h
      simp only [Except.ok.injEq] at h
      subst h
      obtain ⟨cs2, hcs2⟩ := castlingMoves_status_mono chk chk2 s s2 b hle hchk p r c cs hcs
      rw [hcs2]
      refine ⟨_, rfl, ?_⟩
      rw [List.any_append, List.any_append,
        castlingMoves_never_hit chk2 s2 b p r c cs2 hcs2 kp k hk,
        castlingMoves_never_hit chk s b p r c cs hcs kp k hk]

theorem scanAttack_status_mono (chk chk2 : Oracle) (s s2 : GameStatus) (b : Board)
    (hle : flagsLe s s2) (hchk : ∀ c v, chk s b c = .ok v → chk2 s2 b c = .ok v)
    (color : PieceColor) (kp : Pos) (k : Piece)
    (hk : b.occupant kp.row kp.col = some k) (hkc : k.color = color)
    (l : List (Int × Int)) (v : Bool) (h : scanAttack chk s b color kp l = .ok v) :
    scanAttack chk2 s2 b color kp l = .ok v := by
  induction l with
  | nil => exact h
  | cons rc rest ih =>
    rw [scanAttack] at h ⊢
    cases hocc : b.occupant rc.1 rc.2 with
    | none => rw [hocc] at h; exact ih h
    | some p =>
      rw [hocc] at h
      dsimp only at h ⊢
      by_cases hc : p.color ≠ color
      · rw [if_pos hc] at h ⊢
        cases hg : getPossibleMovesCore chk s b p rc.1 rc.2 with
        | error e => rw [hg] at h; simp at h
        | ok moves =>
          obtain ⟨ms2, hg2, hany⟩ := getPossibleMovesCore_status_mono chk chk2 s s2 b hle hchk
            p rc.1 rc.2 kp k hk (by rw [hkc]; exact fun hh => hc hh.symm) moves hg
          rw [hg] at h
          rw [hg2]
          dsimp only at h ⊢
          rw [hany]
          split at h
          · rename_i ha; rw [if_pos ha]; exact h
          · rename_i ha; rw [if_neg ha]; exact ih h
      · rw [if_neg hc] at h ⊢; exact ih h

theorem findKing_occupant (b : Board) (color : PieceColor) (kp : Pos)
    (h : findKing b color = some kp) :
    ∃ k, b.occupant kp.row kp.col = some k ∧ k.type = .KING ∧ k.color = color := by
  unfold findKing at h
  rw [Option.map_eq_some'] at h
  obtain ⟨rc, hfind, hkp⟩ := h
  have hp := List.find?_some hfind
  rw [← hkp]
  dsimp only at hp ⊢
  cases hocc : b.occupant rc.1 rc.2 with
  | none => rw [hocc] at hp; simp at hp
  | some k =>
    rw [hocc] at hp
    simp only [decide_eq_true_eq] at hp
    exact ⟨k, rfl, hp.1, hp.2⟩

/-- The value `isCheckState` returns does not depend on the status: with more
flags set and any en-passant records it returns the same value. -/
theorem isCheckState_status_mono (fuel : Nat) :
    ∀ (s s2 : GameStatus) (b : Board) (c : PieceColor) (v : Bool), flagsLe s s2 →
      isCheckState fuel s b c = .ok v → isCheckState fuel s2 b c = .ok v := by
  induction fuel with
  | zero => intro s s2 b c v _ h; simp [isCheckState] at h
  | succ n ih =>
    intro s s2 b c v hle h
    rw [isCheckState] at h ⊢
    unfold isCheckStateStep at h ⊢
    cases hf : findKing b c with
    | none => rw [hf] at h; exact h
    | some kp =>
      rw [hf] at h
      dsimp only at h ⊢
      obtain ⟨k, hk, _, hkc⟩ := findKing_occupant b c kp hf
      exact scanAttack_status_mono _ _ s s2 b hle (fun c2 v2 hh => ih s s2 b c2 v2 hle hh)
        c kp k hk hkc allSquares v h

/-! ### The dry run and the real application -/

theorem occupant_of_getSquare (b : Board) (r c : Int) (sq : Square)
    (h : b.getSquare r c = some sq) : b.occupant r c = sq.occupyingPiece := by
  unfold Board.occupant
  rw [h]

theorem destination_of_mem_slideRay (b : Board) (p : Piece) (fr fc dr dc : Int) (n : Nat)
    (r c : Int) (m : Move) (h : m ∈ slideRay b p fr fc dr dc n r c) :
    (m.type = .NORMAL ∧ b.occupant m.to_.row m.to_.col = none) ∨
    (m.type = .CAPTURE ∧ ∃ q, b.occupant m.to_.row m.to_.col = some q ∧ q.color ≠ p.color) := by
  induction n generalizing r c with
  | zero => simp [slideRay] at h
  | succ n ih =>
    rw [slideRay] at h
    split at h
    · split at h
      · simp at h
      · rename_i sq hsq
        split at h
        · rename_i hoc
          rw [List.mem_cons] at h
          rcases h with rfl | h
          · left
            refine ⟨rfl, ?_⟩
            rw [occupant_of_getSquare b r c sq hsq]
            exact hoc
          · exact ih _ _ h
        · rename_i q hoc
          split at h
          · rename_i hq
            rw [List.mem_singleton] at h
            subst h
            right
            refine ⟨rfl, q, ?_, hq⟩
            rw [occupant_of_getSquare b r c sq hsq]
            exact hoc
          · simp at h
    · simp at h

theorem destination_of_mem_stepMoves (b : Board) (p : Piece) (fr fc : Int)
    (offsets : List (Int × Int)) (m : Move) (h : m ∈ stepMoves b p fr fc offsets) :
    (m.type = .NORMAL ∧ b.occupant m.to_.row m.to_.col = none) ∨
    (m.type = .CAPTURE ∧ ∃ q, b.occupant m.to_.row m.to_.col = some q ∧ q.color ≠ p.color) := by
  unfold stepMoves at h
  rw [List.mem_flatMap] at h
  obtain ⟨d, _, h⟩ := h
  dsimp only at h
  split at h
  · simp at h
  · rename_i sq hsq
    split at h
    · rename_i hoc
      rw [mem_addMove] at h
      rw [h.2]
      left
      refine ⟨rfl, ?_⟩
      rw [occupant_of_getSquare b _ _ sq hsq]
      exact hoc
    · rename_i q hoc
      split at h
      · rename_i hq
        rw [mem_addMove] at h
        rw [h.2]
        right
        refine ⟨rfl, q, ?_, hq⟩
        rw [occupant_of_getSquare b _ _ sq hsq]
        exact hoc
      · simp at h

/-- A generated NORMAL move lands on an empty square, a generated CAPTURE move
on a square that holds a piece of the other colour. -/
theorem destination_of_normal_capture (chk : Oracle) (s : GameStatus) (b : Board) (p : Piece)
    (r c : Int) (ms : List Move) (h : getPossibleMovesCore chk s b p r c = .ok ms) (m : Move)
    (hm : m ∈ ms) :
    (m.type = .NORMAL → b.occupant m.to_.row m.to_.col = none) ∧
    (m.type = .CAPTURE → ∃ q, b.occupant m.to_.row m.to_.col = some q ∧ q.color ≠ p.color) := by
  have key : (m.type = .NORMAL ∧ b.occupant m.to_.row m.to_.col = none) ∨
      (m.type = .CAPTURE ∧ ∃ q, b.occupant m.to_.row m.to_.col = some q ∧ q.color ≠ p.color) ∨
      m.type = .EN_PASSANT ∨ m.type = .CASTLING := by
    unfold getPossibleMovesCore at h
    have slide : ∀ dirs, m ∈ addSlidingMoves b p r c dirs →
        (m.type = .NORMAL ∧ b.occupant m.to_.row m.to_.col = none) ∨
        (m.type = .CAPTURE ∧ ∃ q, b.occupant m.to_.row m.to_.col = some q ∧
          q.color ≠ p.color) ∨ m.type = .EN_PASSANT ∨ m.type = .CASTLING := by
      intro dirs hmem
      unfold addSlidingMoves at hmem
      rw [List.mem_flatMap] at hmem
      obtain ⟨d, _, hd⟩ := hmem
      rcases destination_of_mem_slideRay b p r c _ _ _ _ _ m hd with h1 | h1
      · exact Or.inl h1
      · exact Or.inr (Or.inl h1)
    have step : ∀ offs, m ∈ stepMoves b p r c offs →
        (m.type = .NORMAL ∧ b.occupant m.to_.row m.to_.col = none) ∨
        (m.type = .CAPTURE ∧ ∃ q, b.occupant m.to_.row m.to_.col = some q ∧
          q.color ≠ p.color) ∨ m.type = .EN_PASSANT ∨ m.type = .CASTLING := by
      intro offs hmem
      rcases destination_of_mem_stepMoves b p r c offs m hmem with h1 | h1
      · exact Or.inl h1
      · exact Or.inr (Or.inl h1)
    cases hty : p.type with
    | PAWN =>
      rw [hty] at h
      simp only [Except.ok.injEq] at h
      subst h
      rw [mem_pawnMoves] at hm
      rcases hm with hm | ⟨x, _, hm⟩ | ⟨_, x, _, hm⟩
      · left
        rw [mem_pawnAdvance] at hm
        obtain ⟨_, h1, hm⟩ := hm
        rcases hm with hm | ⟨_, _, h2, hm⟩
        · rw [hm]; exact ⟨rfl, h1⟩
        · rw [hm]; exact ⟨rfl, h2⟩
      · right; left
        rw [mem_pawnCapture] at hm
        obtain ⟨q, _, h1, h2, hm⟩ := hm
        rw [hm]
        exact ⟨rfl, q, h1, h2⟩
      · right; right; left
        obtain ⟨q, _, _, _, _, _, hmk⟩ := (mem_pawnEnPassant s b p r c x m).mp hm
        rw [hmk]
    | ROOK => rw [hty] at h; simp only [Except.ok.injEq] at h; subst h; exact slide _ hm
    | BISHOP => rw [hty] at h; simp only [Except.ok.injEq] at h; subst h; exact slide _ hm
    | QUEEN => rw [hty] at h; simp only [Except.ok.injEq] at h; subst h; exact slide _ hm
    | KNIGHT => rw [hty] at h; simp only [Except.ok.injEq] at h; subst h; exact step _ hm
    | KING =>
      rw [hty] at h
      dsimp only at h
      cases hcs : castlingMoves chk s b p r c with
      | error e => rw [hcs] at h; simp at h
      | ok cs =>
        rw [hcs] at h
        simp only [Except.ok.injEq] at h
        subst h
        rw [List.mem_append] at hm
        rcases hm with hm | hm
        · exact step _ hm
        · right; right; right
          exact (castlingMoves_destination_empty chk s b p r c cs hcs m hm).1
  constructor
  · intro hn
    rcases key with h1 | h1 | h1 | h1
    · exact h1.2
    · rw [hn] at h1; cases h1.1
    · rw [hn] at h1; cases h1
    · rw [hn] at h1; cases h1
  · intro hc
    rcases key with h1 | h1 | h1 | h1
    · rw [hc] at h1; cases h1.1
    · exact h1.2
    · rw [hc] at h1; cases h1
    · rw [hc] at h1; cases h1

/-- On a NORMAL or CAPTURE move of the occupant `p` of the origin, with origin
and destination different squares of the board, `Gameplay.move` returns true
and leaves the board of the dry run. -/
theorem move_eq_dryRunBoard (s : GameStatus) (b : Board) (p : Piece) (m : Move)
    (hty : m.type = .NORMAL ∨ m.type = .CAPTURE)
    (hf : inRange m.from_.row m.from_.col) (ht : inRange m.to_.row m.to_.col)
    (hocc : b.occupant m.from_.row m.from_.col = some p)
    (hne : ¬ (m.from_.row = m.to_.row ∧ m.from_.col = m.to_.col)) :
    move s b m = .ok (true, statusAfterMove s b m, dryRunBoard b p m) := by
  have hsq := ((occupant_eq_some_iff b _ _ p).mp hocc).2
  have hne3 : ¬ (m.to_.row = m.from_.row ∧ m.to_.col = m.from_.col) :=
    fun h => hne ⟨h.1.symm, h.2.symm⟩
  rcases hty with h | h
  · unfold move statusAfterMove
    rw [h]
    dsimp only
    rw [relocate_eq b _ _ _ _ hf ht, hsq]
    have : (b.setOccupant m.from_.row m.from_.col none).setOccupant m.to_.row m.to_.col
        (some p) = dryRunBoard b p m := by
      apply Board.ext_squares
      intro r c
      simp only [dryRunBoard, squares_setOccupant]
      by_cases h1 : r = m.to_.row ∧ c = m.to_.col
      · have h2 : ¬ (r = m.from_.row ∧ c = m.from_.col) := by
          rw [h1.1, h1.2]; exact hne3
        rw [if_pos h1, if_neg h2, if_pos h1]
      · rw [if_neg h1]
        by_cases h2 : r = m.from_.row ∧ c = m.from_.col
        · rw [if_pos h2, if_pos h2]
        · rw [if_neg h2, if_neg h2, if_neg h1]
    rw [this]
  · unfold move statusAfterMove
    rw [h]
    dsimp only
    rw [removeOccupyingPiece_eq b _ _ ht]
    dsimp only
    rw [relocate_eq _ _ _ _ _ hf ht]
    have hs : ((b.setOccupant m.to_.row m.to_.col none).squares m.from_.row
        m.from_.col).occupyingPiece = some p := by
      rw [squares_setOccupant, if_neg hne, hsq]
    rw [hs]
    have : ((b.setOccupant m.to_.row m.to_.col none).setOccupant m.from_.row m.from_.col
        none).setOccupant m.to_.row m.to_.col (some p) = dryRunBoard b p m := by
      apply Board.ext_squares
      intro r c
      simp only [dryRunBoard, squares_setOccupant]
      by_cases h1 : r = m.to_.row ∧ c = m.to_.col
      · have h2 : ¬ (r = m.from_.row ∧ c = m.from_.col) := by
          rw [h1.1, h1.2]; exact hne3
        rw [if_pos h1, if_neg h2, if_pos h1]
      · rw [if_neg h1]
        by_cases h2 : r = m.from_.row ∧ c = m.from_.col
        · rw [if_pos h2, if_pos h2]
        · rw [if_neg h2, if_neg h2, if_neg h1, if_neg h1]
    rw [this]

/-- C22: for an occupied square of the board with occupant `p`, every NORMAL
or CAPTURE move `m` in the list `getValidMoves` returns is among the possible
moves and passed its test on the dry-run board; `Gameplay.move` returns true on
it and leaves exactly that dry-run board; whatever value `isCheckState`
returns under the old status, on any board and for any colour, it returns
under the status the move leaves; hence after the move `isCheckState` for the
colour of `p` returns false. -/
theorem dry_run_agrees_with_move (fuel : Nat) (s : GameStatus) (b : Board) (p : Piece)
    (r c : Int) (hin : inRange r c) (hocc : b.occupant r c = some p)
    (valid : List Move) (b1 : Board)
    (hv : getValidMoves fuel s b (some p) r c = .ok (valid, b1))
    (m : Move) (hm : m ∈ valid) (hty : m.type = .NORMAL ∨ m.type = .CAPTURE) :
    (∃ possible, getPossibleMoves fuel s b (some p) r c = .ok possible ∧ m ∈ possible) ∧
    isCheckState fuel s (dryRunBoard b p m) p.color = .ok false ∧
    ∃ s2 b2, move s b m = .ok (true, s2, b2) ∧
      b2 = dryRunBoard b p m ∧
      (∀ (b3 : Board) (color : PieceColor) (v : Bool),
        isCheckState fuel s b3 color = .ok v → isCheckState fuel s2 b3 color = .ok v) ∧
      isCheckState fuel s2 b2 p.color = .ok false := by
  obtain ⟨possible, hp, hres⟩ := getValidMoves_eq fuel s b p r c hin hocc _ hv
  simp only [Prod.mk.injEq] at hres
  rw [hres.1, List.mem_filter, decide_eq_true_eq] at hm
  obtain ⟨hmem, hdry⟩ := hm
  obtain ⟨hfrom, _, hto, _, _⟩ := generatedFrom_getPossibleMovesCore _ _ _ _ _ _ _ _ hp hmem
  have hfr : m.from_.row = r := by rw [hfrom]
  have hfc : m.from_.col = c := by rw [hfrom]
  have hf : inRange m.from_.row m.from_.col := by rw [hfr, hfc]; exact hin
  have hocc2 : b.occupant m.from_.row m.from_.col = some p := by rw [hfr, hfc]; exact hocc
  have hdest := destination_of_normal_capture _ s b p r c possible hp m hmem
  have hne : ¬ (m.from_.row = m.to_.row ∧ m.from_.col = m.to_.col) := by
    intro h
    rw [h.1, h.2] at hocc2
    rcases hty with h1 | h1
    · rw [hdest.1 h1] at hocc2
      cases hocc2
    · obtain ⟨q, hq, hqc⟩ := hdest.2 h1
      rw [hq] at hocc2
      simp only [Option.some.injEq] at hocc2
      rw [hocc2] at hqc
      exact hqc rfl
  have hmono : ∀ (b3 : Board) (color : PieceColor) (v : Bool),
      isCheckState fuel s b3 color = .ok v →
        isCheckState fuel (statusAfterMove s b m) b3 color = .ok v :=
    fun b3 color v h =>
      isCheckState_status_mono fuel s _ b3 color v (flagsLe_statusAfterMove s b m) h
  exact ⟨⟨possible, hp, hmem⟩, hdry, statusAfterMove s b m, dryRunBoard b p m,
    move_eq_dryRunBoard s b p m hty hf hto hocc2 hne, rfl, hmono, hmono _ _ _ hdry⟩

/-- C22, on the pin position: the king step a5-a6 is among the valid moves of
the king; applying it leaves the board on which it was tested, and the white
king is not in check afterwards. -/
theorem dry_run_agrees_with_move_witness :
    ∃ valid s2, getValidMoves 1 pinStatus pinBoard (some pinWhiteKing) 5 1 =
        .ok (valid, pinBoard) ∧ pinKingStep ∈ valid ∧
      move pinStatus pinBoard pinKingStep =
        .ok (true, s2, dryRunBoard pinBoard pinWhiteKing pinKingStep) ∧
      isCheckState 1 s2 (dryRunBoard pinBoard pinWhiteKing pinKingStep) .WHITE = .ok false := by
  have h1 : (match getValidMoves 1 pinStatus pinBoard (some pinWhiteKing) 5 1 with
      | .error _ => false
      | .ok res => decide (pinKingStep ∈ res.1)) = true := by decide!
  cases hv : getValidMoves 1 pinStatus pinBoard (some pinWhiteKing) 5 1 with
  | error e => rw [hv] at h1; simp at h1
  | ok res =>
    obtain ⟨valid, b1⟩ := res
    rw [hv] at h1
    simp only [decide_eq_true_eq] at h1
    obtain ⟨_, hb⟩ := getValidMoves_eq 1 pinStatus pinBoard pinWhiteKing 5 1 (by decide)
      (by decide!) _ hv
    obtain ⟨_, hb1⟩ := hb
    simp only [Prod.mk.injEq] at hb1
    obtain ⟨_, _, s2, b2, hmv, hb2, _, hchk⟩ :=
      dry_run_agrees_with_move 1 pinStatus pinBoard pinWhiteKing 5 1 (by decide) (by decide!)
        valid b1 hv pinKingStep h1 (Or.inl rfl)
    subst hb2
    rw [hb1.2]
    exact ⟨valid, s2, rfl, h1, hmv, hchk⟩

end Chess
